import Mathlib

/-!
# librest XML tree builder (`rest/rest-xml-parser.c`)

A shallow embedding of the streaming tree builder, of the node type and of the
two query operations, followed by theorems about them.

Modelling decisions.

* Memory is a `Heap`: a list of `RestXmlNode` records, a pointer is an index
  into it, `NULL` is `none`.  `rest_xml_node_new` allocates at the end of the
  heap, so the address of a node is the number of element-start tokens that
  were read before its own.
* A `GHashTable` is an association list.  `g_hash_table_insert` replaces the
  value of a key that is present and appends a key that is not;
  `g_hash_table_lookup` returns the value of the key.  Keys of `children` are
  interned strings compared by address, which is string equality.
* The order in which `g_hash_table_get_values` lists a table is not specified
  by GLib.  It is a parameter, `HashOrder`: any function that permutes the
  entries of a table.
* The token source (libxml2's `xmlTextReader`) is a list of `Token`s, the
  tokens for which `xmlTextReaderRead` returned 1.
* A dereference of `NULL`, a failed `g_assert` and a loop that exhausts its
  iteration budget are the three `Fault`s.  The two `while` loops over
  pointers take the heap size as budget.
-/

namespace RestXml

/-- Ways in which the embedded code can fail to return. -/
inductive Fault where
  | nullDeref
  | assertFailed
  | outOfFuel
  deriving DecidableEq, Repr

/-- The struct `RestXmlNode`: tag name, attribute table, table of children by
tag name, link to the next sibling of the same name, text content. -/
structure RestXmlNode where
  name : String
  attrs : List (String × String)
  children : List (String × Nat)
  next : Option Nat
  content : Option String
  deriving DecidableEq, Repr

/-- Memory: node `p` lives at index `p`. -/
abbrev Heap := List RestXmlNode

/-- One event of the pull reader: `XML_READER_TYPE_ELEMENT` with its name,
its attributes in reader order and `xmlTextReaderIsEmptyElement`;
`XML_READER_TYPE_END_ELEMENT`; `XML_READER_TYPE_TEXT`; any other type. -/
inductive Token where
  | element (name : String) (attrs : List (String × String)) (isEmpty : Bool)
  | endElement (name : String)
  | text (value : String)
  | other
  deriving DecidableEq, Repr

/-- Enumeration order of `g_hash_table_get_values`: some permutation of the
entries of the table. -/
structure HashOrder where
  enum : List (String × Nat) → List (String × Nat)
  perm : ∀ l, (enum l).Perm l

/-- Entries are listed in the order in which their keys were first inserted. -/
def HashOrder.insertion : HashOrder := ⟨fun l => l, fun l => List.Perm.refl l⟩

/-- Entries are listed latest key first. -/
def HashOrder.latestFirst : HashOrder := ⟨List.reverse, List.reverse_perm⟩

/-- `g_hash_table_lookup`. -/
def g_hash_table_lookup {V : Type} : List (String × V) → String → Option V
  | [], _ => none
  | (a, v) :: t, k => if a = k then some v else g_hash_table_lookup t k

/-- `g_hash_table_insert`: the value of a present key is replaced (the old key
is kept), an absent key is added. -/
def g_hash_table_insert {V : Type} : List (String × V) → String → V → List (String × V)
  | [], k, v => [(k, v)]
  | (a, w) :: t, k, v => if a = k then (a, v) :: t else (a, w) :: g_hash_table_insert t k v

/-- `g_hash_table_get_values`. -/
def g_hash_table_get_values (ord : HashOrder) (t : List (String × Nat)) : List Nat :=
  (ord.enum t).map Prod.snd

/-- `rest_xml_node_new` followed by the assignment of the interned name: the
record that `g_slice_new0` zeroes, with two empty tables. -/
def rest_xml_node_new (name : String) : RestXmlNode :=
  { name := name, attrs := [], children := [], next := none, content := none }

/-- The `while (current)` loop of `rest_xml_node_reverse_siblings`. -/
def rest_xml_node_reverse_siblings_loop :
    Nat → Heap → Option Nat → Option Nat → Except Fault (Heap × Option Nat)
  | _, h, none, prev => .ok (h, prev)
  | 0, _, some _, _ => .error .outOfFuel
  | fuel + 1, h, some c, prev =>
    match h[c]? with
    | none => .error .nullDeref
    | some n =>
      rest_xml_node_reverse_siblings_loop fuel (h.set c { n with next := prev }) n.next (some c)

/-- `rest_xml_node_reverse_siblings`: in-place reversal of a `next` chain;
returns the new head. -/
def rest_xml_node_reverse_siblings (h : Heap) (current : Option Nat) :
    Except Fault (Heap × Option Nat) :=
  rest_xml_node_reverse_siblings_loop h.length h current none

/-- The `for` loop of `rest_xml_node_reverse_children_siblings` over the list
of values taken before the loop. -/
def rest_xml_node_reverse_children_siblings_loop (node : Nat) :
    Heap → List Nat → Except Fault Heap
  | h, [] => .ok h
  | h, l :: rest =>
    match rest_xml_node_reverse_siblings h (some l) with
    | .error e => .error e
    | .ok (_, none) => .error .nullDeref
    | .ok (h1, some new_node) =>
      match h1[new_node]?, h1[node]? with
      | some nn, some pn =>
        rest_xml_node_reverse_children_siblings_loop node
          (h1.set node { pn with children := g_hash_table_insert pn.children nn.name new_node })
          rest
      | _, _ => .error .nullDeref

/-- `rest_xml_node_reverse_children_siblings`. -/
def rest_xml_node_reverse_children_siblings (ord : HashOrder) (h : Heap) (node : Option Nat) :
    Except Fault Heap :=
  match node with
  | none => .error .nullDeref
  | some p =>
    match h[p]? with
    | none => .error .nullDeref
    | some n =>
      rest_xml_node_reverse_children_siblings_loop p h (g_hash_table_get_values ord n.children)

/-- `rest_xml_node_prepend`. -/
def rest_xml_node_prepend (h : Heap) (cur_node new_node : Nat) : Except Fault (Heap × Nat) :=
  match h[new_node]? with
  | none => .error .nullDeref
  | some n =>
    if n.next = none then .ok (h.set new_node { n with next := some cur_node }, new_node)
    else .error .assertFailed

/-- `rest_xml_node_get_attr`. -/
def rest_xml_node_get_attr (h : Heap) (node : Nat) (attr_name : String) :
    Except Fault (Option String) :=
  match h[node]? with
  | none => .error .nullDeref
  | some n => .ok (g_hash_table_lookup n.attrs attr_name)

/-- The `while` loop of `rest_xml_node_find`; the `GQueue` is a list whose
head is the head of the queue. -/
def rest_xml_node_find_loop (ord : HashOrder) (h : Heap) (tag : String) :
    Nat → List Nat → Except Fault (Option Nat)
  | _, [] => .ok none
  | 0, _ :: _ => .error .outOfFuel
  | fuel + 1, node :: stack =>
    match h[node]? with
    | none => .error .nullDeref
    | some n =>
      match g_hash_table_lookup n.children tag with
      | some tmp => .ok (some tmp)
      | none =>
        rest_xml_node_find_loop ord h tag fuel
          ((g_hash_table_get_values ord n.children).foldl (fun st c => c :: st) stack)

/-- `rest_xml_node_find`. -/
def rest_xml_node_find (ord : HashOrder) (h : Heap) (start : Nat) (tag : String) :
    Except Fault (Option Nat) :=
  rest_xml_node_find_loop ord h tag h.length [start]

/-- Local variables of `rest_xml_parser_parse_from_data` that live across
iterations, and the memory. -/
structure ParseState where
  heap : Heap
  nodes : List Nat
  cur_node : Option Nat
  root_node : Option Nat
  deriving DecidableEq, Repr

/-- State at entry of the read loop. -/
def ParseState.init : ParseState :=
  { heap := [], nodes := [], cur_node := none, root_node := none }

/-- The `if (cur_node)` block of the element case: the new node becomes the
entry of its name in the table of the current node, in front of the chain
already there. -/
def link_child (h : Heap) (cur_node : Option Nat) (new_node : Nat) : Except Fault Heap :=
  match cur_node with
  | none => .ok h
  | some c =>
    match h[c]?, h[new_node]? with
    | some cn, some nn =>
      match g_hash_table_lookup cn.children nn.name with
      | some tmp =>
        match h[tmp]? with
        | none => .error .nullDeref
        | some tn =>
          match rest_xml_node_prepend h tmp new_node with
          | .error e => .error e
          | .ok (h1, hd) =>
            match h1[c]? with
            | none => .error .nullDeref
            | some cn1 =>
              .ok (h1.set c { cn1 with children := g_hash_table_insert cn1.children tn.name hd })
      | none =>
        .ok (h.set c { cn with children := g_hash_table_insert cn.children nn.name new_node })
    | _, _ => .error .nullDeref

/-- The attribute loop of the element case. -/
def store_attrs (h : Heap) (new_node : Nat) (attrs : List (String × String)) :
    Except Fault Heap :=
  match h[new_node]? with
  | none => .error .nullDeref
  | some nn =>
    .ok (h.set new_node
      { nn with attrs := attrs.foldl (fun t kv => g_hash_table_insert t kv.1 kv.2) nn.attrs })

/-- The statement `if (!root_node) root_node = new_node;`. -/
def keep_root (root_node : Option Nat) (new_node : Nat) : Option Nat :=
  match root_node with
  | none => some new_node
  | some r => some r

/-- One iteration of the read loop of `rest_xml_parser_parse_from_data`. -/
def parse_step (ord : HashOrder) (s : ParseState) : Token → Except Fault ParseState
  | .element name attrs isEmpty =>
    let new_node := s.heap.length
    let h0 := s.heap ++ [rest_xml_node_new name]
    let root := keep_root s.root_node new_node
    match link_child h0 s.cur_node new_node with
    | .error e => .error e
    | .ok h1 =>
      let nodes := if isEmpty then s.nodes else new_node :: s.nodes
      let cur := if isEmpty then s.cur_node else some new_node
      match store_attrs h1 new_node attrs with
      | .error e => .error e
      | .ok h2 => .ok { heap := h2, nodes := nodes, cur_node := cur, root_node := root }
  | .endElement _ =>
    match rest_xml_node_reverse_children_siblings ord s.heap s.nodes.head? with
    | .error e => .error e
    | .ok h1 =>
      .ok { heap := h1, nodes := s.nodes.tail, cur_node := s.nodes.tail.head?,
            root_node := s.root_node }
  | .text value =>
    match s.cur_node with
    | none => .error .nullDeref
    | some c =>
      match s.heap[c]? with
      | none => .error .nullDeref
      | some cn =>
        .ok { s with heap := s.heap.set c { cn with content := some value } }
  | .other => .ok s

/-- The read loop of `rest_xml_parser_parse_from_data`. -/
def parse_loop (ord : HashOrder) : ParseState → List Token → Except Fault ParseState
  | s, [] => .ok s
  | s, t :: ts =>
    match parse_step ord s t with
    | .error e => .error e
    | .ok s1 => parse_loop ord s1 ts

/-- `rest_xml_parser_parse_from_data`: the memory at return and the returned
pointer `root_node`. -/
def rest_xml_parser_parse_from_data (ord : HashOrder) (toks : List Token) :
    Except Fault (Heap × Option Nat) :=
  match parse_loop ord ParseState.init toks with
  | .error e => .error e
  | .ok s => .ok (s.heap, s.root_node)

/-- Nodes met from `p` by following `next`, `p` first. -/
def chainFrom (h : Heap) : Nat → Option Nat → List Nat
  | _, none => []
  | 0, some _ => []
  | fuel + 1, some p =>
    match h[p]? with
    | none => [p]
    | some n => p :: chainFrom h fuel n.next

/-- One element-start token as the builder met it: the node on top of the
stack of open elements when the token was read, and the token's fields. -/
structure Origin where
  parent : Option Nat
  name : String
  attrs : List (String × String)
  isEmpty : Bool
  deriving DecidableEq, Repr

/-- The record kept for a token read in state `s`. -/
def trace_step (s : ParseState) (G : List Origin) : Token → List Origin
  | .element name attrs isEmpty => G ++ [⟨s.nodes.head?, name, attrs, isEmpty⟩]
  | _ => G

/-- The read loop together with the record of the element-start tokens read
so far, oldest first.  Entry `j` of the record belongs to node `j`. -/
def trace_loop (ord : HashOrder) :
    ParseState → List Origin → List Token → Except Fault (ParseState × List Origin)
  | s, G, [] => .ok (s, G)
  | s, G, t :: ts =>
    match parse_step ord s t with
    | .error e => .error e
    | .ok s1 => trace_loop ord s1 (trace_step s G t) ts

/-- The record of a whole run from the initial state (empty when the builder
faults). -/
def origins (ord : HashOrder) (toks : List Token) : List Origin :=
  match trace_loop ord ParseState.init [] toks with
  | .error _ => []
  | .ok r => r.2

/-- Addresses, counted from `base`, of the entries of a record whose parent is
`q` and whose name is `k`, in increasing order. -/
def kidsFrom (q : Nat) (k : String) : Nat → List Origin → List Nat
  | _, [] => []
  | base, o :: L =>
    if o.parent = some q ∧ o.name = k then base :: kidsFrom q k (base + 1) L
    else kidsFrom q k (base + 1) L

/-- The children of node `q` named `k`, in the order of their start tokens. -/
def kids (G : List Origin) (q : Nat) (k : String) : List Nat := kidsFrom q k 0 G

/-- The `next` chain that starts at `o` is exactly the list `L` and ends with
`NULL`. -/
def IsChain (h : Heap) : Option Nat → List Nat → Prop
  | o, [] => o = none
  | o, p :: L => o = some p ∧ ∃ n, h[p]? = some n ∧ IsChain h n.next L

/-- Depth of open elements after a token sequence read at depth `d`; `none`
when an end token or a text token arrives while no element is open. -/
def nesting : Nat → List Token → Option Nat
  | d, [] => some d
  | d, .element _ _ isEmpty :: ts => nesting (if isEmpty then d else d + 1) ts
  | d, .endElement _ :: ts =>
    match d with
    | 0 => none
    | d1 + 1 => nesting d1 ts
  | d, .text _ :: ts =>
    match d with
    | 0 => none
    | d1 + 1 => nesting (d1 + 1) ts
  | d, .other :: ts => nesting d ts

/-- A token sequence in which every end token closes an open element, every
text token arrives inside an element, and every element is closed. -/
def WellNested (toks : List Token) : Prop := nesting 0 toks = some 0

instance (toks : List Token) : Decidable (WellNested toks) := by
  unfold WellNested; infer_instance

/-- Two records that differ at most in `next`. -/
def NextOnly (n n1 : RestXmlNode) : Prop :=
  n1.name = n.name ∧ n1.attrs = n.attrs ∧ n1.children = n.children ∧ n1.content = n.content

/-- The attribute table that the attribute loop builds from an enumeration. -/
def attrs_table (attrs : List (String × String)) : List (String × String) :=
  attrs.foldl (fun t kv => g_hash_table_insert t kv.1 kv.2) []

/-- What holds of the builder's state after every token, `G` being the record
of the element-start tokens read so far. -/
structure Inv (G : List Origin) (s : ParseState) : Prop where
  len : G.length = s.heap.length
  cur : s.cur_node = s.nodes.head?
  root : s.root_node = if s.heap.length = 0 then none else some 0
  stack_lt : ∀ p ∈ s.nodes, p < s.heap.length
  stack_nodup : s.nodes.Nodup
  stack_open : ∀ p ∈ s.nodes, ∀ o, G[p]? = some o → o.isEmpty = false
  parent_lt : ∀ (j : Nat) o p, G[j]? = some o → o.parent = some p → p < j
  parent_open : ∀ (j : Nat) o p, G[j]? = some o → o.parent = some p →
    ∃ op, G[p]? = some op ∧ op.isEmpty = false
  node_origin : ∀ (j : Nat) n, s.heap[j]? = some n →
    ∃ o, G[j]? = some o ∧ n.name = o.name ∧ n.attrs = attrs_table o.attrs
  keys_nodup : ∀ (p : Nat) n, s.heap[p]? = some n → (n.children.map Prod.fst).Nodup
  chains_open : ∀ (p : Nat) n k, s.heap[p]? = some n → p ∈ s.nodes →
    IsChain s.heap (g_hash_table_lookup n.children k) (kids G p k).reverse
  chains_closed : ∀ (p : Nat) n k, s.heap[p]? = some n → p ∉ s.nodes →
    IsChain s.heap (g_hash_table_lookup n.children k) (kids G p k)
  next_lt : ∀ (j : Nat) n x, s.heap[j]? = some n → n.next = some x → x < s.heap.length
  empty_content : ∀ (j : Nat) o n, G[j]? = some o → o.isEmpty = true →
    s.heap[j]? = some n → n.content = none

/-- During the loop of `rest_xml_node_reverse_children_siblings` on the table
of `p`: the chain of name `k` has not been reversed yet, its old head is still
in the list `vs` of values to visit. -/
def Pending (G : List Origin) (p : Nat) (vs : List Nat) (k : String) : Prop :=
  ∃ v ∈ vs, (kids G p k).getLast? = some v

/-- The fields of an element-start token, `none` for the other tokens. -/
def Token.start? : Token → Option (String × List (String × String) × Bool)
  | .element name attrs isEmpty => some (name, attrs, isEmpty)
  | _ => none

/-- Number of element-start tokens of a sequence: the address that the next
element-start token after it receives. -/
def countElements (toks : List Token) : Nat := (toks.filterMap Token.start?).length

/-- Node `b` is reached from node `a` through entries of `children` tables and
`next` links. -/
inductive Reach (h : Heap) : Nat → Nat → Prop
  | refl (a : Nat) : Reach h a a
  | child (a b c : Nat) (n : RestXmlNode) (k : String) :
      Reach h a b → h[b]? = some n → (k, c) ∈ n.children → Reach h a c
  | next (a b c : Nat) (n : RestXmlNode) :
      Reach h a b → h[b]? = some n → n.next = some c → Reach h a c

/-- Node `b` is reached from node `a` through entries of `children` tables
only, that is through chain heads. -/
inductive HeadReach (h : Heap) : Nat → Nat → Prop
  | refl (a : Nat) : HeadReach h a a
  | child (a b c : Nat) (n : RestXmlNode) (k : String) :
      HeadReach h a b → h[b]? = some n → (k, c) ∈ n.children → HeadReach h a c

/-- Node `c` is reached from node `a` through at least one entry of a
`children` table, the last of which is in the table of a node reached from `a`
through such entries. -/
def HeadReachPlus (h : Heap) (a c : Nat) : Prop :=
  ∃ p pn k, HeadReach h a p ∧ h[p]? = some pn ∧ (k, c) ∈ pn.children

/-- What the search has established when its stack is `S` and the nodes
popped so far are `V`. -/
structure FindInv (h : Heap) (start : Nat) (tag : String) (S V : List Nat) : Prop where
  nodup : (S ++ V).Nodup
  reach : ∀ x ∈ S ++ V, x < h.length ∧ HeadReach h start x
  miss : ∀ x ∈ V, ∀ xn, h[x]? = some xn → g_hash_table_lookup xn.children tag = none
  parent : ∀ x ∈ S ++ V, x ≠ start → ∃ p ∈ V, ∃ pn k, h[p]? = some pn ∧ (k, x) ∈ pn.children
  closure : ∀ m, HeadReach h start m → m ∈ V ∨ ∃ x ∈ S, HeadReach h x m
  above : ∀ x ∈ S, ∀ a, HeadReachPlus h a x → HeadReach h start a → a ∈ V

/-- Result of the search. -/
def FindResult (h : Heap) (start : Nat) (tag : String) (res : Option Nat) : Prop :=
  (∀ r, res = some r → ∃ m mn, HeadReach h start m ∧ h[m]? = some mn ∧
      g_hash_table_lookup mn.children tag = some r ∧
      ∀ a an, HeadReach h start a → HeadReachPlus h a m → h[a]? = some an →
        g_hash_table_lookup an.children tag = none) ∧
  (res = none → ∀ m mn, HeadReach h start m → h[m]? = some mn →
      g_hash_table_lookup mn.children tag = none)

/-- Number of ancestors of node `j` according to the record. -/
def depth (G : List Origin) : Nat → Nat → Nat
  | 0, _ => 0
  | fuel + 1, j =>
    match G[j]? with
    | none => 0
    | some o =>
      match o.parent with
      | none => 0
      | some p => depth G fuel p + 1

/-- Values of the text tokens of a run from state `s` that arrive while node
`n` is on top of the stack of open elements, in the order of arrival. -/
def texts_on_top (ord : HashOrder) (n : Nat) : ParseState → List Token → List String
  | _, [] => []
  | s, t :: ts =>
    let here : List String :=
      match t with
      | .text v => if s.nodes.head? = some n then [v] else []
      | _ => []
    match parse_step ord s t with
    | .error _ => here
    | .ok s1 => here ++ texts_on_top ord n s1 ts

/-- The scenario `<a><b x="1"/><b x="2"/><c/></a>` as the reader delivers it. -/
def scenario_siblings : List Token :=
  [.element "a" [] false, .element "b" [("x", "1")] true, .element "b" [("x", "2")] true,
   .element "c" [] true, .endElement "a"]

/-- The memory that the builder returns on `scenario_siblings`. -/
def scenario_siblings_heap : Heap :=
  [{ name := "a", attrs := [], children := [("b", 1), ("c", 3)], next := none, content := none },
   { name := "b", attrs := [("x", "1")], children := [], next := some 2, content := none },
   { name := "b", attrs := [("x", "2")], children := [], next := none, content := none },
   { name := "c", attrs := [], children := [], next := none, content := none }]

/-- The scenario `<a>hello</a>`. -/
def scenario_text : List Token :=
  [.element "a" [] false, .text "hello", .endElement "a"]

/-- The scenario `<a><b/></a><a><c/></a>`: two top-level elements. -/
def scenario_two_roots : List Token :=
  [.element "a" [] false, .element "b" [] true, .endElement "a",
   .element "a" [] false, .element "c" [] true, .endElement "a"]

/-- The single token `<t/>`. -/
def scenario_lone : List Token := [.element "t" [] true]

/-- The document `<r><a/><a><t/></a></r>`: the only `t` is below the second
`a`. -/
def scenario_hidden : List Token :=
  [.element "r" [] false, .element "a" [] true, .element "a" [] false,
   .element "t" [] true, .endElement "a", .endElement "r"]

/-- The document `<r><a><x><t/></x></a><a><t/></a></r>`: one `t` at depth 3
below the first `a`, one at depth 2 below the second `a`. -/
def scenario_depth : List Token :=
  [.element "r" [] false, .element "a" [] false, .element "x" [] false,
   .element "t" [] true, .endElement "x", .endElement "a", .element "a" [] false,
   .element "t" [] true, .endElement "a", .endElement "r"]

/-- The memory that the builder returns on `scenario_depth`. -/
def scenario_depth_heap : Heap :=
  [{ name := "r", attrs := [], children := [("a", 1)], next := none, content := none },
   { name := "a", attrs := [], children := [("x", 2)], next := some 4, content := none },
   { name := "x", attrs := [], children := [("t", 3)], next := none, content := none },
   { name := "t", attrs := [], children := [], next := none, content := none },
   { name := "a", attrs := [], children := [("t", 5)], next := none, content := none },
   { name := "t", attrs := [], children := [], next := none, content := none }]

/-- The stream `<a><b x="1"/><b x="2"/>` that ends before `a` is closed. -/
def scenario_truncated : List Token :=
  [.element "a" [] false, .element "b" [("x", "1")] true, .element "b" [("x", "2")] true]

/-- A sequence of items between a start tag and its end tag, first item
first: a non-empty element with its own content, a self-closing element, a
text, or anything else the reader reports (a comment, white space); `rest` is
what follows the item.  A document is one element. -/
inductive Content where
  | nil
  | elem (name : String) (attrs : List (String × String)) (body : Content) (rest : Content)
  | empty (name : String) (attrs : List (String × String)) (rest : Content)
  | text (value : String) (rest : Content)
  | other (rest : Content)
  deriving Repr

/-- The token stream of a content. -/
def Content.tokens : Content → List Token
  | .nil => []
  | .elem name attrs body rest =>
    .element name attrs false :: (body.tokens ++ .endElement name :: rest.tokens)
  | .empty name attrs rest => .element name attrs true :: rest.tokens
  | .text value rest => .text value :: rest.tokens
  | .other rest => .other :: rest.tokens

/-- Number of elements of a content, at all depths. -/
def Content.size : Content → Nat
  | .nil => 0
  | .elem _ _ body rest => 1 + body.size + rest.size
  | .empty _ _ rest => 1 + rest.size
  | .text _ rest => rest.size
  | .other rest => rest.size

/-- Tag names of the elements of a content at its top level, in order. -/
def Content.childNames : Content → List String
  | .nil => []
  | .elem name _ _ rest => name :: rest.childNames
  | .empty name _ rest => name :: rest.childNames
  | .text _ rest => rest.childNames
  | .other rest => rest.childNames

/-- No element, at any depth, has two children with the same tag name, and no
two elements of the top level have the same tag name. -/
def Content.NoDupSiblings : Content → Prop
  | .nil => True
  | .elem name _ body rest =>
    name ∉ rest.childNames ∧ body.NoDupSiblings ∧ rest.NoDupSiblings
  | .empty name _ rest => name ∉ rest.childNames ∧ rest.NoDupSiblings
  | .text _ rest => rest.NoDupSiblings
  | .other rest => rest.NoDupSiblings

/-- The tree below node `p` mirrors the content `c` of its element: every
element of the top level of `c` has, under its tag name, an entry of the table
of `p` that is a one-node chain; that node carries the name and the attributes
of the element, the keys of its table are the tag names of the element's
children, and the tree below it mirrors the element's content. -/
def Mirrors (h : Heap) : Nat → Content → Prop
  | _, .nil => True
  | p, .elem name attrs body rest =>
    (∃ pn v vn, h[p]? = some pn ∧ g_hash_table_lookup pn.children name = some v ∧
      h[v]? = some vn ∧ vn.name = name ∧ vn.attrs = attrs_table attrs ∧ vn.next = none ∧
      (∀ k, k ∈ vn.children.map Prod.fst ↔ k ∈ body.childNames) ∧ Mirrors h v body) ∧
    Mirrors h p rest
  | p, .empty name attrs rest =>
    (∃ pn v vn, h[p]? = some pn ∧ g_hash_table_lookup pn.children name = some v ∧
      h[v]? = some vn ∧ vn.name = name ∧ vn.attrs = attrs_table attrs ∧ vn.next = none ∧
      vn.children = []) ∧
    Mirrors h p rest
  | p, .text _ rest => Mirrors h p rest
  | p, .other rest => Mirrors h p rest

/-- The record of the element-start tokens of a content whose first element
receives address `base` and whose enclosing element is `par`. -/
def originsOf (par : Option Nat) : Nat → Content → List Origin
  | _, .nil => []
  | base, .elem name attrs body rest =>
    ⟨par, name, attrs, false⟩ ::
      (originsOf (some base) (base + 1) body ++ originsOf par (base + 1 + body.size) rest)
  | base, .empty name attrs rest => ⟨par, name, attrs, true⟩ :: originsOf par (base + 1) rest
  | base, .text _ rest => originsOf par base rest
  | base, .other rest => originsOf par base rest

/-- Addresses of the top-level elements of a content that are named `k`, the
first element of the content being at address `base`. -/
def directIds (k : String) : Nat → Content → List Nat
  | _, .nil => []
  | base, .elem name _ body rest =>
    if name = k then base :: directIds k (base + 1 + body.size) rest
    else directIds k (base + 1 + body.size) rest
  | base, .empty name _ rest =>
    if name = k then base :: directIds k (base + 1) rest else directIds k (base + 1) rest
  | base, .text _ rest => directIds k base rest
  | base, .other rest => directIds k base rest

/-- The record `G` holds the elements of the content `c` from address `base`
on, with the children that `c` gives them. -/
def Laid (G : List Origin) (par : Option Nat) : Nat → Content → Prop
  | _, .nil => True
  | base, .elem name attrs body rest =>
    G[base]? = some ⟨par, name, attrs, false⟩ ∧
    (∀ k, kids G base k = directIds k (base + 1) body) ∧
    Laid G (some base) (base + 1) body ∧ Laid G par (base + 1 + body.size) rest
  | base, .empty name attrs rest =>
    G[base]? = some ⟨par, name, attrs, true⟩ ∧ (∀ k, kids G base k = []) ∧
    Laid G par (base + 1) rest
  | base, .text _ rest => Laid G par base rest
  | base, .other rest => Laid G par base rest

/-- The document `<a><b><d/></b>text<c/></a>`. -/
def scenario_nested : Content :=
  .elem "b" [] (.empty "d" [] .nil) (.text "text" (.empty "c" [] .nil))

/-- The memory that the builder returns on `scenario_hidden`. -/
def scenario_hidden_heap : Heap :=
  [{ name := "r", attrs := [], children := [("a", 1)], next := none, content := none },
   { name := "a", attrs := [], children := [], next := some 2, content := none },
   { name := "a", attrs := [], children := [("t", 3)], next := none, content := none },
   { name := "t", attrs := [], children := [], next := none, content := none }]

/-- The memory that the builder returns on `scenario_truncated`. -/
def scenario_truncated_heap : Heap :=
  [{ name := "a", attrs := [], children := [("b", 2)], next := none, content := none },
   { name := "b", attrs := [("x", "1")], children := [], next := none, content := none },
   { name := "b", attrs := [("x", "2")], children := [], next := some 1, content := none }]

/-- Depth of open elements after a token sequence read at depth `d`, texts
being allowed at every depth; `none` when an end token arrives at depth 0. -/
def balance : Nat → List Token → Option Nat
  | d, [] => some d
  | d, .element _ _ isEmpty :: ts => balance (if isEmpty then d else d + 1) ts
  | d, .endElement _ :: ts =>
    match d with
    | 0 => none
    | d1 + 1 => balance d1 ts
  | d, .text _ :: ts => balance d ts
  | d, .other :: ts => balance d ts

/-- A token sequence in which every end token closes an element opened in the
sequence and every element opened in it is closed in it: what stands between
a start token and the end token that matches it. -/
def Balanced (toks : List Token) : Prop := balance 0 toks = some 0

instance (toks : List Token) : Decidable (Balanced toks) := by
  unfold Balanced; infer_instance

/-- The `while (l)` loop of `rest_xml_node_free` over the list of values of
the table of children; `free_node` is the recursive call.  The result lists
the nodes released, in the order of their release. -/
def rest_xml_node_free_loop (free_node : Nat → Except Fault (List Nat)) :
    List Nat → Except Fault (List Nat)
  | [] => .ok []
  | v :: l =>
    match free_node v with
    | .error e => .error e
    | .ok a =>
      match rest_xml_node_free_loop free_node l with
      | .error e => .error e
      | .ok b => .ok (a ++ b)

/-- `rest_xml_node_free` with a bound on the depth of the recursion: the nodes
given to `g_slice_free`, in the order of their release.  The values of the
table of children are released first, then the node itself; the field `next`
is not read. -/
def rest_xml_node_free_fuel (ord : HashOrder) (h : Heap) : Nat → Nat → Except Fault (List Nat)
  | 0, _ => .error .outOfFuel
  | fuel + 1, node =>
    match h[node]? with
    | none => .error .nullDeref
    | some n =>
      match rest_xml_node_free_loop (fun v => rest_xml_node_free_fuel ord h fuel v)
          (g_hash_table_get_values ord n.children) with
      | .error e => .error e
      | .ok freed => .ok (freed ++ [node])

/-- `rest_xml_node_free`: a path of a tree has at most as many nodes as the
memory. -/
def rest_xml_node_free (ord : HashOrder) (h : Heap) (node : Nat) : Except Fault (List Nat) :=
  rest_xml_node_free_fuel ord h h.length node

/-- The document `<a><b/><b/></a>`. -/
def scenario_twins : List Token :=
  [.element "a" [] false, .element "b" [] true, .element "b" [] true, .endElement "a"]

/-- The memory that the builder returns on `scenario_twins`. -/
def scenario_twins_heap : Heap :=
  [{ name := "a", attrs := [], children := [("b", 1)], next := none, content := none },
   { name := "b", attrs := [], children := [], next := some 2, content := none },
   { name := "b", attrs := [], children := [], next := none, content := none }]

/-! ## Hash tables -/

theorem lookup_insert_self {V : Type} (t : List (String × V)) (k : String) (v : V) :
    g_hash_table_lookup (g_hash_table_insert t k v) k = some v := by
  induction t with
  | nil => simp [g_hash_table_insert, g_hash_table_lookup]
  | cons e t ih =>
    obtain ⟨a, w⟩ := e
    by_cases hak : a = k
    · simp [g_hash_table_insert, g_hash_table_lookup, hak]
    · simp [g_hash_table_insert, g_hash_table_lookup, hak, ih]

theorem lookup_insert_ne {V : Type} (t : List (String × V)) (k k1 : String) (v : V)
    (hne : k1 ≠ k) :
    g_hash_table_lookup (g_hash_table_insert t k v) k1 = g_hash_table_lookup t k1 := by
  induction t with
  | nil =>
    have : ¬ k = k1 := fun h => hne h.symm
    simp [g_hash_table_insert, g_hash_table_lookup, this]
  | cons e t ih =>
    obtain ⟨a, w⟩ := e
    by_cases hak : a = k
    · have : ¬ a = k1 := fun h => hne (h.symm.trans hak)
      simp [g_hash_table_insert, g_hash_table_lookup, hak]
      subst hak
      simp [this]
    · by_cases hak1 : a = k1
      · subst hak1
        simp [g_hash_table_insert, g_hash_table_lookup, hak]
      · simp [g_hash_table_insert, g_hash_table_lookup, hak, hak1, ih]

theorem lookup_eq_none_iff {V : Type} (t : List (String × V)) (k : String) :
    g_hash_table_lookup t k = none ↔ k ∉ t.map Prod.fst := by
  induction t with
  | nil => simp [g_hash_table_lookup]
  | cons e t ih =>
    obtain ⟨a, w⟩ := e
    by_cases hak : a = k
    · simp [g_hash_table_lookup, hak]
    · have : ¬ k = a := fun h => hak h.symm
      simp [g_hash_table_lookup, hak, ih, this]

theorem mem_of_lookup {V : Type} (t : List (String × V)) (k : String) (v : V)
    (h : g_hash_table_lookup t k = some v) : (k, v) ∈ t := by
  induction t with
  | nil => simp [g_hash_table_lookup] at h
  | cons e t ih =>
    obtain ⟨a, w⟩ := e
    by_cases hak : a = k
    · simp [g_hash_table_lookup, hak] at h
      simp [hak, h]
    · simp [g_hash_table_lookup, hak] at h
      exact List.mem_cons_of_mem _ (ih h)

theorem lookup_of_mem {V : Type} (t : List (String × V)) (k : String) (v : V)
    (hnd : (t.map Prod.fst).Nodup) (h : (k, v) ∈ t) : g_hash_table_lookup t k = some v := by
  induction t with
  | nil => simp at h
  | cons e t ih =>
    obtain ⟨a, w⟩ := e
    simp only [List.map_cons, List.nodup_cons] at hnd
    rcases List.mem_cons.1 h with h1 | h1
    · simp only [Prod.mk.injEq] at h1
      simp [g_hash_table_lookup, h1.1, h1.2]
    · have hk : k ∈ t.map Prod.fst := List.mem_map.2 ⟨(k, v), h1, rfl⟩
      have : ¬ a = k := fun e => hnd.1 (e ▸ hk)
      simp [g_hash_table_lookup, this, ih hnd.2 h1]

theorem keys_insert_of_mem {V : Type} (t : List (String × V)) (k : String) (v : V)
    (h : k ∈ t.map Prod.fst) :
    (g_hash_table_insert t k v).map Prod.fst = t.map Prod.fst := by
  induction t with
  | nil => simp at h
  | cons e t ih =>
    obtain ⟨a, w⟩ := e
    by_cases hak : a = k
    · simp [g_hash_table_insert, hak]
    · have h1 : k ∈ t.map Prod.fst := by
        simp only [List.map_cons, List.mem_cons] at h
        rcases h with h | h
        · exact absurd h.symm hak
        · exact h
      simp [g_hash_table_insert, hak, ih h1]

theorem keys_insert_of_not_mem {V : Type} (t : List (String × V)) (k : String) (v : V)
    (h : k ∉ t.map Prod.fst) :
    (g_hash_table_insert t k v).map Prod.fst = t.map Prod.fst ++ [k] := by
  induction t with
  | nil => simp [g_hash_table_insert]
  | cons e t ih =>
    obtain ⟨a, w⟩ := e
    simp only [List.map_cons, List.mem_cons, not_or] at h
    have hak : ¬ a = k := fun e => h.1 e.symm
    simp [g_hash_table_insert, hak, ih h.2]

theorem keys_insert_nodup {V : Type} (t : List (String × V)) (k : String) (v : V)
    (hnd : (t.map Prod.fst).Nodup) : ((g_hash_table_insert t k v).map Prod.fst).Nodup := by
  by_cases h : k ∈ t.map Prod.fst
  · rw [keys_insert_of_mem t k v h]; exact hnd
  · rw [keys_insert_of_not_mem t k v h]
    exact List.Nodup.append hnd (List.nodup_singleton k) (by simpa using h)

theorem lookup_isSome_of_mem_keys {V : Type} (t : List (String × V)) (k : String)
    (h : k ∈ t.map Prod.fst) : ∃ v, g_hash_table_lookup t k = some v := by
  cases hl : g_hash_table_lookup t k with
  | none => exact absurd h ((lookup_eq_none_iff t k).1 hl)
  | some v => exact ⟨v, rfl⟩

/-! ## Chains -/

theorem IsChain.head_eq {h : Heap} {o : Option Nat} {L : List Nat} (hc : IsChain h o L) :
    o = L.head? := by
  cases L with
  | nil => simpa [IsChain] using hc
  | cons p L => simpa [IsChain] using hc.1

theorem IsChain.congr {h h1 : Heap} {L : List Nat}
    (hs : ∀ j ∈ L, ∀ n, h[j]? = some n → ∃ n1, h1[j]? = some n1 ∧ n1.next = n.next) :
    ∀ {o : Option Nat}, IsChain h o L → IsChain h1 o L := by
  induction L with
  | nil => intro o hc; exact hc
  | cons p L ih =>
    intro o hc
    obtain ⟨ho, n, hn, hrest⟩ := hc
    obtain ⟨n1, hn1, hnext⟩ := hs p (List.mem_cons_self _ _) n hn
    refine ⟨ho, n1, hn1, ?_⟩
    rw [hnext]
    exact ih (fun j hj => hs j (List.mem_cons_of_mem _ hj)) hrest

theorem IsChain.unique {h : Heap} : ∀ {L M : List Nat} {o : Option Nat},
    IsChain h o L → IsChain h o M → L = M := by
  intro L
  induction L with
  | nil =>
    intro M o hL hM
    cases M with
    | nil => rfl
    | cons q M =>
      have h1 : o = none := hL
      have h2 := hM.1
      rw [h1] at h2; cases h2
  | cons p L ih =>
    intro M o hL hM
    obtain ⟨ho, n, hn, hrest⟩ := hL
    cases M with
    | nil =>
      have h1 : o = none := hM
      rw [h1] at ho; cases ho
    | cons q M =>
      obtain ⟨ho1, n1, hn1, hrest1⟩ := hM
      have hpq : p = q := by rw [ho] at ho1; exact Option.some.inj ho1
      subst hpq
      rw [hn] at hn1
      cases hn1
      rw [ih hrest hrest1]

theorem IsChain.lt_length {h : Heap} : ∀ {L : List Nat} {o : Option Nat},
    IsChain h o L → ∀ j ∈ L, j < h.length := by
  intro L
  induction L with
  | nil => intro o _ j hj; simp at hj
  | cons p L ih =>
    intro o hc j hj
    obtain ⟨_, n, hn, hrest⟩ := hc
    rcases List.mem_cons.1 hj with rfl | hj
    · by_contra hlt
      rw [List.getElem?_eq_none (Nat.le_of_not_lt hlt)] at hn
      cases hn
    · exact ih hrest j hj

theorem chainFrom_eq {h : Heap} : ∀ {L : List Nat} {o : Option Nat} {fuel : Nat},
    IsChain h o L → L.length ≤ fuel → chainFrom h fuel o = L := by
  intro L
  induction L with
  | nil =>
    intro o fuel hc _
    have h1 : o = none := hc
    subst h1
    cases fuel <;> rfl
  | cons p L ih =>
    intro o fuel hc hf
    obtain ⟨ho, n, hn, hrest⟩ := hc
    subst ho
    cases fuel with
    | zero => simp at hf
    | succ fuel =>
      simp only [List.length_cons, Nat.add_le_add_iff_right] at hf
      simp [chainFrom, hn, ih hrest hf]

/-! ## In-place reversal of one chain -/

theorem NextOnly.refl (n : RestXmlNode) : NextOnly n n := ⟨rfl, rfl, rfl, rfl⟩

theorem NextOnly.compose {a b c : RestXmlNode} (h1 : NextOnly a b) (h2 : NextOnly b c) :
    NextOnly a c :=
  ⟨h2.1.trans h1.1, h2.2.1.trans h1.2.1, h2.2.2.1.trans h1.2.2.1, h2.2.2.2.trans h1.2.2.2⟩

theorem reverse_siblings_loop_spec : ∀ (L : List Nat) (fuel : Nat) (h : Heap)
    (cur prev : Option Nat) (R : List Nat),
    IsChain h cur L → IsChain h prev R → (L ++ R).Nodup → L.length ≤ fuel →
    ∃ h1 o1, rest_xml_node_reverse_siblings_loop fuel h cur prev = .ok (h1, o1) ∧
      IsChain h1 o1 (L.reverse ++ R) ∧ h1.length = h.length ∧
      (∀ j : Nat, j ∉ L → h1[j]? = h[j]?) ∧
      (∀ (j : Nat) n, h[j]? = some n → ∃ n1, h1[j]? = some n1 ∧ NextOnly n n1) := by
  intro L
  induction L with
  | nil =>
    intro fuel h cur prev R hc hp _ _
    have h1 : cur = none := hc
    subst h1
    refine ⟨h, prev, ?_, by simpa using hp, rfl, fun _ _ => rfl,
      fun j n hn => ⟨n, hn, NextOnly.refl n⟩⟩
    cases fuel <;> rfl
  | cons c L ih =>
    intro fuel h cur prev R hc hp hnd hf
    obtain ⟨ho, n, hn, hrest⟩ := hc
    subst ho
    cases fuel with
    | zero => simp at hf
    | succ fuel =>
      simp only [List.length_cons, Nat.add_le_add_iff_right] at hf
      have hclt : c < h.length := by
        by_contra hlt
        rw [List.getElem?_eq_none (Nat.le_of_not_lt hlt)] at hn
        cases hn
      have hcL : c ∉ L := by
        have := hnd
        simp only [List.cons_append, List.nodup_cons, List.mem_append, not_or] at this
        exact this.1.1
      have hcR : c ∉ R := by
        have := hnd
        simp only [List.cons_append, List.nodup_cons, List.mem_append, not_or] at this
        exact this.1.2
      have hnd1 : (L ++ c :: R).Nodup := by
        have h2 : (L ++ c :: R).Perm (c :: L ++ R) := List.perm_middle
        exact h2.nodup_iff.2 hnd
      let h0 : Heap := h.set c { n with next := prev }
      have hget : ∀ j, j ≠ c → h0[j]? = h[j]? := by
        intro j hj
        simp [h0, List.getElem?_set, Ne.symm hj]
      have hgetc : h0[c]? = some { n with next := prev } := by
        simp [h0, List.getElem?_set, hclt]
      have hL0 : IsChain h0 n.next L :=
        IsChain.congr (fun j hj m hm =>
          ⟨m, by rw [hget j (fun e => hcL (e ▸ hj))]; exact hm, rfl⟩) hrest
      have hR0 : IsChain h0 (some c) (c :: R) := by
        refine ⟨rfl, _, hgetc, ?_⟩
        exact IsChain.congr (fun j hj m hm =>
          ⟨m, by rw [hget j (fun e => hcR (e ▸ hj))]; exact hm, rfl⟩) hp
      obtain ⟨h1, o1, hrun, hch, hlen, hframe, hdata⟩ :=
        ih fuel h0 n.next (some c) (c :: R) hL0 hR0 hnd1 hf
      refine ⟨h1, o1, ?_, ?_, ?_, ?_, ?_⟩
      · simp only [rest_xml_node_reverse_siblings_loop, hn]
        exact hrun
      · simpa using hch
      · rw [hlen]; simp [h0]
      · intro j hj
        simp only [List.mem_cons, not_or] at hj
        rw [hframe j hj.2, hget j hj.1]
      · intro j m hm
        by_cases hjc : j = c
        · subst hjc
          rw [hn] at hm
          cases hm
          obtain ⟨n1, hn1, hno⟩ := hdata j _ hgetc
          exact ⟨n1, hn1, NextOnly.compose ⟨rfl, rfl, rfl, rfl⟩ hno⟩
        · exact hdata j m (by rw [hget j hjc]; exact hm)

/-! ## Children of a node according to the record -/

theorem kidsFrom_cons (q : Nat) (k : String) (o : Origin) (L : List Origin) (base : Nat) :
    kidsFrom q k base (o :: L) =
      if o.parent = some q ∧ o.name = k then base :: kidsFrom q k (base + 1) L
      else kidsFrom q k (base + 1) L := rfl

theorem kidsFrom_append (q : Nat) (k : String) : ∀ (A B : List Origin) (base : Nat),
    kidsFrom q k base (A ++ B) = kidsFrom q k base A ++ kidsFrom q k (base + A.length) B := by
  intro A
  induction A with
  | nil => intro B base; simp [kidsFrom]
  | cons o A ih =>
    intro B base
    rw [List.cons_append, kidsFrom_cons, kidsFrom_cons, ih B (base + 1), List.length_cons]
    have : base + 1 + A.length = base + (A.length + 1) := by omega
    rw [this]
    split <;> simp

theorem mem_kidsFrom (q : Nat) (k : String) : ∀ (L : List Origin) (base j : Nat),
    j ∈ kidsFrom q k base L ↔
      base ≤ j ∧ ∃ o, L[j - base]? = some o ∧ o.parent = some q ∧ o.name = k := by
  intro L
  induction L with
  | nil => intro base j; simp [kidsFrom]
  | cons o L ih =>
    intro base j
    have hrec := ih (base + 1) j
    by_cases hj : j = base
    · subst hj
      by_cases hm : o.parent = some q ∧ o.name = k
      · simp [kidsFrom, hm]
      · simp only [kidsFrom, hm, if_false, hrec]
        constructor
        · rintro ⟨hle, _⟩; omega
        · rintro ⟨_, o1, ho1, hp⟩
          simp at ho1
          subst ho1
          exact absurd hp hm
    · have key : (base ≤ j ∧ ∃ o1, (o :: L)[j - base]? = some o1 ∧ o1.parent = some q ∧ o1.name = k)
          ↔ (base + 1 ≤ j ∧ ∃ o1, L[j - (base + 1)]? = some o1 ∧ o1.parent = some q ∧ o1.name = k) := by
        constructor
        · rintro ⟨hle, o1, ho1, hp⟩
          have hlt : base + 1 ≤ j := by omega
          refine ⟨hlt, o1, ?_, hp⟩
          have : j - base = (j - (base + 1)) + 1 := by omega
          rw [this] at ho1
          simpa using ho1
        · rintro ⟨hle, o1, ho1, hp⟩
          refine ⟨by omega, o1, ?_, hp⟩
          have : j - base = (j - (base + 1)) + 1 := by omega
          rw [this]
          simpa using ho1
      rw [key, ← hrec]
      by_cases hm : o.parent = some q ∧ o.name = k
      · simp [kidsFrom, hm, hj]
      · simp [kidsFrom, hm]

theorem mem_kids (G : List Origin) (q : Nat) (k : String) (j : Nat) :
    j ∈ kids G q k ↔ ∃ o, G[j]? = some o ∧ o.parent = some q ∧ o.name = k := by
  simp [kids, mem_kidsFrom]

theorem kidsFrom_sorted (q : Nat) (k : String) : ∀ (L : List Origin) (base : Nat),
    (kidsFrom q k base L).Pairwise (· < ·) := by
  intro L
  induction L with
  | nil => intro base; simp [kidsFrom]
  | cons o L ih =>
    intro base
    simp only [kidsFrom]
    split
    · refine List.Pairwise.cons ?_ (ih (base + 1))
      intro j hj
      have := ((mem_kidsFrom q k L (base + 1) j).1 hj).1
      omega
    · exact ih (base + 1)

theorem kids_sorted (G : List Origin) (q : Nat) (k : String) :
    (kids G q k).Pairwise (· < ·) := kidsFrom_sorted q k G 0

theorem kids_nodup (G : List Origin) (q : Nat) (k : String) : (kids G q k).Nodup :=
  (kids_sorted G q k).imp (fun h => Nat.ne_of_lt h)

theorem kids_lt (G : List Origin) (q : Nat) (k : String) (j : Nat) (hj : j ∈ kids G q k) :
    j < G.length := by
  obtain ⟨o, ho, _⟩ := (mem_kids G q k j).1 hj
  by_contra hlt
  rw [List.getElem?_eq_none (Nat.le_of_not_lt hlt)] at ho
  cases ho

theorem kids_length_le (G : List Origin) (q : Nat) (k : String) :
    (kids G q k).length ≤ G.length := by
  have hsub : kids G q k ⊆ List.range G.length := by
    intro j hj
    exact List.mem_range.2 (kids_lt G q k j hj)
  have := (List.subperm_of_subset (kids_nodup G q k) hsub).length_le
  simpa using this

theorem kids_append_one (G : List Origin) (o : Origin) (q : Nat) (k : String) :
    kids (G ++ [o]) q k =
      if o.parent = some q ∧ o.name = k then kids G q k ++ [G.length] else kids G q k := by
  unfold kids
  rw [kidsFrom_append]
  simp only [kidsFrom, Nat.zero_add]
  split <;> simp

theorem kids_eq_nil_of_forall (G : List Origin) (q : Nat) (k : String)
    (h : ∀ (j : Nat) o, G[j]? = some o → ¬ (o.parent = some q ∧ o.name = k)) :
    kids G q k = [] := by
  apply List.eq_nil_iff_forall_not_mem.2
  intro j hj
  obtain ⟨o, ho, hp⟩ := (mem_kids G q k j).1 hj
  exact h j o ho hp

theorem kids_name_unique (G : List Origin) (p q : Nat) (k k1 : String) (j : Nat)
    (h1 : j ∈ kids G p k) (h2 : j ∈ kids G q k1) : p = q ∧ k = k1 := by
  obtain ⟨o, ho, hp, hk⟩ := (mem_kids G p k j).1 h1
  obtain ⟨o1, ho1, hp1, hk1⟩ := (mem_kids G q k1 j).1 h2
  rw [ho] at ho1
  cases ho1
  rw [hp] at hp1
  exact ⟨Option.some.inj hp1, hk.symm.trans hk1⟩

theorem IsChain.next_mem {h : Heap} : ∀ {L : List Nat} {o : Option Nat},
    IsChain h o L → ∀ (j : Nat) n x, j ∈ L → h[j]? = some n → n.next = some x → x ∈ L := by
  intro L
  induction L with
  | nil => intro o _ j n x hj; simp at hj
  | cons p L ih =>
    intro o hc j n x hj hn hx
    obtain ⟨_, m, hm, hrest⟩ := hc
    rcases List.mem_cons.1 hj with rfl | hj
    · rw [hm] at hn
      cases hn
      have := hrest.head_eq
      rw [hx] at this
      cases L with
      | nil => simp at this
      | cons y L =>
        simp at this
        simp [this]
    · exact List.mem_cons_of_mem _ (ih hrest j n x hj hn hx)

theorem getElem?_set_ne_heap (h : Heap) (c j : Nat) (v : RestXmlNode) (hne : j ≠ c) :
    (h.set c v)[j]? = h[j]? := by
  simp [List.getElem?_set, Ne.symm hne]

theorem getElem?_set_self_heap (h : Heap) (c : Nat) (v n : RestXmlNode) (hc : h[c]? = some n) :
    (h.set c v)[c]? = some v := by
  have hclt : c < h.length := by
    by_contra hlt
    rw [List.getElem?_eq_none (Nat.le_of_not_lt hlt)] at hc
    cases hc
  simp [List.getElem?_set, hclt]

theorem getElem?_lt_heap {h : Heap} {c : Nat} {n : RestXmlNode} (hc : h[c]? = some n) :
    c < h.length := by
  by_contra hlt
  rw [List.getElem?_eq_none (Nat.le_of_not_lt hlt)] at hc
  cases hc

theorem getElem?_some_of_lt {α : Type} (h : List α) (c : Nat) (hc : c < h.length) :
    ∃ n, h[c]? = some n :=
  ⟨h[c], List.getElem?_eq_getElem hc⟩

theorem reverse_children_loop_spec (G : List Origin) (p : Nat)
    (hpar : ∀ (j : Nat) o q, G[j]? = some o → o.parent = some q → q < j) :
    ∀ (vs : List Nat) (h : Heap),
    G.length = h.length →
    (∀ (j : Nat) n, h[j]? = some n → ∃ o, G[j]? = some o ∧ n.name = o.name) →
    vs.Nodup →
    (∀ v ∈ vs, ∃ o, G[v]? = some o ∧ o.parent = some p ∧
      (kids G p o.name).getLast? = some v) →
    (∃ pn, h[p]? = some pn ∧ (pn.children.map Prod.fst).Nodup ∧
      ∀ k, (Pending G p vs k →
              IsChain h (g_hash_table_lookup pn.children k) (kids G p k).reverse) ∧
           (¬ Pending G p vs k →
              IsChain h (g_hash_table_lookup pn.children k) (kids G p k))) →
    ∃ h1, rest_xml_node_reverse_children_siblings_loop p h vs = .ok h1 ∧
      h1.length = h.length ∧
      (∀ (j : Nat) n, h[j]? = some n → ∃ n1, h1[j]? = some n1 ∧ n1.name = n.name ∧
        n1.attrs = n.attrs ∧ n1.content = n.content ∧
        (j ≠ p → n1.children = n.children) ∧
        (n1.children.map Prod.fst = n.children.map Prod.fst) ∧
        ((∀ o, G[j]? = some o → o.parent ≠ some p) → n1.next = n.next)) ∧
      (∀ pn1, h1[p]? = some pn1 →
        ∀ k, IsChain h1 (g_hash_table_lookup pn1.children k) (kids G p k)) := by
  intro vs
  induction vs with
  | nil =>
    intro h hlen hname _ _ hp
    obtain ⟨pn, hpn, _, hch⟩ := hp
    refine ⟨h, rfl, rfl, ?_, ?_⟩
    · intro j n hn
      exact ⟨n, hn, rfl, rfl, rfl, fun _ => rfl, rfl, fun _ => rfl⟩
    · intro pn1 hpn1 k
      rw [hpn] at hpn1
      cases hpn1
      exact (hch k).2 (by rintro ⟨v, hv, _⟩; simp at hv)
  | cons v vs ih =>
    intro h hlen hname hnd hvs hp
    obtain ⟨pn, hpn, hkeys, hch⟩ := hp
    obtain ⟨o, ho, hop, hlast⟩ := hvs v (List.mem_cons_self _ _)
    have hpend : Pending G p (v :: vs) o.name := ⟨v, List.mem_cons_self _ _, hlast⟩
    have hchain := (hch o.name).1 hpend
    have hhead : g_hash_table_lookup pn.children o.name = some v := by
      rw [hchain.head_eq, List.head?_reverse, hlast]
    rw [hhead] at hchain
    have hfuel : (kids G p o.name).reverse.length ≤ h.length := by
      rw [List.length_reverse, ← hlen]
      exact kids_length_le G p o.name
    obtain ⟨h1, o1, hrun, hch1, hlen1, hframe1, hdata1⟩ :=
      reverse_siblings_loop_spec (kids G p o.name).reverse h.length h (some v) none []
        hchain rfl (by simpa using kids_nodup G p o.name) hfuel
    simp only [List.reverse_reverse, List.append_nil] at hch1
    -- the new head is the first child of that name
    have hvmem : v ∈ kids G p o.name := List.mem_of_getLast?_eq_some hlast
    obtain ⟨first, rest, hkids⟩ : ∃ first rest, kids G p o.name = first :: rest := by
      cases hk : kids G p o.name with
      | nil => rw [hk] at hvmem; simp at hvmem
      | cons a b => exact ⟨a, b, rfl⟩
    have ho1 : o1 = some first := by
      rw [hch1.head_eq, hkids]; rfl
    subst ho1
    have hfmem : first ∈ kids G p o.name := by rw [hkids]; exact List.mem_cons_self _ _
    obtain ⟨fo, hfo, hfop, hfok⟩ := (mem_kids G p o.name first).1 hfmem
    have hflt : first < h.length := by rw [← hlen]; exact kids_lt G p o.name first hfmem
    obtain ⟨fn, hfn⟩ := getElem?_some_of_lt h first hflt
    obtain ⟨fn1, hfn1, hfno⟩ := hdata1 first fn hfn
    have hfname : fn1.name = o.name := by
      obtain ⟨fo1, hfo1, hnm⟩ := hname first fn hfn
      rw [hfo] at hfo1
      cases hfo1
      rw [hfno.1, hnm, hfok]
    obtain ⟨pn1, hpn1, hpno⟩ := hdata1 p pn hpn
    have hpnotkid : ∀ k, p ∉ kids G p k := by
      intro k hk
      obtain ⟨po, hpo, hpp, _⟩ := (mem_kids G p k p).1 hk
      exact Nat.lt_irrefl p (hpar p po p hpo hpp)
    have hpn1eq : pn1 = pn := by
      have := hframe1 p (by simpa using hpnotkid o.name)
      rw [hpn1, hpn] at this
      exact Option.some.inj this
    subst hpn1eq
    let pn2 : RestXmlNode :=
      { pn1 with children := g_hash_table_insert pn1.children o.name first }
    let h2 : Heap := h1.set p pn2
    have hget2 : ∀ j : Nat, j ≠ p → h2[j]? = h1[j]? := fun j hj =>
      getElem?_set_ne_heap h1 p j pn2 hj
    have hget2p : h2[p]? = some pn2 := getElem?_set_self_heap h1 p pn2 pn1 hpn1
    have hlen2 : h2.length = h.length := by simp [h2, hlen1]
    have hkmem : o.name ∈ pn1.children.map Prod.fst := by
      by_contra hnm
      rw [(lookup_eq_none_iff _ _).2 hnm] at hhead
      cases hhead
    have hvnot : v ∉ vs := (List.nodup_cons.1 hnd).1
    -- hypotheses of the induction hypothesis at `h2`
    have hname2 : ∀ (j : Nat) n, h2[j]? = some n → ∃ o, G[j]? = some o ∧ n.name = o.name := by
      intro j n hn
      by_cases hjp : j = p
      · subst hjp
        rw [hget2p] at hn
        cases hn
        exact hname j pn1 hpn
      · rw [hget2 j hjp] at hn
        obtain ⟨m, hm⟩ := getElem?_some_of_lt h j (by rw [← hlen1]; exact getElem?_lt_heap hn)
        obtain ⟨n1, hn1, hno⟩ := hdata1 j m hm
        rw [hn] at hn1
        cases hn1
        obtain ⟨o2, ho2, hnm⟩ := hname j m hm
        exact ⟨o2, ho2, hno.1.trans hnm⟩
    have hp2 : ∃ pn, h2[p]? = some pn ∧ (pn.children.map Prod.fst).Nodup ∧
        ∀ k, (Pending G p vs k →
                IsChain h2 (g_hash_table_lookup pn.children k) (kids G p k).reverse) ∧
             (¬ Pending G p vs k →
                IsChain h2 (g_hash_table_lookup pn.children k) (kids G p k)) := by
      refine ⟨pn2, hget2p, keys_insert_nodup _ _ _ hkeys, ?_⟩
      intro k
      by_cases hk : k = o.name
      · subst hk
        have hnp : ¬ Pending G p vs o.name := by
          rintro ⟨v1, hv1, hl1⟩
          rw [hlast] at hl1
          cases hl1
          exact hvnot hv1
        refine ⟨fun hpd => absurd hpd hnp, fun _ => ?_⟩
        show IsChain h2 (g_hash_table_lookup (g_hash_table_insert pn1.children o.name first)
          o.name) (kids G p o.name)
        rw [lookup_insert_self]
        refine IsChain.congr (fun j hj n hn => ⟨n, ?_, rfl⟩) hch1
        rw [hget2 j (fun e => hpnotkid o.name (e ▸ hj))]
        exact hn
      · have hlk : g_hash_table_lookup pn2.children k = g_hash_table_lookup pn1.children k :=
          lookup_insert_ne _ _ _ _ hk
        have hpeq : Pending G p (v :: vs) k ↔ Pending G p vs k := by
          constructor
          · rintro ⟨v1, hv1, hl1⟩
            rcases List.mem_cons.1 hv1 with rfl | hv1
            · exact absurd (kids_name_unique G p p k o.name v1
                (List.mem_of_getLast?_eq_some hl1) hvmem).2 hk
            · exact ⟨v1, hv1, hl1⟩
          · rintro ⟨v1, hv1, hl1⟩
            exact ⟨v1, List.mem_cons_of_mem _ hv1, hl1⟩
        have hkeep : ∀ j, j ∈ kids G p k → ∀ n, h[j]? = some n →
            ∃ n1, h2[j]? = some n1 ∧ n1.next = n.next := by
          intro j hj n hn
          refine ⟨n, ?_, rfl⟩
          rw [hget2 j (fun e => hpnotkid k (e ▸ hj)), hframe1 j ?_]
          · exact hn
          · intro hjr
            exact hk (kids_name_unique G p p k o.name j hj (List.mem_reverse.1 hjr)).2
        rw [hlk]
        constructor
        · intro hpd
          exact IsChain.congr (fun j hj => hkeep j (List.mem_reverse.1 hj))
            ((hch k).1 (hpeq.2 hpd))
        · intro hpd
          exact IsChain.congr hkeep ((hch k).2 (fun hc => hpd (hpeq.1 hc)))
    obtain ⟨h3, hrun3, hlen3, hdata3, hch3⟩ :=
      ih h2 (hlen.trans hlen2.symm) hname2 (List.nodup_cons.1 hnd).2
        (fun v1 hv1 => hvs v1 (List.mem_cons_of_mem _ hv1)) hp2
    refine ⟨h3, ?_, hlen3.trans hlen2, ?_, hch3⟩
    · simp only [rest_xml_node_reverse_children_siblings_loop, rest_xml_node_reverse_siblings,
        hrun, hfn1, hpn1, hfname]
      exact hrun3
    · intro j n hn
      obtain ⟨n1, hn1, hno⟩ := hdata1 j n hn
      by_cases hjp : j = p
      · subst hjp
        rw [hpn] at hn
        cases hn
        obtain ⟨n3, hn3, hnm3, hat3, hco3, _, hk3, hnx3⟩ := hdata3 j pn2 hget2p
        refine ⟨n3, hn3, hnm3, hat3, hco3, fun hne => absurd rfl hne, ?_, fun hnp => hnx3 hnp⟩
        rw [hk3]
        exact keys_insert_of_mem _ _ _ hkmem
      · have hn2 : h2[j]? = some n1 := by rw [hget2 j hjp]; exact hn1
        obtain ⟨n3, hn3, hnm3, hat3, hco3, hch3', hk3, hnx3⟩ := hdata3 j n1 hn2
        refine ⟨n3, hn3, hnm3.trans hno.1, hat3.trans hno.2.1, hco3.trans hno.2.2.2,
          fun _ => (hch3' hjp).trans hno.2.2.1, ?_, ?_⟩
        · rw [hk3, hno.2.2.1]
        · intro hnp
          rw [hnx3 hnp]
          have hjnot : j ∉ (kids G p o.name).reverse := by
            intro hjr
            obtain ⟨oj, hoj, hojp, _⟩ := (mem_kids G p o.name j).1 (List.mem_reverse.1 hjr)
            exact hnp oj hoj hojp
          have := hframe1 j hjnot
          rw [hn1, hn] at this
          rw [Option.some.inj this]

/-! ## The element case -/

theorem heap_append_get_lt (h : Heap) (x : RestXmlNode) (j : Nat) (hj : j < h.length) :
    (h ++ [x])[j]? = h[j]? := List.getElem?_append_left hj

theorem heap_append_get_len (h : Heap) (x : RestXmlNode) :
    (h ++ [x])[h.length]? = some x := by simp

theorem link_child_spec (G : List Origin) (s : ParseState) (hinv : Inv G s) (name : String) :
    ∃ h1 nx, link_child (s.heap ++ [rest_xml_node_new name]) s.cur_node s.heap.length = .ok h1 ∧
      h1.length = s.heap.length + 1 ∧
      h1[s.heap.length]? = some { rest_xml_node_new name with next := nx } ∧
      (s.nodes.head? = none → nx = none) ∧
      (∀ c cn, s.nodes.head? = some c → s.heap[c]? = some cn →
        nx = g_hash_table_lookup cn.children name ∧
        h1[c]? = some { cn with children := g_hash_table_insert cn.children name s.heap.length }) ∧
      (∀ j : Nat, j < s.heap.length → s.nodes.head? ≠ some j → h1[j]? = s.heap[j]?) := by
  rw [hinv.cur]
  cases hn : s.nodes with
  | nil =>
    refine ⟨s.heap ++ [rest_xml_node_new name], none, rfl, by simp, by simp [rest_xml_node_new],
      fun _ => rfl, ?_, ?_⟩
    · intro c cn hc; simp at hc
    · intro j hj _; exact heap_append_get_lt _ _ _ hj
  | cons c rest =>
    have hclt : c < s.heap.length := hinv.stack_lt c (by rw [hn]; exact List.mem_cons_self _ _)
    obtain ⟨cn, hcn⟩ := getElem?_some_of_lt s.heap c hclt
    have hc0 : (s.heap ++ [rest_xml_node_new name])[c]? = some cn := by
      rw [heap_append_get_lt _ _ _ hclt]; exact hcn
    have hnew0 : (s.heap ++ [rest_xml_node_new name])[s.heap.length]? =
        some (rest_xml_node_new name) := heap_append_get_len _ _
    have hne : s.heap.length ≠ c := Nat.ne_of_gt hclt
    cases hl : g_hash_table_lookup cn.children name with
    | none =>
      refine ⟨(s.heap ++ [rest_xml_node_new name]).set c
        { cn with children := g_hash_table_insert cn.children name s.heap.length }, none,
        ?_, by simp, ?_, ?_, ?_, ?_⟩
      · simp only [link_child, List.head?_cons, hc0, hnew0]
        simp [rest_xml_node_new, hl]
      · rw [getElem?_set_ne_heap _ _ _ _ hne, hnew0]; rfl
      · intro hc; simp at hc
      · intro c1 cn1 hc1 hcn1
        simp only [List.head?_cons, Option.some.injEq] at hc1
        subst hc1
        rw [hcn] at hcn1
        cases hcn1
        exact ⟨hl.symm, getElem?_set_self_heap _ _ _ _ hc0⟩
      · intro j hj hjc
        have : j ≠ c := fun e => hjc (by rw [e]; rfl)
        rw [getElem?_set_ne_heap _ _ _ _ this, heap_append_get_lt _ _ _ hj]
    | some tmp =>
      -- the old head is a child of `c` of that name
      have hchain := hinv.chains_open c cn name hcn (by rw [hn]; exact List.mem_cons_self _ _)
      rw [hl] at hchain
      have htmem : tmp ∈ kids G c name := by
        cases hk : (kids G c name).reverse with
        | nil => rw [hk] at hchain; cases hchain
        | cons a b =>
          rw [hk] at hchain
          have ha : some tmp = some a := hchain.1
          cases ha
          have : tmp ∈ (kids G c name).reverse := by rw [hk]; exact List.mem_cons_self _ _
          exact List.mem_reverse.1 this
      obtain ⟨to1, hto, _, htname⟩ := (mem_kids G c name tmp).1 htmem
      have htlt : tmp < s.heap.length := by rw [← hinv.len]; exact kids_lt G c name tmp htmem
      obtain ⟨tn, htn⟩ := getElem?_some_of_lt s.heap tmp htlt
      have htnname : tn.name = name := by
        obtain ⟨o1, ho1, hnm, _⟩ := hinv.node_origin tmp tn htn
        rw [hto] at ho1
        cases ho1
        rw [hnm, htname]
      have ht0 : (s.heap ++ [rest_xml_node_new name])[tmp]? = some tn := by
        rw [heap_append_get_lt _ _ _ htlt]; exact htn
      let hA : Heap := (s.heap ++ [rest_xml_node_new name]).set s.heap.length
        { rest_xml_node_new name with next := some tmp }
      have hAc : hA[c]? = some cn := by
        show ((s.heap ++ [rest_xml_node_new name]).set s.heap.length _)[c]? = _
        rw [getElem?_set_ne_heap _ _ _ _ (Ne.symm hne), hc0]
      refine ⟨hA.set c
        { cn with children := g_hash_table_insert cn.children name s.heap.length }, some tmp,
        ?_, by simp [hA], ?_, ?_, ?_, ?_⟩
      · simp only [link_child, List.head?_cons, hc0, hnew0]
        simp only [rest_xml_node_new, hl, ht0, rest_xml_node_prepend]
        have : (s.heap ++ [rest_xml_node_new name])[s.heap.length]? =
            some (rest_xml_node_new name) := hnew0
        simp only [rest_xml_node_new] at this
        simp only [this, if_true]
        have hAc' := hAc
        simp only [hA, rest_xml_node_new] at hAc'
        have ht0' := ht0
        simp only [rest_xml_node_new] at ht0'
        simp only [hAc', ht0', htnname]
        rfl
      · rw [getElem?_set_ne_heap _ _ _ _ hne]
        exact getElem?_set_self_heap _ _ _ _ hnew0
      · intro hc; simp at hc
      · intro c1 cn1 hc1 hcn1
        simp only [List.head?_cons, Option.some.injEq] at hc1
        subst hc1
        rw [hcn] at hcn1
        cases hcn1
        exact ⟨hl.symm, getElem?_set_self_heap _ _ _ _ hAc⟩
      · intro j hj hjc
        have h1 : j ≠ c := fun e => hjc (by rw [e]; rfl)
        have h2 : j ≠ s.heap.length := Nat.ne_of_lt hj
        rw [getElem?_set_ne_heap _ _ _ _ h1]
        show ((s.heap ++ [rest_xml_node_new name]).set s.heap.length _)[j]? = _
        rw [getElem?_set_ne_heap _ _ _ _ h2, heap_append_get_lt _ _ _ hj]

theorem concat_get_cases {α : Type} (G : List α) (o x : α) (j : Nat)
    (h : (G ++ [o])[j]? = some x) : (j < G.length ∧ G[j]? = some x) ∨ (j = G.length ∧ x = o) := by
  by_cases hj : j < G.length
  · left
    rw [List.getElem?_append_left hj] at h
    exact ⟨hj, h⟩
  · right
    have hle : G.length ≤ j := Nat.le_of_not_lt hj
    rw [List.getElem?_append_right hle] at h
    by_cases hj2 : j = G.length
    · subst hj2
      simp at h
      exact ⟨rfl, h.symm⟩
    · have : j - G.length = (j - G.length - 1) + 1 := by omega
      rw [this] at h
      simp only [List.getElem?_cons_succ, List.getElem?_nil] at h
      cases h

theorem concat_get_lt {α : Type} (G : List α) (o : α) (j : Nat) (hj : j < G.length) :
    (G ++ [o])[j]? = G[j]? := List.getElem?_append_left hj

/-- The memory after the element case. -/
theorem element_heap_spec (G : List Origin) (s : ParseState) (hinv : Inv G s)
    (name : String) (attrs : List (String × String)) :
    ∃ h1 h2 nx,
      link_child (s.heap ++ [rest_xml_node_new name]) s.cur_node s.heap.length = .ok h1 ∧
      store_attrs h1 s.heap.length attrs = .ok h2 ∧
      h2.length = s.heap.length + 1 ∧
      h2[s.heap.length]? = some { name := name, attrs := attrs_table attrs, children := [],
                                  next := nx, content := none } ∧
      (s.nodes.head? = none → nx = none) ∧
      (∀ c cn, s.nodes.head? = some c → s.heap[c]? = some cn →
        nx = g_hash_table_lookup cn.children name) ∧
      (∀ (j : Nat) n, s.heap[j]? = some n → ∃ n1, h2[j]? = some n1 ∧ n1.name = n.name ∧
        n1.attrs = n.attrs ∧ n1.content = n.content ∧ n1.next = n.next ∧
        (s.nodes.head? ≠ some j → n1 = n) ∧
        (s.nodes.head? = some j →
          n1.children = g_hash_table_insert n.children name s.heap.length)) := by
  obtain ⟨h1, nx, hrun, hlen1, hnew1, hnx0, hc1, hframe1⟩ := link_child_spec G s hinv name
  have hne : ∀ (j : Nat) n, s.heap[j]? = some n → j ≠ s.heap.length := fun j n hn =>
    Nat.ne_of_lt (getElem?_lt_heap hn)
  refine ⟨h1, h1.set s.heap.length
    { name := name, attrs := attrs_table attrs, children := [], next := nx, content := none },
    nx, hrun, ?_, by simp [hlen1], getElem?_set_self_heap _ _ _ _ hnew1, hnx0,
    fun c cn hc hcn => (hc1 c cn hc hcn).1, ?_⟩
  · simp only [store_attrs, hnew1]
    rfl
  · intro j n hn
    rw [getElem?_set_ne_heap _ _ _ _ (hne j n hn)]
    by_cases htop : s.nodes.head? = some j
    · obtain ⟨_, hcj⟩ := hc1 j n htop hn
      exact ⟨_, hcj, rfl, rfl, rfl, rfl, fun h => absurd htop h, fun _ => rfl⟩
    · refine ⟨n, ?_, rfl, rfl, rfl, rfl, fun _ => rfl, fun h => absurd h htop⟩
      rw [hframe1 j (getElem?_lt_heap hn) htop]
      exact hn

theorem kids_len_nil (G : List Origin) (s : ParseState) (hinv : Inv G s) (o : Origin)
    (ho : ∀ p, o.parent = some p → p < G.length) (k : String) :
    kids (G ++ [o]) G.length k = [] := by
  apply kids_eq_nil_of_forall
  intro j x hx hp
  rcases concat_get_cases G o x j hx with ⟨hj, hx1⟩ | ⟨_, rfl⟩
  · have := hinv.parent_lt j x G.length hx1 hp.1
    omega
  · exact Nat.lt_irrefl _ (ho _ hp.1)

theorem step_element (ord : HashOrder) (G : List Origin) (s : ParseState) (hinv : Inv G s)
    (name : String) (attrs : List (String × String)) (e : Bool) :
    ∃ s1, parse_step ord s (.element name attrs e) = .ok s1 ∧
      Inv (trace_step s G (.element name attrs e)) s1 ∧
      s1.nodes = (if e then s.nodes else s.heap.length :: s.nodes) ∧
      s1.cur_node = (if e then s.cur_node else some s.heap.length) ∧
      s1.heap.length = s.heap.length + 1 ∧
      (∃ nn, s1.heap[s.heap.length]? = some nn ∧ nn.name = name ∧
        nn.attrs = attrs_table attrs ∧ nn.children = [] ∧ nn.content = none) ∧
      (∀ (j : Nat) n, s.heap[j]? = some n → ∃ n1, s1.heap[j]? = some n1 ∧ n1.name = n.name ∧
        n1.attrs = n.attrs ∧ n1.content = n.content ∧ n1.next = n.next ∧
        (s.nodes.head? ≠ some j → n1 = n)) := by
  obtain ⟨h1, h2, nx, hrun1, hrun2, hlen2, hnew2, hnx0, hnxc, hframe⟩ :=
    element_heap_spec G s hinv name attrs
  have htoplt : ∀ p, s.nodes.head? = some p → p < s.heap.length := fun p hp =>
    hinv.stack_lt p (List.mem_of_mem_head? hp)
  have htopmem : ∀ p, s.nodes.head? = some p → p ∈ s.nodes := fun p hp =>
    List.mem_of_mem_head? hp
  let o : Origin := ⟨s.nodes.head?, name, attrs, e⟩
  have hG1 : trace_step s G (.element name attrs e) = G ++ [o] := rfl
  let nodes1 : List Nat := if e then s.nodes else s.heap.length :: s.nodes
  have hmem1 : ∀ q, q < s.heap.length → (q ∈ nodes1 ↔ q ∈ s.nodes) := by
    intro q hq
    cases e with
    | true => simp [nodes1]
    | false =>
      simp only [nodes1, Bool.false_eq_true, if_false, List.mem_cons]
      constructor
      · rintro (h | h)
        · omega
        · exact h
      · exact fun h => Or.inr h
  have hmemlen : s.heap.length ∈ nodes1 → e = false := by
    cases e with
    | true =>
      intro h
      simp only [nodes1, if_true] at h
      exact absurd (hinv.stack_lt _ h) (Nat.lt_irrefl _)
    | false => intro _; rfl
  let s1 : ParseState :=
    { heap := h2, nodes := nodes1,
      cur_node := if e then s.cur_node else some s.heap.length,
      root_node := keep_root s.root_node s.heap.length }
  have hstep : parse_step ord s (.element name attrs e) = .ok s1 := by
    simp only [parse_step, hrun1, hrun2]
  have hlenG : G.length = s.heap.length := hinv.len
  have hGget : ∀ (j : Nat) x, (G ++ [o])[j]? = some x →
      (j < s.heap.length ∧ G[j]? = some x) ∨ (j = s.heap.length ∧ x = o) := by
    intro j x hx
    have := concat_get_cases G o x j hx
    rwa [hlenG] at this
  have hGlt : ∀ j, j < s.heap.length → (G ++ [o])[j]? = G[j]? := fun j hj =>
    concat_get_lt G o j (by rw [hlenG]; exact hj)
  have hkids : ∀ q k, kids (G ++ [o]) q k =
      if s.nodes.head? = some q ∧ name = k then kids G q k ++ [s.heap.length]
      else kids G q k := by
    intro q k
    rw [kids_append_one, hlenG]
  have hcongr : ∀ (L : List Nat) (x : Option Nat), IsChain s.heap x L → IsChain h2 x L :=
    fun L x hc => IsChain.congr (fun j _ n hn => by
      obtain ⟨n1, hn1, _, _, _, hnx, _⟩ := hframe j n hn
      exact ⟨n1, hn1, hnx⟩) hc
  have hh2cases : ∀ (j : Nat) n, h2[j]? = some n →
      (∃ m, s.heap[j]? = some m) ∨ j = s.heap.length := by
    intro j n hn
    have := getElem?_lt_heap hn
    rw [hlen2] at this
    by_cases hj : j < s.heap.length
    · exact Or.inl (getElem?_some_of_lt _ _ hj)
    · exact Or.inr (by omega)
  have hchains : ∀ (q : Nat) n k, h2[q]? = some n →
      (q ∈ nodes1 → IsChain h2 (g_hash_table_lookup n.children k) (kids (G ++ [o]) q k).reverse) ∧
      (q ∉ nodes1 → IsChain h2 (g_hash_table_lookup n.children k) (kids (G ++ [o]) q k)) := by
    intro q n k hn
    rcases hh2cases q n hn with ⟨m, hm⟩ | hq
    · have hqlt := getElem?_lt_heap hm
      obtain ⟨n1, hn1, _, _, _, _, hsame, hins⟩ := hframe q m hm
      rw [hn] at hn1
      cases hn1
      by_cases htop : s.nodes.head? = some q
      · have hqin : q ∈ nodes1 := (hmem1 q hqlt).2 (htopmem q htop)
        refine ⟨fun _ => ?_, fun h => absurd hqin h⟩
        rw [hins htop, hkids]
        by_cases hk : name = k
        · subst hk
          rw [lookup_insert_self, if_pos ⟨htop, rfl⟩, List.reverse_append]
          refine ⟨rfl, _, hnew2, ?_⟩
          show IsChain h2 nx (kids G q name).reverse
          rw [hnxc q m htop hm]
          exact hcongr _ _ (hinv.chains_open q m name hm (htopmem q htop))
        · rw [lookup_insert_ne _ _ _ _ (Ne.symm hk), if_neg (fun h => hk h.2)]
          exact hcongr _ _ (hinv.chains_open q m k hm (htopmem q htop))
      · rw [hsame htop, hkids, if_neg (fun h => htop h.1)]
        exact ⟨fun h => hcongr _ _ (hinv.chains_open q m k hm ((hmem1 q hqlt).1 h)),
          fun h => hcongr _ _ (hinv.chains_closed q m k hm (fun h1 => h ((hmem1 q hqlt).2 h1)))⟩
    · subst hq
      rw [hnew2] at hn
      cases hn
      have hnil : kids (G ++ [o]) s.heap.length k = [] := by
        rw [← hlenG]
        exact kids_len_nil G s hinv o (fun p hp => by rw [hlenG]; exact htoplt p hp) k
      rw [hnil]
      exact ⟨fun _ => rfl, fun _ => rfl⟩
  refine ⟨s1, hstep, ?_, rfl, rfl, hlen2, ⟨_, hnew2, rfl, rfl, rfl, rfl⟩, ?_⟩
  · rw [hG1]
    constructor
    case len => simp [s1, hlenG, hlen2]
    case cur =>
      cases e with
      | true => exact hinv.cur
      | false => rfl
    case root =>
      show keep_root s.root_node s.heap.length = if h2.length = 0 then none else some 0
      unfold keep_root
      rw [hlen2, hinv.root]
      by_cases h0 : s.heap.length = 0
      · simp [h0]
      · simp [h0]
    case stack_lt =>
      intro p hp
      show p < h2.length
      rw [hlen2]
      by_cases hpl : p < s.heap.length
      · omega
      · cases e with
        | true => exact absurd (hinv.stack_lt p hp) hpl
        | false =>
          rcases List.mem_cons.1 hp with h | h
          · omega
          · exact absurd (hinv.stack_lt p h) hpl
    case stack_nodup =>
      cases e with
      | true => exact hinv.stack_nodup
      | false =>
        exact List.nodup_cons.2 ⟨fun h => Nat.lt_irrefl _ (hinv.stack_lt _ h), hinv.stack_nodup⟩
    case stack_open =>
      intro p hp x hx
      rcases hGget p x hx with ⟨hpl, hx1⟩ | ⟨hpl, hx1⟩
      · exact hinv.stack_open p ((hmem1 p hpl).1 hp) x hx1
      · subst hpl
        rw [hx1]
        exact hmemlen hp
    case parent_lt =>
      intro j x p hx hp
      rcases hGget j x hx with ⟨_, hx1⟩ | ⟨hj, hx1⟩
      · exact hinv.parent_lt j x p hx1 hp
      · subst hx1
        rw [hj]
        exact htoplt p hp
    case parent_open =>
      intro j x p hx hp
      rcases hGget j x hx with ⟨_, hx1⟩ | ⟨hj, hx1⟩
      · obtain ⟨op, hop, hoe⟩ := hinv.parent_open j x p hx1 hp
        have hpl : p < s.heap.length := by
          rw [← hlenG]
          by_contra hlt
          rw [List.getElem?_eq_none (Nat.le_of_not_lt hlt)] at hop
          cases hop
        exact ⟨op, by rw [hGlt p hpl]; exact hop, hoe⟩
      · subst hx1
        have hpl := htoplt p hp
        obtain ⟨op, hop⟩ : ∃ op, G[p]? = some op :=
          getElem?_some_of_lt G p (by rw [hlenG]; exact hpl)
        exact ⟨op, by rw [hGlt p hpl]; exact hop, hinv.stack_open p (htopmem p hp) op hop⟩
    case node_origin =>
      intro j n hn
      rcases hh2cases j n hn with ⟨m, hm⟩ | hj
      · obtain ⟨n1, hn1, hnm, hat, _⟩ := hframe j m hm
        rw [show h2[j]? = some n from hn] at hn1
        cases hn1
        obtain ⟨x, hx, hxn, hxa⟩ := hinv.node_origin j m hm
        exact ⟨x, by rw [hGlt j (getElem?_lt_heap hm)]; exact hx, hnm.trans hxn, hat.trans hxa⟩
      · subst hj
        have hn2 : h2[s.heap.length]? = some n := hn
        rw [hnew2] at hn2
        cases hn2
        exact ⟨o, by rw [← hlenG]; simp, rfl, rfl⟩
    case keys_nodup =>
      intro j n hn
      rcases hh2cases j n hn with ⟨m, hm⟩ | hj
      · obtain ⟨n1, hn1, _, _, _, _, hsame, hins⟩ := hframe j m hm
        rw [show h2[j]? = some n from hn] at hn1
        cases hn1
        by_cases htop : s.nodes.head? = some j
        · rw [hins htop]
          exact keys_insert_nodup _ _ _ (hinv.keys_nodup j m hm)
        · rw [hsame htop]
          exact hinv.keys_nodup j m hm
      · subst hj
        have hn2 : h2[s.heap.length]? = some n := hn
        rw [hnew2] at hn2
        cases hn2
        simp
    case chains_open =>
      intro q n k hn hq
      exact (hchains q n k hn).1 hq
    case chains_closed =>
      intro q n k hn hq
      exact (hchains q n k hn).2 hq
    case next_lt =>
      intro j n x hn hx
      show x < h2.length
      rw [hlen2]
      rcases hh2cases j n hn with ⟨m, hm⟩ | hj
      · obtain ⟨n1, hn1, _, _, _, hnx, _⟩ := hframe j m hm
        rw [show h2[j]? = some n from hn] at hn1
        cases hn1
        have := hinv.next_lt j m x hm (by rw [← hnx]; exact hx)
        omega
      · subst hj
        have hn2 : h2[s.heap.length]? = some n := hn
        rw [hnew2] at hn2
        cases hn2
        cases htop : s.nodes.head? with
        | none =>
          rw [hnx0 htop] at hx
          cases hx
        | some c =>
          obtain ⟨cn, hcn⟩ := getElem?_some_of_lt s.heap c (htoplt c htop)
          have hch := hinv.chains_open c cn name hcn (htopmem c htop)
          rw [← hnxc c cn htop hcn] at hch
          simp only at hx
          rw [hx] at hch
          cases hL : (kids G c name).reverse with
          | nil => rw [hL] at hch; cases hch
          | cons a b =>
            rw [hL] at hch
            have ha : some x = some a := hch.1
            cases ha
            have := hch.lt_length x (List.mem_cons_self _ _)
            omega
    case empty_content =>
      intro j x n hx he hn
      rcases hGget j x hx with ⟨hj, hx1⟩ | ⟨hj, _⟩
      · obtain ⟨m, hm⟩ := getElem?_some_of_lt s.heap j hj
        obtain ⟨n1, hn1, _, _, hco, _⟩ := hframe j m hm
        rw [show h2[j]? = some n from hn] at hn1
        cases hn1
        rw [hco]
        exact hinv.empty_content j x m hx1 he hm
      · subst hj
        have hn2 : h2[s.heap.length]? = some n := hn
        rw [hnew2] at hn2
        cases hn2
        rfl
  · intro j n hn
    obtain ⟨n1, hn1, hnm, hat, hco, hnx, hsame, _⟩ := hframe j n hn
    exact ⟨n1, hn1, hnm, hat, hco, hnx, hsame⟩

/-! ## The text case -/

theorem step_text (ord : HashOrder) (G : List Origin) (s : ParseState) (hinv : Inv G s)
    (value : String) (hne : s.nodes ≠ []) :
    ∃ s1, parse_step ord s (.text value) = .ok s1 ∧ Inv G s1 ∧ s1.nodes = s.nodes ∧
      s1.heap.length = s.heap.length ∧
      (∀ (j : Nat) n, s.heap[j]? = some n → ∃ n1, s1.heap[j]? = some n1 ∧ n1.name = n.name ∧
        n1.attrs = n.attrs ∧ n1.children = n.children ∧ n1.next = n.next ∧
        (s.nodes.head? ≠ some j → n1 = n) ∧
        (s.nodes.head? = some j → n1.content = some value)) := by
  obtain ⟨c, rest, hn⟩ : ∃ c rest, s.nodes = c :: rest := by
    cases hs : s.nodes with
    | nil => exact absurd hs hne
    | cons c rest => exact ⟨c, rest, rfl⟩
  have hcmem : c ∈ s.nodes := by rw [hn]; exact List.mem_cons_self _ _
  have hclt := hinv.stack_lt c hcmem
  obtain ⟨cn, hcn⟩ := getElem?_some_of_lt s.heap c hclt
  have hcur : s.cur_node = some c := by rw [hinv.cur, hn]; rfl
  let h1 : Heap := s.heap.set c { cn with content := some value }
  have hframe : ∀ (j : Nat) n, s.heap[j]? = some n → ∃ n1, h1[j]? = some n1 ∧ n1.name = n.name ∧
        n1.attrs = n.attrs ∧ n1.children = n.children ∧ n1.next = n.next ∧
        (s.nodes.head? ≠ some j → n1 = n) ∧
        (s.nodes.head? = some j → n1.content = some value) := by
    intro j n hjn
    by_cases hjc : j = c
    · subst hjc
      rw [hcn] at hjn
      cases hjn
      exact ⟨_, getElem?_set_self_heap _ _ _ _ hcn, rfl, rfl, rfl, rfl,
        fun h => absurd (by rw [hn]; rfl) h, fun _ => rfl⟩
    · refine ⟨n, by rw [getElem?_set_ne_heap _ _ _ _ hjc]; exact hjn, rfl, rfl, rfl, rfl,
        fun _ => rfl, fun h => ?_⟩
      rw [hn] at h
      simp at h
      exact absurd h.symm hjc
  have hlen1 : h1.length = s.heap.length := by simp [h1]
  have hback : ∀ (j : Nat) n1, h1[j]? = some n1 → ∃ n, s.heap[j]? = some n := fun j n1 hj =>
    getElem?_some_of_lt _ _ (by rw [← hlen1]; exact getElem?_lt_heap hj)
  have hcongr : ∀ (L : List Nat) (x : Option Nat), IsChain s.heap x L → IsChain h1 x L :=
    fun L x hc => IsChain.congr (fun j _ n hjn => by
      obtain ⟨n1, hn1, _, _, _, hnx, _⟩ := hframe j n hjn
      exact ⟨n1, hn1, hnx⟩) hc
  refine ⟨{ s with heap := h1 }, ?_, ?_, rfl, hlen1, hframe⟩
  · simp only [parse_step, hcur, hcn]
  · constructor
    case len => exact hinv.len.trans hlen1.symm
    case cur => exact hinv.cur
    case root =>
      show s.root_node = if h1.length = 0 then none else some 0
      rw [hlen1]; exact hinv.root
    case stack_lt =>
      intro p hp
      show p < h1.length
      rw [hlen1]; exact hinv.stack_lt p hp
    case stack_nodup => exact hinv.stack_nodup
    case stack_open => exact hinv.stack_open
    case parent_lt => exact hinv.parent_lt
    case parent_open => exact hinv.parent_open
    case node_origin =>
      intro j n1 hj
      obtain ⟨n, hjn⟩ := hback j n1 hj
      obtain ⟨n2, hn2, hnm, hat, _⟩ := hframe j n hjn
      rw [show h1[j]? = some n1 from hj] at hn2
      cases hn2
      obtain ⟨o, ho, hon, hoa⟩ := hinv.node_origin j n hjn
      exact ⟨o, ho, hnm.trans hon, hat.trans hoa⟩
    case keys_nodup =>
      intro j n1 hj
      obtain ⟨n, hjn⟩ := hback j n1 hj
      obtain ⟨n2, hn2, _, _, hch, _⟩ := hframe j n hjn
      rw [show h1[j]? = some n1 from hj] at hn2
      cases hn2
      rw [hch]
      exact hinv.keys_nodup j n hjn
    case chains_open =>
      intro j n1 k hj hmem
      obtain ⟨n, hjn⟩ := hback j n1 hj
      obtain ⟨n2, hn2, _, _, hch, _⟩ := hframe j n hjn
      rw [show h1[j]? = some n1 from hj] at hn2
      cases hn2
      rw [hch]
      exact hcongr _ _ (hinv.chains_open j n k hjn hmem)
    case chains_closed =>
      intro j n1 k hj hmem
      obtain ⟨n, hjn⟩ := hback j n1 hj
      obtain ⟨n2, hn2, _, _, hch, _⟩ := hframe j n hjn
      rw [show h1[j]? = some n1 from hj] at hn2
      cases hn2
      rw [hch]
      exact hcongr _ _ (hinv.chains_closed j n k hjn hmem)
    case next_lt =>
      intro j n1 x hj hx
      obtain ⟨n, hjn⟩ := hback j n1 hj
      obtain ⟨n2, hn2, _, _, _, hnx, _⟩ := hframe j n hjn
      rw [show h1[j]? = some n1 from hj] at hn2
      cases hn2
      show x < h1.length
      rw [hlen1]
      exact hinv.next_lt j n x hjn (by rw [← hnx]; exact hx)
    case empty_content =>
      intro j o n1 ho he hj
      obtain ⟨n, hjn⟩ := hback j n1 hj
      obtain ⟨n2, hn2, _, _, _, _, hsame, _⟩ := hframe j n hjn
      rw [show h1[j]? = some n1 from hj] at hn2
      cases hn2
      by_cases hjc : s.nodes.head? = some j
      · have hjmem : j ∈ s.nodes := List.mem_of_mem_head? hjc
        have := hinv.stack_open j hjmem o ho
        rw [he] at this
        cases this
      · rw [hsame hjc]
        exact hinv.empty_content j o n ho he hjn

/-! ## The end-element case -/

theorem values_nodup (ord : HashOrder) (t : List (String × Nat))
    (hkeys : (t.map Prod.fst).Nodup)
    (hinj : ∀ k1 k2 v, (k1, v) ∈ t → (k2, v) ∈ t → k1 = k2) :
    (g_hash_table_get_values ord t).Nodup := by
  unfold g_hash_table_get_values
  rw [((ord.perm t).map Prod.snd).nodup_iff]
  have hpairs : t.Nodup := List.Nodup.of_map Prod.fst hkeys
  refine List.Nodup.map_on ?_ hpairs
  rintro ⟨k1, v1⟩ h1 ⟨k2, v2⟩ h2 hv
  simp only at hv
  subst hv
  rw [hinj k1 k2 v1 h1 h2]

theorem mem_values (ord : HashOrder) (t : List (String × Nat)) (v : Nat) :
    v ∈ g_hash_table_get_values ord t ↔ ∃ k, (k, v) ∈ t := by
  unfold g_hash_table_get_values
  rw [((ord.perm t).map Prod.snd).mem_iff]
  simp

theorem node_ext (a b : RestXmlNode) (h1 : a.name = b.name) (h2 : a.attrs = b.attrs)
    (h3 : a.children = b.children) (h4 : a.next = b.next) (h5 : a.content = b.content) :
    a = b := by
  cases a; cases b; simp_all

/-- A value of the table of an open node is the last child of its name. -/
theorem open_value_spec (G : List Origin) (s : ParseState) (hinv : Inv G s)
    (p : Nat) (pn : RestXmlNode) (hpn : s.heap[p]? = some pn) (hp : p ∈ s.nodes)
    (k : String) (v : Nat) (hkv : (k, v) ∈ pn.children) :
    ∃ o, G[v]? = some o ∧ o.parent = some p ∧ o.name = k ∧
      (kids G p k).getLast? = some v := by
  have hl := lookup_of_mem pn.children k v (hinv.keys_nodup p pn hpn) hkv
  have hch := hinv.chains_open p pn k hpn hp
  rw [hl] at hch
  have hhead := hch.head_eq
  rw [List.head?_reverse] at hhead
  have hvmem : v ∈ kids G p k := List.mem_of_getLast?_eq_some hhead.symm
  obtain ⟨o, ho, hop, hok⟩ := (mem_kids G p k v).1 hvmem
  exact ⟨o, ho, hop, hok, hhead.symm⟩

theorem step_end (ord : HashOrder) (G : List Origin) (s : ParseState) (hinv : Inv G s)
    (nm : String) (p : Nat) (rest : List Nat) (hn : s.nodes = p :: rest) :
    ∃ s1, parse_step ord s (.endElement nm) = .ok s1 ∧ Inv G s1 ∧ s1.nodes = rest ∧
      s1.heap.length = s.heap.length ∧
      (∀ (j : Nat) n, s.heap[j]? = some n → ∃ n1, s1.heap[j]? = some n1 ∧ n1.name = n.name ∧
        n1.attrs = n.attrs ∧ n1.content = n.content ∧
        (j ≠ p → n1.children = n.children) ∧
        (n1.children.map Prod.fst = n.children.map Prod.fst) ∧
        ((∀ o, G[j]? = some o → o.parent ≠ some p) → n1.next = n.next)) := by
  have hpmem : p ∈ s.nodes := by rw [hn]; exact List.mem_cons_self _ _
  have hplt := hinv.stack_lt p hpmem
  obtain ⟨pn, hpn⟩ := getElem?_some_of_lt s.heap p hplt
  have hpnot : p ∉ rest := by
    have := hinv.stack_nodup
    rw [hn] at this
    exact (List.nodup_cons.1 this).1
  -- the list of values and the hypotheses of the loop
  have hvs_nodup : (g_hash_table_get_values ord pn.children).Nodup := by
    refine values_nodup ord pn.children (hinv.keys_nodup p pn hpn) ?_
    intro k1 k2 v h1 h2
    obtain ⟨o1, ho1, _, hk1, _⟩ := open_value_spec G s hinv p pn hpn hpmem k1 v h1
    obtain ⟨o2, ho2, _, hk2, _⟩ := open_value_spec G s hinv p pn hpn hpmem k2 v h2
    rw [ho1] at ho2
    cases ho2
    exact hk1.symm.trans hk2
  have hvs : ∀ v ∈ g_hash_table_get_values ord pn.children, ∃ o, G[v]? = some o ∧
      o.parent = some p ∧ (kids G p o.name).getLast? = some v := by
    intro v hv
    obtain ⟨k, hkv⟩ := (mem_values ord pn.children v).1 hv
    obtain ⟨o, ho, hop, hok, hlast⟩ := open_value_spec G s hinv p pn hpn hpmem k v hkv
    exact ⟨o, ho, hop, by rw [hok]; exact hlast⟩
  have hpend : ∃ pn0, s.heap[p]? = some pn0 ∧ (pn0.children.map Prod.fst).Nodup ∧
      ∀ k, (Pending G p (g_hash_table_get_values ord pn.children) k →
              IsChain s.heap (g_hash_table_lookup pn0.children k) (kids G p k).reverse) ∧
           (¬ Pending G p (g_hash_table_get_values ord pn.children) k →
              IsChain s.heap (g_hash_table_lookup pn0.children k) (kids G p k)) := by
    refine ⟨pn, hpn, hinv.keys_nodup p pn hpn, fun k => ⟨fun _ => hinv.chains_open p pn k hpn hpmem,
      fun hnp => ?_⟩⟩
    have hch := hinv.chains_open p pn k hpn hpmem
    cases hk : kids G p k with
    | nil => rw [hk] at hch; exact hch
    | cons a b =>
      exfalso
      apply hnp
      have hhead := hch.head_eq
      rw [List.head?_reverse] at hhead
      cases hlast : (kids G p k).getLast? with
      | none =>
        rw [List.getLast?_eq_none_iff] at hlast
        rw [hlast] at hk
        cases hk
      | some v =>
        rw [hlast] at hhead
        exact ⟨v, (mem_values ord pn.children v).2 ⟨k, mem_of_lookup _ _ _ hhead⟩, hlast⟩
  obtain ⟨h1, hrun, hlen1, hdata, hch1⟩ :=
    reverse_children_loop_spec G p hinv.parent_lt (g_hash_table_get_values ord pn.children)
      s.heap hinv.len (fun j n hj => by
        obtain ⟨o, ho, hnm, _⟩ := hinv.node_origin j n hj
        exact ⟨o, ho, hnm⟩) hvs_nodup hvs hpend
  have hback : ∀ (j : Nat) n1, h1[j]? = some n1 → ∃ n, s.heap[j]? = some n := fun j n1 hj =>
    getElem?_some_of_lt _ _ (by rw [← hlen1]; exact getElem?_lt_heap hj)
  have hmem_rest : ∀ q, q ≠ p → (q ∈ rest ↔ q ∈ s.nodes) := by
    intro q hq
    rw [hn]
    simp [hq]
  let s1 : ParseState :=
    { heap := h1, nodes := rest, cur_node := rest.head?, root_node := s.root_node }
  have hstep : parse_step ord s (.endElement nm) = .ok s1 := by
    simp only [parse_step, hn, List.head?_cons, rest_xml_node_reverse_children_siblings, hpn,
      hrun, List.tail_cons]
  -- chains of the other nodes are untouched
  have hcongr : ∀ (q : Nat) (k : String) (L : List Nat) (x : Option Nat), q ≠ p →
      (∀ j ∈ L, j ∈ kids G q k) → IsChain s.heap x L → IsChain h1 x L := by
    intro q k L x hq hL hc
    refine IsChain.congr (fun j hj n hjn => ?_) hc
    obtain ⟨n1, hn1, _, _, _, _, _, hnx⟩ := hdata j n hjn
    refine ⟨n1, hn1, hnx ?_⟩
    intro o ho hop
    obtain ⟨o1, ho1, hop1, _⟩ := (mem_kids G q k j).1 (hL j hj)
    rw [ho] at ho1
    cases ho1
    rw [hop] at hop1
    exact hq (Option.some.inj hop1).symm
  refine ⟨s1, hstep, ?_, rfl, hlen1, hdata⟩
  constructor
  case len => exact hinv.len.trans hlen1.symm
  case cur => rfl
  case root =>
    show s.root_node = if h1.length = 0 then none else some 0
    rw [hlen1]; exact hinv.root
  case stack_lt =>
    intro q hq
    show q < h1.length
    rw [hlen1]
    exact hinv.stack_lt q (by rw [hn]; exact List.mem_cons_of_mem _ hq)
  case stack_nodup =>
    have := hinv.stack_nodup
    rw [hn] at this
    exact (List.nodup_cons.1 this).2
  case stack_open =>
    intro q hq
    exact hinv.stack_open q (by rw [hn]; exact List.mem_cons_of_mem _ hq)
  case parent_lt => exact hinv.parent_lt
  case parent_open => exact hinv.parent_open
  case node_origin =>
    intro j n1 hj
    obtain ⟨n, hjn⟩ := hback j n1 hj
    obtain ⟨n2, hn2, hnm, hat, _⟩ := hdata j n hjn
    rw [show h1[j]? = some n1 from hj] at hn2
    cases hn2
    obtain ⟨o, ho, hon, hoa⟩ := hinv.node_origin j n hjn
    exact ⟨o, ho, hnm.trans hon, hat.trans hoa⟩
  case keys_nodup =>
    intro j n1 hj
    obtain ⟨n, hjn⟩ := hback j n1 hj
    obtain ⟨n2, hn2, _, _, _, _, hk, _⟩ := hdata j n hjn
    rw [show h1[j]? = some n1 from hj] at hn2
    cases hn2
    rw [hk]
    exact hinv.keys_nodup j n hjn
  case chains_open =>
    intro q n1 k hq hmem
    have hqp : q ≠ p := fun e => hpnot (e ▸ hmem)
    obtain ⟨n, hqn⟩ := hback q n1 hq
    obtain ⟨n2, hn2, _, _, _, hch, _⟩ := hdata q n hqn
    rw [show h1[q]? = some n1 from hq] at hn2
    cases hn2
    rw [hch hqp]
    exact hcongr q k _ _ hqp (fun j hj => List.mem_reverse.1 hj)
      (hinv.chains_open q n k hqn ((hmem_rest q hqp).1 hmem))
  case chains_closed =>
    intro q n1 k hq hmem
    by_cases hqp : q = p
    · subst hqp
      exact hch1 n1 hq k
    · obtain ⟨n, hqn⟩ := hback q n1 hq
      obtain ⟨n2, hn2, _, _, _, hch, _⟩ := hdata q n hqn
      rw [show h1[q]? = some n1 from hq] at hn2
      cases hn2
      rw [hch hqp]
      exact hcongr q k _ _ hqp (fun j hj => hj)
        (hinv.chains_closed q n k hqn (fun h => hmem ((hmem_rest q hqp).2 h)))
  case next_lt =>
    intro j n1 x hj hx
    show x < h1.length
    rw [hlen1]
    obtain ⟨n, hjn⟩ := hback j n1 hj
    obtain ⟨n2, hn2, hnm, _, _, _, _, hnx⟩ := hdata j n hjn
    rw [show h1[j]? = some n1 from hj] at hn2
    cases hn2
    obtain ⟨o, ho, hon, _⟩ := hinv.node_origin j n hjn
    by_cases hop : o.parent = some p
    · -- a child of `p`: its successor is in the chain of its name
      obtain ⟨pn1, hpn1⟩ := getElem?_some_of_lt h1 p (by rw [hlen1]; exact hplt)
      have hch := hch1 pn1 hpn1 o.name
      have hjmem : j ∈ kids G p o.name := (mem_kids G p o.name j).2 ⟨o, ho, hop, rfl⟩
      have hxmem := hch.next_mem j n1 x hjmem hj hx
      rw [← hinv.len]
      exact kids_lt G p o.name x hxmem
    · have := hnx (fun o1 ho1 => by rw [ho] at ho1; cases ho1; exact hop)
      exact hinv.next_lt j n x hjn (by rw [← this]; exact hx)
  case empty_content =>
    intro j o n1 ho he hj
    obtain ⟨n, hjn⟩ := hback j n1 hj
    obtain ⟨n2, hn2, _, _, hco, _⟩ := hdata j n hjn
    rw [show h1[j]? = some n1 from hj] at hn2
    cases hn2
    rw [hco]
    exact hinv.empty_content j o n ho he hjn

/-! ## Runs of the builder -/

theorem Inv_init : Inv [] ParseState.init := by
  constructor
  case len => rfl
  case cur => rfl
  case root => rfl
  case stack_lt => intro p hp; simp [ParseState.init] at hp
  case stack_nodup => simp [ParseState.init]
  case stack_open => intro p hp; simp [ParseState.init] at hp
  case parent_lt => intro j o p ho; simp at ho
  case parent_open => intro j o p ho; simp at ho
  case node_origin => intro j n hn; simp [ParseState.init] at hn
  case keys_nodup => intro j n hn; simp [ParseState.init] at hn
  case chains_open => intro j n k hn; simp [ParseState.init] at hn
  case chains_closed => intro j n k hn; simp [ParseState.init] at hn
  case next_lt => intro j n x hn; simp [ParseState.init] at hn
  case empty_content => intro j o n ho; simp at ho

theorem parse_step_text_nil (ord : HashOrder) (G : List Origin) (s : ParseState)
    (hinv : Inv G s) (value : String) (hn : s.nodes = []) :
    parse_step ord s (.text value) = .error .nullDeref := by
  have : s.cur_node = none := by rw [hinv.cur, hn]; rfl
  simp [parse_step, this]

theorem parse_step_end_nil (ord : HashOrder) (s : ParseState) (nm : String)
    (hn : s.nodes = []) :
    parse_step ord s (.endElement nm) = .error .nullDeref := by
  simp [parse_step, hn, rest_xml_node_reverse_children_siblings]

/-- A step that returns keeps the invariant. -/
theorem step_inv (ord : HashOrder) (G : List Origin) (s s1 : ParseState) (hinv : Inv G s)
    (tok : Token) (hstep : parse_step ord s tok = .ok s1) : Inv (trace_step s G tok) s1 := by
  cases tok with
  | element name attrs e =>
    obtain ⟨s2, h2, hinv2, _⟩ := step_element ord G s hinv name attrs e
    rw [hstep] at h2
    cases h2
    exact hinv2
  | endElement nm =>
    cases hn : s.nodes with
    | nil =>
      rw [parse_step_end_nil ord s nm hn] at hstep
      cases hstep
    | cons p rest =>
      obtain ⟨s2, h2, hinv2, _⟩ := step_end ord G s hinv nm p rest hn
      rw [hstep] at h2
      cases h2
      exact hinv2
  | text value =>
    by_cases hn : s.nodes = []
    · rw [parse_step_text_nil ord G s hinv value hn] at hstep
      cases hstep
    · obtain ⟨s2, h2, hinv2, _⟩ := step_text ord G s hinv value hn
      rw [hstep] at h2
      cases h2
      exact hinv2
  | other =>
    simp only [parse_step] at hstep
    cases hstep
    exact hinv

/-- A step returns whenever the token does not underflow the stack. -/
theorem step_ok (ord : HashOrder) (G : List Origin) (s : ParseState) (hinv : Inv G s)
    (tok : Token) (ts : List Token) (d : Nat)
    (hnest : nesting s.nodes.length (tok :: ts) = some d) :
    ∃ s1, parse_step ord s tok = .ok s1 ∧ Inv (trace_step s G tok) s1 ∧
      nesting s1.nodes.length ts = some d := by
  cases tok with
  | element name attrs e =>
    obtain ⟨s1, h1, hinv1, hnodes, _⟩ := step_element ord G s hinv name attrs e
    refine ⟨s1, h1, hinv1, ?_⟩
    rw [hnodes]
    simp only [nesting] at hnest
    cases e <;> simpa using hnest
  | endElement nm =>
    cases hn : s.nodes with
    | nil =>
      rw [hn] at hnest
      simp [nesting] at hnest
    | cons p rest =>
      obtain ⟨s1, h1, hinv1, hnodes, _⟩ := step_end ord G s hinv nm p rest hn
      refine ⟨s1, h1, hinv1, ?_⟩
      rw [hnodes]
      rw [hn] at hnest
      simpa [nesting] using hnest
  | text value =>
    cases hn : s.nodes with
    | nil =>
      rw [hn] at hnest
      simp [nesting] at hnest
    | cons p rest =>
      obtain ⟨s1, h1, hinv1, hnodes, _⟩ := step_text ord G s hinv value (by rw [hn]; simp)
      refine ⟨s1, h1, hinv1, ?_⟩
      rw [hnodes]
      rw [hn] at hnest
      rw [hn]
      simpa [nesting] using hnest
  | other =>
    refine ⟨s, rfl, hinv, ?_⟩
    simpa [nesting] using hnest

theorem trace_loop_inv (ord : HashOrder) : ∀ (toks : List Token) (G : List Origin)
    (s : ParseState) (s1 : ParseState) (G1 : List Origin),
    Inv G s → trace_loop ord s G toks = .ok (s1, G1) → Inv G1 s1 := by
  intro toks
  induction toks with
  | nil =>
    intro G s s1 G1 hinv hrun
    simp only [trace_loop] at hrun
    cases hrun
    exact hinv
  | cons t ts ih =>
    intro G s s1 G1 hinv hrun
    simp only [trace_loop] at hrun
    cases hstep : parse_step ord s t with
    | error e => rw [hstep] at hrun; cases hrun
    | ok s2 =>
      rw [hstep] at hrun
      exact ih _ s2 s1 G1 (step_inv ord G s s2 hinv t hstep) hrun

theorem trace_loop_ok (ord : HashOrder) : ∀ (toks : List Token) (G : List Origin)
    (s : ParseState) (d : Nat),
    Inv G s → nesting s.nodes.length toks = some d →
    ∃ s1 G1, trace_loop ord s G toks = .ok (s1, G1) ∧ Inv G1 s1 ∧ s1.nodes.length = d := by
  intro toks
  induction toks with
  | nil =>
    intro G s d hinv hnest
    simp only [nesting, Option.some.injEq] at hnest
    exact ⟨s, G, rfl, hinv, hnest⟩
  | cons t ts ih =>
    intro G s d hinv hnest
    obtain ⟨s2, hstep, hinv2, hnest2⟩ := step_ok ord G s hinv t ts d hnest
    obtain ⟨s1, G1, hrun, hinv1, hd⟩ := ih _ s2 d hinv2 hnest2
    refine ⟨s1, G1, ?_, hinv1, hd⟩
    simp only [trace_loop, hstep]
    exact hrun

theorem parse_loop_eq_trace (ord : HashOrder) : ∀ (toks : List Token) (G : List Origin)
    (s : ParseState),
    parse_loop ord s toks =
      (match trace_loop ord s G toks with
        | .error e => .error e
        | .ok r => .ok r.1) := by
  intro toks
  induction toks with
  | nil => intro G s; rfl
  | cons t ts ih =>
    intro G s
    simp only [parse_loop, trace_loop]
    cases hstep : parse_step ord s t with
    | error e => rfl
    | ok s2 => exact ih _ s2

theorem trace_loop_append (ord : HashOrder) : ∀ (a b : List Token) (G : List Origin)
    (s : ParseState),
    trace_loop ord s G (a ++ b) =
      (match trace_loop ord s G a with
        | .error e => .error e
        | .ok r => trace_loop ord r.1 r.2 b) := by
  intro a
  induction a with
  | nil => intro b G s; rfl
  | cons t ts ih =>
    intro b G s
    simp only [List.cons_append, trace_loop]
    cases hstep : parse_step ord s t with
    | error e => rfl
    | ok s2 => exact ih b _ s2

theorem nesting_append : ∀ (a b : List Token) (d : Nat),
    nesting d (a ++ b) = (nesting d a).bind (fun d1 => nesting d1 b) := by
  intro a
  induction a with
  | nil => intro b d; rfl
  | cons t ts ih =>
    intro b d
    cases t with
    | element name attrs e => simp only [List.cons_append, nesting]; exact ih b _
    | endElement nm =>
      cases d with
      | zero => rfl
      | succ d => simp only [List.cons_append, nesting]; exact ih b _
    | text v =>
      cases d with
      | zero => rfl
      | succ d => simp only [List.cons_append, nesting]; exact ih b _
    | other => simp only [List.cons_append, nesting]; exact ih b _

/-- A run that returns did not underflow. -/
theorem nesting_of_trace (ord : HashOrder) : ∀ (toks : List Token) (G : List Origin)
    (s : ParseState) (s1 : ParseState) (G1 : List Origin),
    Inv G s → trace_loop ord s G toks = .ok (s1, G1) →
    nesting s.nodes.length toks = some s1.nodes.length := by
  intro toks
  induction toks with
  | nil =>
    intro G s s1 G1 _ hrun
    simp only [trace_loop] at hrun
    cases hrun
    rfl
  | cons t ts ih =>
    intro G s s1 G1 hinv hrun
    simp only [trace_loop] at hrun
    cases hstep : parse_step ord s t with
    | error e => rw [hstep] at hrun; cases hrun
    | ok s2 =>
      rw [hstep] at hrun
      have hrec := ih _ s2 s1 G1 (step_inv ord G s s2 hinv t hstep) hrun
      cases t with
      | element name attrs e =>
        obtain ⟨s3, h3, _, hnodes, _⟩ := step_element ord G s hinv name attrs e
        rw [hstep] at h3
        cases h3
        rw [hnodes] at hrec
        simp only [nesting]
        cases e <;> simpa using hrec
      | endElement nm =>
        cases hn : s.nodes with
        | nil =>
          rw [parse_step_end_nil ord s nm hn] at hstep
          cases hstep
        | cons p rest =>
          obtain ⟨s3, h3, _, hnodes, _⟩ := step_end ord G s hinv nm p rest hn
          rw [hstep] at h3
          cases h3
          rw [hnodes] at hrec
          simpa [nesting] using hrec
      | text value =>
        cases hn : s.nodes with
        | nil =>
          rw [parse_step_text_nil ord G s hinv value hn] at hstep
          cases hstep
        | cons p rest =>
          obtain ⟨s3, h3, _, hnodes, _⟩ := step_text ord G s hinv value (by rw [hn]; simp)
          rw [hstep] at h3
          cases h3
          rw [hnodes, hn] at hrec
          simpa [nesting] using hrec
      | other =>
        simp only [parse_step] at hstep
        cases hstep
        simpa [nesting] using hrec

/-! ## The record and the token stream -/

theorem parse_eq_ok (ord : HashOrder) (toks : List Token) (h : Heap) (r : Option Nat)
    (hp : rest_xml_parser_parse_from_data ord toks = .ok (h, r)) :
    ∃ s G, trace_loop ord ParseState.init [] toks = .ok (s, G) ∧ s.heap = h ∧
      s.root_node = r ∧ Inv G s := by
  unfold rest_xml_parser_parse_from_data at hp
  rw [parse_loop_eq_trace ord toks [] ParseState.init] at hp
  cases hrun : trace_loop ord ParseState.init [] toks with
  | error e => rw [hrun] at hp; cases hp
  | ok res =>
    obtain ⟨s, G⟩ := res
    rw [hrun] at hp
    simp only [Except.ok.injEq, Prod.mk.injEq] at hp
    exact ⟨s, G, rfl, hp.1, hp.2, trace_loop_inv ord toks [] _ s G Inv_init hrun⟩

theorem parse_of_trace (ord : HashOrder) (toks : List Token) (s : ParseState)
    (G : List Origin) (hrun : trace_loop ord ParseState.init [] toks = .ok (s, G)) :
    rest_xml_parser_parse_from_data ord toks = .ok (s.heap, s.root_node) := by
  unfold rest_xml_parser_parse_from_data
  rw [parse_loop_eq_trace ord toks [] ParseState.init, hrun]

theorem parse_loop_of_trace (ord : HashOrder) (toks : List Token) (s0 s : ParseState)
    (G0 G : List Origin) (hrun : trace_loop ord s0 G0 toks = .ok (s, G)) :
    parse_loop ord s0 toks = .ok s := by
  rw [parse_loop_eq_trace ord toks G0 s0, hrun]

theorem trace_step_fields (s : ParseState) (G : List Origin) (tok : Token) :
    (trace_step s G tok).map (fun o => (o.name, o.attrs, o.isEmpty)) =
      G.map (fun o => (o.name, o.attrs, o.isEmpty)) ++ [tok].filterMap Token.start? := by
  cases tok <;> simp [trace_step, Token.start?]

/-- Entry `j` of the record carries the fields of the `j`-th element-start
token. -/
theorem trace_loop_fields (ord : HashOrder) : ∀ (toks : List Token) (G : List Origin)
    (s s1 : ParseState) (G1 : List Origin),
    trace_loop ord s G toks = .ok (s1, G1) →
    G1.map (fun o => (o.name, o.attrs, o.isEmpty)) =
      G.map (fun o => (o.name, o.attrs, o.isEmpty)) ++ toks.filterMap Token.start? := by
  intro toks
  induction toks with
  | nil =>
    intro G s s1 G1 hrun
    simp only [trace_loop] at hrun
    cases hrun
    simp
  | cons t ts ih =>
    intro G s s1 G1 hrun
    simp only [trace_loop] at hrun
    cases hstep : parse_step ord s t with
    | error e => rw [hstep] at hrun; cases hrun
    | ok s2 =>
      rw [hstep] at hrun
      rw [ih _ s2 s1 G1 hrun, trace_step_fields, List.append_assoc]
      congr 1
      cases h : Token.start? t <;> simp [List.filterMap_cons, h]

theorem trace_loop_grows (ord : HashOrder) : ∀ (toks : List Token) (G : List Origin)
    (s s1 : ParseState) (G1 : List Origin),
    trace_loop ord s G toks = .ok (s1, G1) → ∃ ext, G1 = G ++ ext := by
  intro toks
  induction toks with
  | nil =>
    intro G s s1 G1 hrun
    simp only [trace_loop] at hrun
    cases hrun
    exact ⟨[], by simp⟩
  | cons t ts ih =>
    intro G s s1 G1 hrun
    simp only [trace_loop] at hrun
    cases hstep : parse_step ord s t with
    | error e => rw [hstep] at hrun; cases hrun
    | ok s2 =>
      rw [hstep] at hrun
      obtain ⟨ext, hext⟩ := ih _ s2 s1 G1 hrun
      cases t with
      | element name attrs e =>
        exact ⟨⟨s.nodes.head?, name, attrs, e⟩ :: ext, by rw [hext]; simp [trace_step]⟩
      | endElement nm => exact ⟨ext, hext⟩
      | text v => exact ⟨ext, hext⟩
      | other => exact ⟨ext, hext⟩

theorem trace_heap_length (ord : HashOrder) (toks : List Token) (s : ParseState)
    (G : List Origin) (hrun : trace_loop ord ParseState.init [] toks = .ok (s, G)) :
    s.heap.length = countElements toks := by
  have hinv := trace_loop_inv ord toks [] _ s G Inv_init hrun
  have hf := trace_loop_fields ord toks [] _ s G hrun
  have := congrArg List.length hf
  simp only [List.map_nil, List.nil_append, List.length_map] at this
  rw [← hinv.len, this]
  rfl

/-- Splitting a run at one token. -/
theorem trace_split (ord : HashOrder) (pre post : List Token) (tok : Token)
    (s0 s : ParseState) (G0 G : List Origin)
    (hrun : trace_loop ord s0 G0 (pre ++ tok :: post) = .ok (s, G)) :
    ∃ s1 G1 s2, trace_loop ord s0 G0 pre = .ok (s1, G1) ∧ parse_step ord s1 tok = .ok s2 ∧
      trace_loop ord s2 (trace_step s1 G1 tok) post = .ok (s, G) := by
  rw [trace_loop_append] at hrun
  cases h1 : trace_loop ord s0 G0 pre with
  | error e => rw [h1] at hrun; cases hrun
  | ok r =>
    obtain ⟨s1, G1⟩ := r
    rw [h1] at hrun
    simp only [trace_loop] at hrun
    cases hstep : parse_step ord s1 tok with
    | error e => rw [hstep] at hrun; cases hrun
    | ok s2 =>
      rw [hstep] at hrun
      exact ⟨s1, G1, s2, rfl, hstep, hrun⟩

theorem trace_prefix_ok (ord : HashOrder) (pre post : List Token)
    (s0 s : ParseState) (G0 G : List Origin)
    (hrun : trace_loop ord s0 G0 (pre ++ post) = .ok (s, G)) :
    ∃ s1 G1, trace_loop ord s0 G0 pre = .ok (s1, G1) ∧
      trace_loop ord s1 G1 post = .ok (s, G) := by
  rw [trace_loop_append] at hrun
  cases h1 : trace_loop ord s0 G0 pre with
  | error e => rw [h1] at hrun; cases hrun
  | ok r =>
    obtain ⟨s1, G1⟩ := r
    rw [h1] at hrun
    exact ⟨s1, G1, rfl, hrun⟩

theorem lookup_all_none {V : Type} (t : List (String × V))
    (h : ∀ k, g_hash_table_lookup t k = none) : t = [] := by
  cases t with
  | nil => rfl
  | cons e t =>
    obtain ⟨a, v⟩ := e
    have := h a
    simp [g_hash_table_lookup] at this

theorem IsChain.last_next {h : Heap} : ∀ {L : List Nat} {o : Option Nat},
    IsChain h o L → ∀ last, L.getLast? = some last →
    ∃ n, h[last]? = some n ∧ n.next = none := by
  intro L
  induction L with
  | nil => intro o _ last hl; simp at hl
  | cons p L ih =>
    intro o hc last hl
    obtain ⟨_, n, hn, hrest⟩ := hc
    cases L with
    | nil =>
      simp at hl
      subst hl
      exact ⟨n, hn, hrest⟩
    | cons q L =>
      rw [List.getLast?_cons_cons] at hl
      exact ih hrest last hl

theorem nesting_of_append (pre post : List Token) (d : Nat)
    (h : nesting 0 (pre ++ post) = some d) : ∃ d1, nesting 0 pre = some d1 := by
  rw [nesting_append] at h
  cases h1 : nesting 0 pre with
  | none => rw [h1] at h; simp at h
  | some d1 => exact ⟨d1, rfl⟩

/-- C1 (sibling order law).  For every well-nested token stream `pre ++ post`
the builder returns on the prefix `pre`, and in the memory it has then built,
for every node `p` that is no longer on the stack of open elements (its end
token, if it has one, has been processed) and every tag name `T`: walking
`p.children[T]` and following `next` yields exactly the children of `p` named
`T` (the nodes whose start token arrived while `p` was on top of the stack),
each once, in increasing address order, which is the order of their start
tokens, and the last of them has `next = NULL`. -/
theorem sibling_order_law (ord : HashOrder) (pre post : List Token)
    (hwn : WellNested (pre ++ post)) :
    ∃ s G, trace_loop ord ParseState.init [] pre = .ok (s, G) ∧
      parse_loop ord ParseState.init pre = .ok s ∧
      ∀ (p : Nat) (pn : RestXmlNode) (T : String),
        s.heap[p]? = some pn → p ∉ s.nodes →
        chainFrom s.heap s.heap.length (g_hash_table_lookup pn.children T) = kids G p T ∧
        (kids G p T).Pairwise (· < ·) ∧
        (∀ j, j ∈ kids G p T ↔ ∃ oj, G[j]? = some oj ∧ oj.parent = some p ∧ oj.name = T) ∧
        (∀ last, (kids G p T).getLast? = some last →
          ∃ ln, s.heap[last]? = some ln ∧ ln.next = none) := by
  obtain ⟨d, hd⟩ := nesting_of_append pre post 0 hwn
  obtain ⟨s, G, hrun, hinv, _⟩ := trace_loop_ok ord pre [] ParseState.init d Inv_init hd
  refine ⟨s, G, hrun, parse_loop_of_trace ord pre _ s [] G hrun, ?_⟩
  intro p pn T hpn hp
  have hch := hinv.chains_closed p pn T hpn hp
  refine ⟨chainFrom_eq hch ?_, kids_sorted G p T, mem_kids G p T, hch.last_next⟩
  rw [← hinv.len]
  exact kids_length_le G p T

/-- Witness of C1 on `<a><b x="1"/><b x="2"/><c/></a>`, with the chain of `b`
computed: node 1 (`x="1"`) then node 2 (`x="2"`). -/
theorem sibling_order_law_witness :
    WellNested (scenario_siblings ++ []) ∧
    (∃ s G, trace_loop HashOrder.insertion ParseState.init [] scenario_siblings = .ok (s, G) ∧
      parse_loop HashOrder.insertion ParseState.init scenario_siblings = .ok s ∧
      ∀ (p : Nat) (pn : RestXmlNode) (T : String),
        s.heap[p]? = some pn → p ∉ s.nodes →
        chainFrom s.heap s.heap.length (g_hash_table_lookup pn.children T) = kids G p T ∧
        (kids G p T).Pairwise (· < ·) ∧
        (∀ j, j ∈ kids G p T ↔ ∃ oj, G[j]? = some oj ∧ oj.parent = some p ∧ oj.name = T) ∧
        (∀ last, (kids G p T).getLast? = some last →
          ∃ ln, s.heap[last]? = some ln ∧ ln.next = none)) ∧
    rest_xml_parser_parse_from_data HashOrder.insertion scenario_siblings =
      .ok (scenario_siblings_heap, some 0) ∧
    chainFrom scenario_siblings_heap scenario_siblings_heap.length
      (g_hash_table_lookup [("b", 1), ("c", 3)] "b") = [1, 2] ∧
    rest_xml_node_get_attr scenario_siblings_heap 1 "x" = .ok (some "1") ∧
    rest_xml_node_get_attr scenario_siblings_heap 2 "x" = .ok (some "2") :=
  ⟨by decide, sibling_order_law HashOrder.insertion scenario_siblings [] (by decide),
    rfl, rfl, rfl, rfl⟩

/-! ## The node of a given element-start token -/

/-- The node created for the element-start token that follows `pre`. -/
theorem node_of_token (ord : HashOrder) (pre post : List Token) (name : String)
    (attrs : List (String × String)) (e : Bool) (s : ParseState) (G : List Origin)
    (hrun : trace_loop ord ParseState.init [] (pre ++ .element name attrs e :: post) =
      .ok (s, G)) :
    ∃ s1 G1 s2 n, trace_loop ord ParseState.init [] pre = .ok (s1, G1) ∧
      s1.heap.length = countElements pre ∧
      parse_step ord s1 (.element name attrs e) = .ok s2 ∧
      s2.nodes = (if e then s1.nodes else s1.heap.length :: s1.nodes) ∧
      s2.cur_node = (if e then s1.cur_node else some s1.heap.length) ∧
      G[countElements pre]? = some ⟨s1.nodes.head?, name, attrs, e⟩ ∧
      s.heap[countElements pre]? = some n ∧ n.name = name ∧ n.attrs = attrs_table attrs ∧
      Inv G s := by
  obtain ⟨s1, G1, s2, hpre, hstep, hpost⟩ := trace_split ord pre post _ _ s [] G hrun
  have hinv1 := trace_loop_inv ord pre [] _ s1 G1 Inv_init hpre
  have hinv := trace_loop_inv ord _ [] _ s G Inv_init hrun
  have hlen1 := trace_heap_length ord pre s1 G1 hpre
  obtain ⟨s3, hstep3, _, hnodes, hcur, _⟩ := step_element ord G1 s1 hinv1 name attrs e
  rw [hstep] at hstep3
  cases hstep3
  obtain ⟨ext, hext⟩ := trace_loop_grows ord post _ s2 s G hpost
  have hG : G[countElements pre]? = some ⟨s1.nodes.head?, name, attrs, e⟩ := by
    rw [hext, ← hlen1, ← hinv1.len]
    simp only [trace_step, List.append_assoc, List.singleton_append]
    rw [List.getElem?_append_right (Nat.le_refl _)]
    simp
  have hlt : countElements pre < s.heap.length := by
    rw [← hinv.len]
    by_contra hlt
    rw [List.getElem?_eq_none (Nat.le_of_not_lt hlt)] at hG
    cases hG
  obtain ⟨n, hn⟩ := getElem?_some_of_lt s.heap _ hlt
  obtain ⟨o, ho, hon, hoa⟩ := hinv.node_origin _ n hn
  rw [hG] at ho
  cases ho
  exact ⟨s1, G1, s2, n, hpre, hlen1, hstep, hnodes, hcur, hG, hn, hon, hoa, hinv⟩

/-- C5 (self-closing elements stay empty).  When the builder returns on a
stream, the node created for a self-closing element-start token (it sits at
the address given by the number of element-start tokens before it) has an
empty `children` table and no content in the final memory, whatever follows
the token; and the token leaves the stack of open elements and `cur_node` as
they were, so that what follows applies to the enclosing open element. -/
theorem self_closing_stays_empty (ord : HashOrder) (pre post : List Token) (name : String)
    (attrs : List (String × String)) (h : Heap) (root : Option Nat)
    (hp : rest_xml_parser_parse_from_data ord (pre ++ .element name attrs true :: post) =
      .ok (h, root)) :
    (∃ s1 s2, parse_loop ord ParseState.init pre = .ok s1 ∧
      s1.heap.length = countElements pre ∧
      parse_step ord s1 (.element name attrs true) = .ok s2 ∧
      s2.nodes = s1.nodes ∧ s2.cur_node = s1.cur_node) ∧
    (∃ n, h[countElements pre]? = some n ∧ n.name = name ∧ n.children = [] ∧
      n.content = none) := by
  obtain ⟨s, G, hrun, hh, _, _⟩ := parse_eq_ok ord _ h root hp
  obtain ⟨s1, G1, s2, n, hpre, hlen1, hstep, hnodes, hcur, hG, hn, hname, _, hinv⟩ :=
    node_of_token ord pre post name attrs true s G hrun
  subst hh
  refine ⟨⟨s1, s2, parse_loop_of_trace ord pre _ s1 [] G1 hpre, hlen1, hstep, hnodes, hcur⟩,
    n, hn, hname, ?_, hinv.empty_content _ _ n hG rfl hn⟩
  have hnot : countElements pre ∉ s.nodes := by
    intro hmem
    have := hinv.stack_open _ hmem _ hG
    cases this
  apply lookup_all_none
  intro k
  have hch := hinv.chains_closed _ n k hn hnot
  have hnil : kids G (countElements pre) k = [] := by
    apply kids_eq_nil_of_forall
    intro j o ho hpar
    obtain ⟨op, hop, hoe⟩ := hinv.parent_open j o _ ho hpar.1
    rw [hG] at hop
    cases hop
    cases hoe
  rw [hnil] at hch
  exact hch

/-- Witness of C5 on `<a><b x="1"/><b x="2"/><c/></a>`: the first `b`. -/
theorem self_closing_stays_empty_witness :
    (∃ s1 s2, parse_loop HashOrder.insertion ParseState.init [.element "a" [] false] = .ok s1 ∧
      s1.heap.length = countElements [.element "a" [] false] ∧
      parse_step HashOrder.insertion s1 (.element "b" [("x", "1")] true) = .ok s2 ∧
      s2.nodes = s1.nodes ∧ s2.cur_node = s1.cur_node) ∧
    (∃ n, scenario_siblings_heap[countElements [.element "a" [] false]]? = some n ∧
      n.name = "b" ∧ n.children = [] ∧ n.content = none) :=
  self_closing_stays_empty HashOrder.insertion [.element "a" [] false]
    [.element "b" [("x", "2")] true, .element "c" [] true, .endElement "a"]
    "b" [("x", "1")] _ (some 0) rfl

/-! ## The root -/

theorem countElements_eq_zero (toks : List Token) :
    countElements toks = 0 ↔ ∀ t ∈ toks, Token.start? t = none := by
  unfold countElements
  rw [List.length_eq_zero, List.filterMap_eq_nil_iff]

/-- C10 (the root is the first element).  When the builder returns on a
stream, it returns `NULL` exactly when the stream has no element-start token;
otherwise it returns the node created for the first element-start token,
which sits at address 0 and carries that token's tag name. -/
theorem root_is_first_element (ord : HashOrder) (toks : List Token) (h : Heap)
    (root : Option Nat) (hp : rest_xml_parser_parse_from_data ord toks = .ok (h, root)) :
    (root = none ↔ ∀ t ∈ toks, Token.start? t = none) ∧
    (∀ pre name attrs e post, toks = pre ++ .element name attrs e :: post →
      (∀ t ∈ pre, Token.start? t = none) →
      countElements pre = 0 ∧ root = some (countElements pre) ∧
      ∃ n, h[countElements pre]? = some n ∧ n.name = name) := by
  obtain ⟨s, G, hrun, hh, hr, hinv⟩ := parse_eq_ok ord _ h root hp
  have hlen := trace_heap_length ord toks s G hrun
  subst hh
  subst hr
  constructor
  · rw [hinv.root, ← countElements_eq_zero, hlen]
    by_cases h0 : countElements toks = 0 <;> simp [h0]
  · intro pre name attrs e post htoks hpre
    subst htoks
    obtain ⟨s1, G1, s2, n, _, _, _, _, _, _, hn, hname, _, _⟩ :=
      node_of_token ord pre post name attrs e s G hrun
    have h0 := (countElements_eq_zero pre).2 hpre
    refine ⟨h0, ?_, n, hn, hname⟩
    rw [hinv.root, h0]
    have : s.heap.length ≠ 0 := by
      have := getElem?_lt_heap hn
      omega
    simp [this]

/-- Witness of C10 on `<a>hello</a>`. -/
theorem root_is_first_element_witness :
    ((some 0 : Option Nat) = none ↔ ∀ t ∈ scenario_text, Token.start? t = none) ∧
    (∀ pre name attrs e post, scenario_text = pre ++ .element name attrs e :: post →
      (∀ t ∈ pre, Token.start? t = none) →
      countElements pre = 0 ∧ (some 0 : Option Nat) = some (countElements pre) ∧
      ∃ n, ([{ name := "a", attrs := [], children := [], next := none,
               content := some "hello" }] : Heap)[countElements pre]? = some n ∧
        n.name = name) :=
  root_is_first_element HashOrder.insertion scenario_text _ (some 0) rfl

/-! ## Attributes -/

theorem foldl_insert_lookup_ne (k : String) : ∀ (a : List (String × String))
    (t : List (String × String)), (∀ kv ∈ a, kv.1 ≠ k) →
    g_hash_table_lookup (a.foldl (fun t kv => g_hash_table_insert t kv.1 kv.2) t) k =
      g_hash_table_lookup t k := by
  intro a
  induction a with
  | nil => intro t _; rfl
  | cons kv a ih =>
    intro t h
    rw [List.foldl_cons, ih _ (fun x hx => h x (List.mem_cons_of_mem _ hx))]
    exact lookup_insert_ne t kv.1 k kv.2 (Ne.symm (h kv (List.mem_cons_self _ _)))

theorem attrs_table_last (a1 a2 : List (String × String)) (k v : String)
    (h : k ∉ a2.map Prod.fst) :
    g_hash_table_lookup (attrs_table (a1 ++ (k, v) :: a2)) k = some v := by
  unfold attrs_table
  rw [List.foldl_append, List.foldl_cons, foldl_insert_lookup_ne k a2]
  · exact lookup_insert_self _ k v
  · intro kv hkv hk
    exact h (List.mem_map.2 ⟨kv, hkv, hk⟩)

/-- C4 as stated fails when the attribute enumerator yields a name twice: on
the single token `<a x="1" x="2"/>` (two attributes of local name `x`) the
pair `("x", "1")` is yielded, and `rest_xml_node_get_attr` answers `"2"`. -/
theorem attr_round_trip_counterexample :
    rest_xml_parser_parse_from_data HashOrder.insertion
        [.element "a" [("x", "1"), ("x", "2")] true] =
      .ok ([{ name := "a", attrs := [("x", "2")], children := [], next := none,
              content := none }], some 0) ∧
    (("x", "1") ∈ [("x", "1"), ("x", "2")]) ∧
    rest_xml_node_get_attr
      [{ name := "a", attrs := [("x", "2")], children := [], next := none, content := none }]
      0 "x" = .ok (some "2") ∧
    (some "2" : Option String) ≠ some "1" :=
  ⟨rfl, by decide, rfl, by decide⟩

/-- C4 amended (attribute round-trip, last occurrence).  When the builder
returns on a stream, for the node created for an element-start token,
self-closing or not: `rest_xml_node_get_attr` with a name returns the value of
the last pair of that name that the enumerator yielded; so when the
enumerated names are pairwise distinct every yielded pair is returned exactly,
whatever the order of enumeration. -/
theorem attr_round_trip_last (ord : HashOrder) (pre post : List Token) (name : String)
    (attrs : List (String × String)) (e : Bool) (h : Heap) (root : Option Nat)
    (hp : rest_xml_parser_parse_from_data ord (pre ++ .element name attrs e :: post) =
      .ok (h, root)) :
    (∀ a1 k v a2, attrs = a1 ++ (k, v) :: a2 → k ∉ a2.map Prod.fst →
      rest_xml_node_get_attr h (countElements pre) k = .ok (some v)) ∧
    ((attrs.map Prod.fst).Nodup → ∀ k v, (k, v) ∈ attrs →
      rest_xml_node_get_attr h (countElements pre) k = .ok (some v)) := by
  obtain ⟨s, G, hrun, hh, _, _⟩ := parse_eq_ok ord _ h root hp
  obtain ⟨s1, G1, s2, n, _, _, _, _, _, _, hn, _, hattrs, _⟩ :=
    node_of_token ord pre post name attrs e s G hrun
  subst hh
  have hlast : ∀ a1 k v a2, attrs = a1 ++ (k, v) :: a2 → k ∉ a2.map Prod.fst →
      rest_xml_node_get_attr s.heap (countElements pre) k = .ok (some v) := by
    intro a1 k v a2 ha hk
    simp only [rest_xml_node_get_attr, hn, hattrs, ha]
    rw [attrs_table_last a1 a2 k v hk]
  refine ⟨hlast, ?_⟩
  intro hnd k v hkv
  obtain ⟨a1, a2, ha⟩ := List.append_of_mem hkv
  refine hlast a1 k v a2 ha ?_
  rw [ha] at hnd
  simp only [List.map_append, List.map_cons] at hnd
  have := (List.nodup_append.1 hnd).2.1
  exact (List.nodup_cons.1 this).1

/-- Witness of the amended C4 on `<a><b x="1"/><b x="2"/><c/></a>`: the
second `b`. -/
theorem attr_round_trip_last_witness :
    (∀ a1 k v a2, [("x", "2")] = a1 ++ (k, v) :: a2 → k ∉ a2.map Prod.fst →
      rest_xml_node_get_attr scenario_siblings_heap
        (countElements [.element "a" [] false, .element "b" [("x", "1")] true]) k =
          .ok (some v)) ∧
    (([("x", "2")] : List (String × String)).map Prod.fst).Nodup :=
  ⟨(attr_round_trip_last HashOrder.insertion
      [.element "a" [] false, .element "b" [("x", "1")] true]
      [.element "c" [] true, .endElement "a"] "b" [("x", "2")] true _ (some 0) rfl).1,
    by decide⟩

/-! ## Text content -/

/-- Content of node `n` in a memory, absent when there is no such node. -/
theorem step_content (ord : HashOrder) (G : List Origin) (s s2 : ParseState) (hinv : Inv G s)
    (t : Token) (hstep : parse_step ord s t = .ok s2) (n : Nat) :
    (s2.heap[n]?).bind (fun x => x.content) =
      match t with
      | .text v => if s.nodes.head? = some n then some v else (s.heap[n]?).bind (fun x => x.content)
      | _ => (s.heap[n]?).bind (fun x => x.content) := by
  cases t with
  | element name attrs e =>
    obtain ⟨s3, h3, _, _, _, hlen, ⟨nn, hnn, _, _, _, hnc⟩, hframe⟩ :=
      step_element ord G s hinv name attrs e
    rw [hstep] at h3
    cases h3
    simp only
    by_cases hlt : n < s.heap.length
    · obtain ⟨m, hm⟩ := getElem?_some_of_lt s.heap n hlt
      obtain ⟨m1, hm1, _, _, hco, _⟩ := hframe n m hm
      simp [hm, hm1, hco]
    · have hnone : s.heap[n]? = none := List.getElem?_eq_none (Nat.le_of_not_lt hlt)
      rw [hnone]
      by_cases heq : n = s.heap.length
      · subst heq
        simp [hnn, hnc]
      · have : s2.heap[n]? = none := List.getElem?_eq_none (by omega)
        rw [this]
  | endElement nm =>
    cases hn : s.nodes with
    | nil =>
      rw [parse_step_end_nil ord s nm hn] at hstep
      cases hstep
    | cons p rest =>
      obtain ⟨s3, h3, _, _, hlen, hframe⟩ := step_end ord G s hinv nm p rest hn
      rw [hstep] at h3
      cases h3
      simp only
      by_cases hlt : n < s.heap.length
      · obtain ⟨m, hm⟩ := getElem?_some_of_lt s.heap n hlt
        obtain ⟨m1, hm1, _, _, hco, _⟩ := hframe n m hm
        simp [hm, hm1, hco]
      · have hnone : s.heap[n]? = none := List.getElem?_eq_none (Nat.le_of_not_lt hlt)
        have : s2.heap[n]? = none := List.getElem?_eq_none (by omega)
        rw [hnone, this]
  | text value =>
    by_cases hn : s.nodes = []
    · rw [parse_step_text_nil ord G s hinv value hn] at hstep
      cases hstep
    · obtain ⟨s3, h3, _, _, hlen, hframe⟩ := step_text ord G s hinv value hn
      rw [hstep] at h3
      cases h3
      simp only
      by_cases hlt : n < s.heap.length
      · obtain ⟨m, hm⟩ := getElem?_some_of_lt s.heap n hlt
        obtain ⟨m1, hm1, _, _, _, _, hsame, htop⟩ := hframe n m hm
        by_cases hh : s.nodes.head? = some n
        · simp [hh, hm1, htop hh]
        · simp [hh, hm1, hsame hh, hm]
      · have hnone : s.heap[n]? = none := List.getElem?_eq_none (Nat.le_of_not_lt hlt)
        have : s2.heap[n]? = none := List.getElem?_eq_none (by omega)
        have hh : s.nodes.head? ≠ some n := by
          intro hh
          exact hlt (hinv.stack_lt n (List.mem_of_mem_head? hh))
        rw [hnone, this]
        simp [hh]
  | other =>
    simp only [parse_step] at hstep
    cases hstep
    rfl

theorem texts_content (ord : HashOrder) : ∀ (toks : List Token) (G : List Origin)
    (s s1 : ParseState) (G1 : List Origin),
    Inv G s → trace_loop ord s G toks = .ok (s1, G1) → ∀ n : Nat,
    (s1.heap[n]?).bind (fun x => x.content) =
      match (texts_on_top ord n s toks).getLast? with
      | some v => some v
      | none => (s.heap[n]?).bind (fun x => x.content) := by
  intro toks
  induction toks with
  | nil =>
    intro G s s1 G1 _ hrun n
    simp only [trace_loop] at hrun
    cases hrun
    rfl
  | cons t ts ih =>
    intro G s s1 G1 hinv hrun n
    simp only [trace_loop] at hrun
    cases hstep : parse_step ord s t with
    | error e => rw [hstep] at hrun; cases hrun
    | ok s2 =>
      rw [hstep] at hrun
      have hrec := ih _ s2 s1 G1 (step_inv ord G s s2 hinv t hstep) hrun n
      have hone := step_content ord G s s2 hinv t hstep n
      rw [hrec]
      simp only [texts_on_top, hstep]
      cases hl : (texts_on_top ord n s2 ts).getLast? with
      | some v =>
        have hne : texts_on_top ord n s2 ts ≠ [] := by
          intro h0
          rw [h0] at hl
          cases hl
        rw [List.getLast?_append_of_ne_nil _ hne, hl]
      | none =>
        have h0 : texts_on_top ord n s2 ts = [] := List.getLast?_eq_none_iff.1 hl
        rw [h0, List.append_nil, hone]
        cases t with
        | text v =>
          by_cases hh : s.nodes.head? = some n <;> simp [hh]
        | element name attrs e => rfl
        | endElement nm => rfl
        | other => rfl

/-- C6 (text is last-write-wins).  When the builder returns on a stream, the
content of every node `n` of the final memory is the value of the last text
token that arrived while `n` was on top of the stack of open elements, and is
absent if there was no such token. -/
theorem text_last_write_wins (ord : HashOrder) (toks : List Token) (h : Heap)
    (root : Option Nat) (hp : rest_xml_parser_parse_from_data ord toks = .ok (h, root)) :
    ∀ (n : Nat) (node : RestXmlNode), h[n]? = some node →
      node.content = (texts_on_top ord n ParseState.init toks).getLast? := by
  obtain ⟨s, G, hrun, hh, _, _⟩ := parse_eq_ok ord _ h root hp
  subst hh
  intro n node hn
  have := texts_content ord toks [] _ s G Inv_init hrun n
  rw [hn] at this
  simp only [Option.some_bind] at this
  rw [this]
  cases (texts_on_top ord n ParseState.init toks).getLast? with
  | some v => rfl
  | none => rfl

/-- Witness of C6 on `<a>hello</a>`: the root `a` has content `"hello"` and
no children. -/
theorem text_last_write_wins_witness :
    (∀ (n : Nat) (node : RestXmlNode),
      ([{ name := "a", attrs := [], children := [], next := none,
          content := some "hello" }] : Heap)[n]? = some node →
      node.content = (texts_on_top HashOrder.insertion n ParseState.init scenario_text).getLast?) ∧
    rest_xml_parser_parse_from_data HashOrder.insertion scenario_text =
      .ok ([{ name := "a", attrs := [], children := [], next := none,
              content := some "hello" }], some 0) ∧
    (texts_on_top HashOrder.insertion 0 ParseState.init
      [.element "a" [] false, .text "x", .text "y", .endElement "a"]).getLast? = some "y" :=
  ⟨text_last_write_wins HashOrder.insertion scenario_text _ (some 0) rfl, rfl, rfl⟩

/-! ## Entries of the `children` tables -/

/-- An entry `(k, c)` of the table of `p` is a child of `p` named `k`. -/
theorem Inv.child_entry {G : List Origin} {s : ParseState} (hinv : Inv G s)
    (p : Nat) (n : RestXmlNode) (k : String) (c : Nat)
    (hn : s.heap[p]? = some n) (hkc : (k, c) ∈ n.children) :
    ∃ o, G[c]? = some o ∧ o.parent = some p ∧ o.name = k := by
  have hl := lookup_of_mem n.children k c (hinv.keys_nodup p n hn) hkc
  have hmem : c ∈ kids G p k := by
    by_cases hp : p ∈ s.nodes
    · have hch := hinv.chains_open p n k hn hp
      rw [hl] at hch
      cases hL : (kids G p k).reverse with
      | nil => rw [hL] at hch; cases hch
      | cons a b =>
        rw [hL] at hch
        have ha : some c = some a := hch.1
        cases ha
        exact List.mem_reverse.1 (by rw [hL]; exact List.mem_cons_self _ _)
    · have hch := hinv.chains_closed p n k hn hp
      rw [hl] at hch
      cases hL : kids G p k with
      | nil => rw [hL] at hch; cases hch
      | cons a b =>
        rw [hL] at hch
        have ha : some c = some a := hch.1
        cases ha
        exact List.mem_cons_self _ _
  exact (mem_kids G p k c).1 hmem

theorem Inv.child_lt {G : List Origin} {s : ParseState} (hinv : Inv G s)
    (p : Nat) (n : RestXmlNode) (k : String) (c : Nat)
    (hn : s.heap[p]? = some n) (hkc : (k, c) ∈ n.children) :
    p < c ∧ c < s.heap.length := by
  obtain ⟨o, ho, hop, _⟩ := hinv.child_entry p n k c hn hkc
  refine ⟨hinv.parent_lt c o p ho hop, ?_⟩
  rw [← hinv.len]
  by_contra hlt
  rw [List.getElem?_eq_none (Nat.le_of_not_lt hlt)] at ho
  cases ho

/-! ## Nodes below the open elements are not touched -/

theorem step_frame_low (ord : HashOrder) (G : List Origin) (s s2 : ParseState)
    (hinv : Inv G s) (t : Token) (hstep : parse_step ord s t = .ok s2) (B : Nat)
    (hB : B ≤ s.heap.length) (hstack : ∀ p ∈ s.nodes, B ≤ p) :
    B ≤ s2.heap.length ∧ (∀ p ∈ s2.nodes, B ≤ p) ∧
    (∀ j : Nat, j < B → s2.heap[j]? = s.heap[j]?) := by
  have htop : ∀ j, j < B → s.nodes.head? ≠ some j := by
    intro j hj hh
    have := hstack j (List.mem_of_mem_head? hh)
    omega
  cases t with
  | element name attrs e =>
    obtain ⟨s3, h3, _, hnodes, _, hlen, _, hframe⟩ := step_element ord G s hinv name attrs e
    rw [hstep] at h3
    cases h3
    refine ⟨by omega, ?_, ?_⟩
    · intro p hp
      rw [hnodes] at hp
      cases e with
      | true => exact hstack p hp
      | false =>
        rcases List.mem_cons.1 hp with h | h
        · omega
        · exact hstack p h
    · intro j hj
      obtain ⟨m, hm⟩ := getElem?_some_of_lt s.heap j (by omega)
      obtain ⟨m1, hm1, _, _, _, _, hsame⟩ := hframe j m hm
      rw [hm1, hm, hsame (htop j hj)]
  | endElement nm =>
    cases hn : s.nodes with
    | nil =>
      rw [parse_step_end_nil ord s nm hn] at hstep
      cases hstep
    | cons p rest =>
      obtain ⟨s3, h3, _, hnodes, hlen, hframe⟩ := step_end ord G s hinv nm p rest hn
      rw [hstep] at h3
      cases h3
      have hpB : B ≤ p := hstack p (by rw [hn]; exact List.mem_cons_self _ _)
      refine ⟨by omega, ?_, ?_⟩
      · intro q hq
        rw [hnodes] at hq
        exact hstack q (by rw [hn]; exact List.mem_cons_of_mem _ hq)
      · intro j hj
        obtain ⟨m, hm⟩ := getElem?_some_of_lt s.heap j (by omega)
        obtain ⟨m1, hm1, hnm, hat, hco, hch, _, hnx⟩ := hframe j m hm
        rw [hm1, hm]
        congr 1
        refine node_ext m1 m hnm hat (hch (by omega)) (hnx ?_) hco
        intro o ho hop
        have := hinv.parent_lt j o p ho hop
        omega
  | text value =>
    by_cases hn : s.nodes = []
    · rw [parse_step_text_nil ord G s hinv value hn] at hstep
      cases hstep
    · obtain ⟨s3, h3, _, hnodes, hlen, hframe⟩ := step_text ord G s hinv value hn
      rw [hstep] at h3
      cases h3
      refine ⟨by omega, ?_, ?_⟩
      · intro q hq
        rw [hnodes] at hq
        exact hstack q hq
      · intro j hj
        obtain ⟨m, hm⟩ := getElem?_some_of_lt s.heap j (by omega)
        obtain ⟨m1, hm1, _, _, _, _, hsame, _⟩ := hframe j m hm
        rw [hm1, hm, hsame (htop j hj)]
  | other =>
    simp only [parse_step] at hstep
    cases hstep
    exact ⟨hB, hstack, fun _ _ => rfl⟩

theorem run_frame_low (ord : HashOrder) (B : Nat) : ∀ (toks : List Token) (G : List Origin)
    (s s1 : ParseState) (G1 : List Origin),
    Inv G s → trace_loop ord s G toks = .ok (s1, G1) →
    B ≤ s.heap.length → (∀ p ∈ s.nodes, B ≤ p) →
    ∀ j : Nat, j < B → s1.heap[j]? = s.heap[j]? := by
  intro toks
  induction toks with
  | nil =>
    intro G s s1 G1 _ hrun _ _ j _
    simp only [trace_loop] at hrun
    cases hrun
    rfl
  | cons t ts ih =>
    intro G s s1 G1 hinv hrun hB hstack j hj
    simp only [trace_loop] at hrun
    cases hstep : parse_step ord s t with
    | error e => rw [hstep] at hrun; cases hrun
    | ok s2 =>
      rw [hstep] at hrun
      obtain ⟨hB2, hstack2, hfr⟩ := step_frame_low ord G s s2 hinv t hstep B hB hstack
      rw [ih _ s2 s1 G1 (step_inv ord G s s2 hinv t hstep) hrun hB2 hstack2 j hj, hfr j hj]

/-- C9 (only the first top-level element is returned).  For two well-nested
token sequences `s1` and `s2`, `s1` starting with an element-start token (as
the token sequence of one element does): the builder returns on `s1` and on
`s1 ++ s2`, both times the node at address 0; the memory built from
`s1 ++ s2` starts with exactly the memory built from `s1` (same records at the
same addresses, so the two trees are equal), and every node reached from the
returned root through `children` entries and `next` links lies in that part:
no node created from `s2`, all of which have addresses from
`countElements s1` on, is reachable from the root. -/
theorem first_root_only (ord : HashOrder) (name : String) (attrs : List (String × String))
    (e : Bool) (rest1 s2 : List Token)
    (hw1 : WellNested (.element name attrs e :: rest1)) (hw2 : WellNested s2) :
    ∃ h1 h12,
      rest_xml_parser_parse_from_data ord (.element name attrs e :: rest1) = .ok (h1, some 0) ∧
      rest_xml_parser_parse_from_data ord (.element name attrs e :: rest1 ++ s2) =
        .ok (h12, some 0) ∧
      h1.length = countElements (.element name attrs e :: rest1) ∧
      h12.take h1.length = h1 ∧
      (∀ j, Reach h12 0 j → j < h1.length) := by
  obtain ⟨sA, GA, hrunA, hinvA, hdA⟩ :=
    trace_loop_ok ord (.element name attrs e :: rest1) [] ParseState.init 0 Inv_init hw1
  have hnodesA : sA.nodes = [] := List.length_eq_zero.1 hdA
  obtain ⟨sB, GB, hrunB, hinvB, _⟩ :=
    trace_loop_ok ord s2 GA sA 0 hinvA (by rw [hdA]; exact hw2)
  have hrunAB : trace_loop ord ParseState.init [] (.element name attrs e :: rest1 ++ s2) =
      .ok (sB, GB) := by
    rw [trace_loop_append, hrunA]
    exact hrunB
  have hlenA := trace_heap_length ord _ sA GA hrunA
  have hposA : 0 < sA.heap.length := by
    rw [hlenA]
    simp [countElements, Token.start?]
  have hframe := run_frame_low ord sA.heap.length s2 GA sA sB GB hinvA hrunB (Nat.le_refl _)
    (by intro p hp; rw [hnodesA] at hp; simp at hp)
  have hlenB : sA.heap.length ≤ sB.heap.length := by
    have h0 := hframe (sA.heap.length - 1) (by omega)
    obtain ⟨m, hm⟩ := getElem?_some_of_lt sA.heap (sA.heap.length - 1) (by omega)
    rw [hm] at h0
    have := getElem?_lt_heap h0
    omega
  have hrootA : sA.root_node = some 0 := by
    rw [hinvA.root]
    simp [Nat.ne_of_gt hposA]
  have hrootB : sB.root_node = some 0 := by
    rw [hinvB.root]
    have : sB.heap.length ≠ 0 := by omega
    simp [this]
  refine ⟨sA.heap, sB.heap, ?_, ?_, hlenA, ?_, ?_⟩
  · rw [parse_of_trace ord _ sA GA hrunA, hrootA]
  · rw [parse_of_trace ord _ sB GB hrunAB, hrootB]
  · apply List.ext_getElem?
    intro j
    by_cases hj : j < sA.heap.length
    · rw [List.getElem?_take_of_lt hj]
      exact hframe j hj
    · rw [List.getElem?_eq_none (by simp; omega), List.getElem?_eq_none (by omega)]
  · intro j hr
    induction hr with
    | refl => exact hposA
    | child b c n k _ hn hkc ih =>
      rw [hframe b ih] at hn
      exact (hinvA.child_lt b n k c hn hkc).2
    | next b c n _ hn hnx ih =>
      rw [hframe b ih] at hn
      exact hinvA.next_lt b n c hn hnx

/-- Witness of C9 on `<a><b/></a><a><c/></a>`: the node returned is `a` with
the single child `b`. -/
theorem first_root_only_witness :
    (∃ h1 h12,
      rest_xml_parser_parse_from_data HashOrder.insertion
        (.element "a" [] false :: [.element "b" [] true, .endElement "a"]) = .ok (h1, some 0) ∧
      rest_xml_parser_parse_from_data HashOrder.insertion
        (.element "a" [] false :: [.element "b" [] true, .endElement "a"] ++
          [.element "a" [] false, .element "c" [] true, .endElement "a"]) = .ok (h12, some 0) ∧
      h1.length = countElements (.element "a" [] false :: [.element "b" [] true, .endElement "a"]) ∧
      h12.take h1.length = h1 ∧
      (∀ j, Reach h12 0 j → j < h1.length)) ∧
    rest_xml_parser_parse_from_data HashOrder.insertion scenario_two_roots =
      .ok ([{ name := "a", attrs := [], children := [("b", 1)], next := none, content := none },
            { name := "b", attrs := [], children := [], next := none, content := none },
            { name := "a", attrs := [], children := [("c", 3)], next := none, content := none },
            { name := "c", attrs := [], children := [], next := none, content := none }],
           some 0) :=
  ⟨first_root_only HashOrder.insertion "a" [] false [.element "b" [] true, .endElement "a"]
    [.element "a" [] false, .element "c" [] true, .endElement "a"] (by decide) (by decide), rfl⟩

/-! ## The search -/

theorem Inv.parent_unique {G : List Origin} {s : ParseState} (hinv : Inv G s)
    (p q : Nat) (pn qn : RestXmlNode) (k k1 : String) (c : Nat)
    (hp : s.heap[p]? = some pn) (hq : s.heap[q]? = some qn)
    (hkc : (k, c) ∈ pn.children) (hkc1 : (k1, c) ∈ qn.children) : p = q ∧ k = k1 := by
  obtain ⟨o, ho, hop, hok⟩ := hinv.child_entry p pn k c hp hkc
  obtain ⟨o1, ho1, hop1, hok1⟩ := hinv.child_entry q qn k1 c hq hkc1
  rw [ho] at ho1
  cases ho1
  rw [hop] at hop1
  exact ⟨Option.some.inj hop1, hok.symm.trans hok1⟩

theorem Inv.headReach_le {G : List Origin} {s : ParseState} (hinv : Inv G s)
    (a b : Nat) (hr : HeadReach s.heap a b) : a ≤ b := by
  induction hr with
  | refl => exact Nat.le_refl _
  | child b c n k _ hn hkc ih =>
    have := (hinv.child_lt b n k c hn hkc).1
    omega

theorem HeadReach.join {h : Heap} {a b c : Nat} (h1 : HeadReach h a b)
    (h2 : HeadReach h b c) : HeadReach h a c := by
  induction h2 with
  | refl => exact h1
  | child b1 c1 n k _ hn hkc ih => exact HeadReach.child a b1 c1 n k ih hn hkc

/-- First step of a path through chain heads. -/
theorem HeadReach.first_step {h : Heap} {a m : Nat} (hr : HeadReach h a m) :
    a = m ∨ ∃ c n k, h[a]? = some n ∧ (k, c) ∈ n.children ∧ HeadReach h c m := by
  induction hr with
  | refl => exact Or.inl rfl
  | child b c n k _ hn hkc ih =>
    right
    rcases ih with rfl | ⟨c1, n1, k1, hn1, hkc1, hr1⟩
    · exact ⟨c, n, k, hn, hkc, HeadReach.refl c⟩
    · exact ⟨c1, n1, k1, hn1, hkc1, HeadReach.child c1 b c n k hr1 hn hkc⟩

theorem foldl_push (vs : List Nat) (st : List Nat) :
    vs.foldl (fun st c => c :: st) st = vs.reverse ++ st := by
  induction vs generalizing st with
  | nil => rfl
  | cons v vs ih => simp [List.foldl_cons, ih]

theorem nodup_length_le (l : List Nat) (n : Nat) (hnd : l.Nodup) (hlt : ∀ x ∈ l, x < n) :
    l.length ≤ n := by
  have hsub : l ⊆ List.range n := fun x hx => List.mem_range.2 (hlt x hx)
  have := (List.subperm_of_subset hnd hsub).length_le
  simpa using this

theorem find_loop_spec (ord : HashOrder) (G : List Origin) (s : ParseState) (hinv : Inv G s)
    (start : Nat) (tag : String) :
    ∀ (fuel : Nat) (S V : List Nat), FindInv s.heap start tag S V →
      s.heap.length ≤ fuel + V.length →
      ∃ res, rest_xml_node_find_loop ord s.heap tag fuel S = .ok res ∧
        FindResult s.heap start tag res := by
  intro fuel
  induction fuel with
  | zero =>
    intro S V hI hfuel
    cases S with
    | nil =>
      refine ⟨none, rfl, ?_⟩
      unfold FindResult
      refine ⟨fun r hr => (by cases hr), fun _ m mn hm hmn => ?_⟩
      rcases hI.closure m hm with hv | ⟨x, hx, _⟩
      · exact hI.miss m hv mn hmn
      · simp at hx
    | cons n S1 =>
      exfalso
      have := nodup_length_le (n :: S1 ++ V) s.heap.length hI.nodup (fun x hx => (hI.reach x hx).1)
      simp only [List.cons_append, List.length_cons, List.length_append] at this
      omega
  | succ fuel ih =>
    intro S V hI hfuel
    cases S with
    | nil =>
      refine ⟨none, rfl, ?_⟩
      unfold FindResult
      refine ⟨fun r hr => (by cases hr), fun _ m mn hm hmn => ?_⟩
      rcases hI.closure m hm with hv | ⟨x, hx, _⟩
      · exact hI.miss m hv mn hmn
      · simp at hx
    | cons n S1 =>
      have hnmem : n ∈ n :: S1 ++ V := by simp
      obtain ⟨hnlt, hnreach⟩ := hI.reach n hnmem
      obtain ⟨nn, hnn⟩ := getElem?_some_of_lt s.heap n hnlt
      cases hl : g_hash_table_lookup nn.children tag with
      | some r =>
        refine ⟨some r, by simp [rest_xml_node_find_loop, hnn, hl], ?_⟩
        unfold FindResult
        refine ⟨?_, fun h => by cases h⟩
        intro r1 hr1
        cases hr1
        refine ⟨n, nn, hnreach, hnn, hl, ?_⟩
        intro a an ha hplus han
        exact hI.miss a (hI.above n (List.mem_cons_self _ _) a hplus ha) an han
      | none =>
        have hnd := hI.nodup
        simp only [List.cons_append, List.nodup_cons, List.mem_append, not_or] at hnd
        obtain ⟨⟨hnS1, hnV⟩, hndrest⟩ := hnd
        let vs := g_hash_table_get_values ord nn.children
        have hvs_nodup : vs.Nodup :=
          values_nodup ord nn.children (hinv.keys_nodup n nn hnn) (fun k1 k2 v h1 h2 =>
            (hinv.parent_unique n n nn nn k1 k2 v hnn hnn h1 h2).2)
        have hvs_mem : ∀ c, c ∈ vs ↔ ∃ k, (k, c) ∈ nn.children := mem_values ord nn.children
        have hvs_new : ∀ c ∈ vs, c ∉ S1 ∧ c ∉ V ∧ c ≠ n := by
          intro c hc
          obtain ⟨k, hkc⟩ := (hvs_mem c).1 hc
          have hlt := (hinv.child_lt n nn k c hnn hkc).1
          have hcs : c ≠ start := by
            have := hinv.headReach_le start n hnreach
            omega
          have hnot : c ∉ S1 ++ V := by
            intro hmem
            obtain ⟨p, hpV, pn, k1, hpn, hk1⟩ :=
              hI.parent c (by simp at hmem ⊢; tauto) hcs
            have := (hinv.parent_unique n p nn pn k k1 c hnn hpn hkc hk1).1
            exact hnV (this ▸ hpV)
          simp only [List.mem_append, not_or] at hnot
          exact ⟨hnot.1, hnot.2, by omega⟩
        have hI2 : FindInv s.heap start tag (vs.reverse ++ S1) (n :: V) := by
          constructor
          case nodup =>
            rw [List.append_assoc]
            refine List.Nodup.append (List.nodup_reverse.2 hvs_nodup) ?_ ?_
            · exact (List.perm_middle.nodup_iff).2 (List.nodup_cons.2
                ⟨by simp [hnS1, hnV], hndrest⟩)
            · intro c hc1 hc2
              obtain ⟨h1, h2, h3⟩ := hvs_new c (List.mem_reverse.1 hc1)
              simp only [List.mem_append, List.mem_cons] at hc2
              rcases hc2 with h | h | h
              · exact h1 h
              · exact h3 h
              · exact h2 h
          case reach =>
            intro x hx
            simp only [List.mem_append, List.mem_reverse, List.mem_cons] at hx
            rcases hx with (hx | hx) | hx | hx
            · obtain ⟨k, hkc⟩ := (hvs_mem x).1 hx
              exact ⟨(hinv.child_lt n nn k x hnn hkc).2,
                HeadReach.child start n x nn k hnreach hnn hkc⟩
            · exact hI.reach x (by simp [hx])
            · subst hx; exact ⟨hnlt, hnreach⟩
            · exact hI.reach x (by simp [hx])
          case miss =>
            intro x hx xn hxn
            rcases List.mem_cons.1 hx with rfl | hx
            · rw [hnn] at hxn
              cases hxn
              exact hl
            · exact hI.miss x hx xn hxn
          case parent =>
            intro x hx hxs
            simp only [List.mem_append, List.mem_reverse, List.mem_cons] at hx
            rcases hx with (hx | hx) | hx | hx
            · obtain ⟨k, hkc⟩ := (hvs_mem x).1 hx
              exact ⟨n, List.mem_cons_self _ _, nn, k, hnn, hkc⟩
            · obtain ⟨p, hp, rest⟩ := hI.parent x (by simp [hx]) hxs
              exact ⟨p, List.mem_cons_of_mem _ hp, rest⟩
            · obtain ⟨p, hp, rest⟩ := hI.parent x (by simp [hx]) hxs
              exact ⟨p, List.mem_cons_of_mem _ hp, rest⟩
            · obtain ⟨p, hp, rest⟩ := hI.parent x (by simp [hx]) hxs
              exact ⟨p, List.mem_cons_of_mem _ hp, rest⟩
          case closure =>
            intro m hm
            rcases hI.closure m hm with hv | ⟨x, hx, hxm⟩
            · exact Or.inl (List.mem_cons_of_mem _ hv)
            · rcases List.mem_cons.1 hx with rfl | hx
              · rcases hxm.first_step with rfl | ⟨c, n1, k, hn1, hkc, hcm⟩
                · exact Or.inl (List.mem_cons_self _ _)
                · rw [hnn] at hn1
                  cases hn1
                  exact Or.inr ⟨c, by simp [(hvs_mem c).2 ⟨k, hkc⟩], hcm⟩
              · exact Or.inr ⟨x, by simp [hx], hxm⟩
          case above =>
            intro x hx a hplus ha
            simp only [List.mem_append, List.mem_reverse] at hx
            rcases hx with hx | hx
            · obtain ⟨k, hkc⟩ := (hvs_mem x).1 hx
              obtain ⟨p, pn, k1, hap, hpn, hk1⟩ := hplus
              have hpn_eq := (hinv.parent_unique n p nn pn k k1 x hnn hpn hkc hk1).1
              subst hpn_eq
              cases hap with
              | refl => exact List.mem_cons_self _ _
              | child b _ bn kb hab hbn hkb =>
                exact List.mem_cons_of_mem _
                  (hI.above n (List.mem_cons_self _ _) a ⟨b, bn, kb, hab, hbn, hkb⟩ ha)
            · exact List.mem_cons_of_mem _ (hI.above x (List.mem_cons_of_mem _ hx) a hplus ha)
        obtain ⟨res, hrun, hres⟩ := ih (vs.reverse ++ S1) (n :: V) hI2
          (by simp only [List.length_cons]; omega)
        refine ⟨res, ?_, hres⟩
        simp only [rest_xml_node_find_loop, hnn, hl, foldl_push]
        exact hrun

/-- The search from a node of a memory built by the builder returns, and its
result is as `FindResult` says. -/
theorem find_spec (ord : HashOrder) (G : List Origin) (s : ParseState) (hinv : Inv G s)
    (start : Nat) (tag : String) (hstart : start < s.heap.length) :
    ∃ res, rest_xml_node_find ord s.heap start tag = .ok res ∧
      FindResult s.heap start tag res := by
  refine find_loop_spec ord G s hinv start tag s.heap.length [start] [] ?_ ?_
  · constructor
    case nodup => simp
    case reach =>
      intro x hx
      simp at hx
      subst hx
      exact ⟨hstart, HeadReach.refl _⟩
    case miss => intro x hx; simp at hx
    case parent =>
      intro x hx hne
      simp at hx
      exact absurd hx hne
    case closure => intro m hm; exact Or.inr ⟨start, by simp, hm⟩
    case above =>
      intro x hx a hplus ha
      simp at hx
      subst hx
      exfalso
      obtain ⟨p, pn, k, hap, hpn, hkc⟩ := hplus
      have h1 := hinv.headReach_le a p hap
      have h2 := (hinv.child_lt p pn k x hpn hkc).1
      have h3 := hinv.headReach_le x a ha
      omega
  · simp

theorem origins_eq (ord : HashOrder) (toks : List Token) (s : ParseState) (G : List Origin)
    (hrun : trace_loop ord ParseState.init [] toks = .ok (s, G)) : origins ord toks = G := by
  unfold origins
  rw [hrun]

theorem sorted_head_le (L : List Nat) (r : Nat) (hs : L.Pairwise (· < ·))
    (hh : L.head? = some r) : ∀ j ∈ L, r ≤ j := by
  cases L with
  | nil => simp at hh
  | cons a b =>
    simp only [List.head?_cons, Option.some.injEq] at hh
    subst hh
    intro j hj
    rcases List.mem_cons.1 hj with rfl | hj
    · exact Nat.le_refl _
    · exact Nat.le_of_lt ((List.pairwise_cons.1 hs).1 j hj)

theorem sorted_le_last (L : List Nat) (r : Nat) (hs : L.Pairwise (· < ·))
    (hh : L.getLast? = some r) : ∀ j ∈ L, j ≤ r := by
  have hrev : L.reverse.Pairwise (· > ·) := List.pairwise_reverse.2 hs
  have hhead : L.reverse.head? = some r := by rw [List.head?_reverse]; exact hh
  intro j hj
  have hj1 : j ∈ L.reverse := List.mem_reverse.2 hj
  cases hL : L.reverse with
  | nil => rw [hL] at hj1; simp at hj1
  | cons a b =>
    rw [hL] at hhead hrev hj1
    simp only [List.head?_cons, Option.some.injEq] at hhead
    subst hhead
    rcases List.mem_cons.1 hj1 with rfl | hj2
    · exact Nat.le_refl _
    · exact Nat.le_of_lt ((List.pairwise_cons.1 hrev).1 j hj2)

/-- The entry of a name in the table of a node and the children of that
name. -/
theorem Inv.lookup_none_kids {G : List Origin} {s : ParseState} (hinv : Inv G s)
    (p : Nat) (n : RestXmlNode) (k : String) (hn : s.heap[p]? = some n)
    (hl : g_hash_table_lookup n.children k = none) : kids G p k = [] := by
  by_cases hp : p ∈ s.nodes
  · have hch := hinv.chains_open p n k hn hp
    rw [hl] at hch
    cases hL : (kids G p k).reverse with
    | nil => exact List.reverse_eq_nil_iff.1 hL
    | cons a b => rw [hL] at hch; cases hch.1
  · have hch := hinv.chains_closed p n k hn hp
    rw [hl] at hch
    cases hL : kids G p k with
    | nil => rfl
    | cons a b => rw [hL] at hch; cases hch.1

theorem Inv.entry_name {G : List Origin} {s : ParseState} (hinv : Inv G s)
    (p : Nat) (n : RestXmlNode) (k : String) (c : Nat)
    (hn : s.heap[p]? = some n) (hkc : (k, c) ∈ n.children) :
    ∃ cn, s.heap[c]? = some cn ∧ cn.name = k := by
  obtain ⟨o, ho, _, hok⟩ := hinv.child_entry p n k c hn hkc
  obtain ⟨cn, hcn⟩ := getElem?_some_of_lt s.heap c (hinv.child_lt p n k c hn hkc).2
  obtain ⟨o1, ho1, hnm, _⟩ := hinv.node_origin c cn hcn
  rw [ho] at ho1
  cases ho1
  exact ⟨cn, hcn, hnm.trans hok⟩

/-! ## C3 -/

/-- C3 as stated fails in both directions of its "if and only if" that
concern nodes the search does not visit.  On `<t/>` the root carries the name
`t` and the search from the root reports not-found; on
`<r><a/><a><t/></a></r>` node 3 carries the name `t`, below the second `a`,
and the search from the root reports not-found, whether the tables are listed
in insertion order or latest first. -/
theorem find_existence_counterexample :
    (rest_xml_parser_parse_from_data HashOrder.insertion scenario_lone =
        .ok ([{ name := "t", attrs := [], children := [], next := none, content := none }],
             some 0) ∧
      rest_xml_node_find HashOrder.insertion
        [{ name := "t", attrs := [], children := [], next := none, content := none }] 0 "t" =
        .ok none) ∧
    (∃ h, rest_xml_parser_parse_from_data HashOrder.insertion scenario_hidden = .ok (h, some 0) ∧
      rest_xml_parser_parse_from_data HashOrder.latestFirst scenario_hidden = .ok (h, some 0) ∧
      h[3]?.map (fun n => n.name) = some "t" ∧
      rest_xml_node_find HashOrder.insertion h 0 "t" = .ok none ∧
      rest_xml_node_find HashOrder.latestFirst h 0 "t" = .ok none) :=
  ⟨⟨rfl, rfl⟩, ⟨_, rfl, rfl, rfl, rfl, rfl⟩⟩

/-- C3 amended (find correctness, existence).  For every tree the builder
returns and every tag, `rest_xml_node_find (root, tag)` returns, and it returns
a node if and only if at least one node other than the root that is reached
from the root through entries of `children` tables (chain heads, never `next`
links) carries the name `tag`; the returned node has name `tag`. -/
theorem find_existence (ord : HashOrder) (toks : List Token) (h : Heap) (root : Nat)
    (tag : String) (hp : rest_xml_parser_parse_from_data ord toks = .ok (h, some root)) :
    ∃ res, rest_xml_node_find ord h root tag = .ok res ∧
      ((∃ r, res = some r) ↔
        ∃ c cn, c ≠ root ∧ HeadReach h root c ∧ h[c]? = some cn ∧ cn.name = tag) ∧
      (∀ r, res = some r → ∃ rn, h[r]? = some rn ∧ rn.name = tag) := by
  obtain ⟨s, G, hrun, hh, hr, hinv⟩ := parse_eq_ok ord _ h (some root) hp
  subst hh
  have hroot : root < s.heap.length := by
    have := hinv.root
    rw [hr] at this
    by_cases h0 : s.heap.length = 0
    · simp [h0] at this
    · simp [h0] at this
      omega
  obtain ⟨res, hfind, hres⟩ := find_spec ord G s hinv root tag hroot
  unfold FindResult at hres
  have hfound : ∀ r, res = some r → ∃ m mn, HeadReach s.heap root m ∧ s.heap[m]? = some mn ∧
      (tag, r) ∈ mn.children := by
    intro r hr1
    obtain ⟨m, mn, hm, hmn, hl, _⟩ := hres.1 r hr1
    exact ⟨m, mn, hm, hmn, mem_of_lookup _ _ _ hl⟩
  refine ⟨res, hfind, ⟨?_, ?_⟩, ?_⟩
  · rintro ⟨r, hr1⟩
    obtain ⟨m, mn, hm, hmn, hkc⟩ := hfound r hr1
    obtain ⟨rn, hrn, hname⟩ := hinv.entry_name m mn tag r hmn hkc
    refine ⟨r, rn, ?_, HeadReach.child root m r mn tag hm hmn hkc, hrn, hname⟩
    have h1 := hinv.headReach_le root m hm
    have h2 := (hinv.child_lt m mn tag r hmn hkc).1
    omega
  · rintro ⟨c, cn, hne, hreach, hcn, hname⟩
    cases hres0 : res with
    | some r => exact ⟨r, rfl⟩
    | none =>
      exfalso
      cases hreach with
      | refl => exact hne rfl
      | child b _ bn k hb hbn hkc =>
        obtain ⟨cn1, hcn1, hk⟩ := hinv.entry_name b bn k c hbn hkc
        rw [hcn] at hcn1
        cases hcn1
        have hl := lookup_of_mem bn.children k c (hinv.keys_nodup b bn hbn) hkc
        rw [← hk, hname, hres.2 hres0 b bn hb hbn] at hl
        cases hl
  · intro r hr1
    obtain ⟨m, mn, _, hmn, hkc⟩ := hfound r hr1
    exact hinv.entry_name m mn tag r hmn hkc

/-- Witness of the amended C3 on `<a><b x="1"/><b x="2"/><c/></a>`, searching
`c` from the root. -/
theorem find_existence_witness :
    (∃ res, rest_xml_node_find HashOrder.insertion scenario_siblings_heap 0 "c" = .ok res ∧
      ((∃ r, res = some r) ↔
        ∃ c cn, c ≠ 0 ∧ HeadReach scenario_siblings_heap 0 c ∧
          scenario_siblings_heap[c]? = some cn ∧ cn.name = "c") ∧
      (∀ r, res = some r → ∃ rn, scenario_siblings_heap[r]? = some rn ∧ rn.name = "c")) ∧
    rest_xml_node_find HashOrder.insertion scenario_siblings_heap 0 "c" = .ok (some 3) :=
  ⟨find_existence HashOrder.insertion scenario_siblings _ 0 "c" rfl, rfl⟩

/-! ## C7 -/

/-- C7 as stated fails: on `<r><a><x><t/></x></a><a><t/></a></r>` the search
for `t` from the root returns node 3, which has three ancestors, although
node 5 also carries the name `t` and has two; the tables involved have one
entry each, so the order in which a table is listed plays no part. -/
theorem find_min_depth_counterexample :
    rest_xml_parser_parse_from_data HashOrder.insertion scenario_depth =
      .ok (scenario_depth_heap, some 0) ∧
    rest_xml_parser_parse_from_data HashOrder.latestFirst scenario_depth =
      .ok (scenario_depth_heap, some 0) ∧
    rest_xml_node_find HashOrder.insertion scenario_depth_heap 0 "t" = .ok (some 3) ∧
    rest_xml_node_find HashOrder.latestFirst scenario_depth_heap 0 "t" = .ok (some 3) ∧
    scenario_depth_heap[5]?.map (fun n => n.name) = some "t" ∧
    depth (origins HashOrder.insertion scenario_depth) scenario_depth_heap.length 3 = 3 ∧
    depth (origins HashOrder.insertion scenario_depth) scenario_depth_heap.length 5 = 2 :=
  ⟨rfl, rfl, rfl, rfl, rfl, rfl, rfl⟩

theorem depth_same_parent (G : List Origin) (a b m : Nat) (oa ob : Origin)
    (ha : G[a]? = some oa) (hb : G[b]? = some ob) (hpa : oa.parent = some m)
    (hpb : ob.parent = some m) (fuel : Nat) : depth G fuel a = depth G fuel b := by
  cases fuel with
  | zero => rfl
  | succ fuel => simp [depth, ha, hb, hpa, hpb]

/-- C7 amended (find correctness, nearest on its own path).  For every tree
the builder returns and every tag, when `rest_xml_node_find (root, tag)`
returns a node `r`: `r` is the entry of `tag` in the table of a node `m`
reached from the root through chain heads, and no node on the path from the
root to `m`, other than `m`, has a child named `tag`.  So among the nodes
named `tag` whose parent lies on the path from the root to the parent of `r`,
none is closer to the root than `r`; a node named `tag` elsewhere in the tree
can be. -/
theorem find_nearest_on_path (ord : HashOrder) (toks : List Token) (h : Heap) (root : Nat)
    (tag : String) (r : Nat)
    (hp : rest_xml_parser_parse_from_data ord toks = .ok (h, some root))
    (hf : rest_xml_node_find ord h root tag = .ok (some r)) :
    ∃ m mn, HeadReach h root m ∧ h[m]? = some mn ∧
      g_hash_table_lookup mn.children tag = some r ∧
      (∀ a an, HeadReach h root a → HeadReachPlus h a m → h[a]? = some an →
        g_hash_table_lookup an.children tag = none ∧
        ∀ (j : Nat) o, (origins ord toks)[j]? = some o → o.parent = some a → o.name ≠ tag) ∧
      (∀ (j : Nat) o a, (origins ord toks)[j]? = some o → o.name = tag → o.parent = some a →
        HeadReach h root a → (a = m ∨ HeadReachPlus h a m) →
        ∀ fuel, depth (origins ord toks) fuel r ≤ depth (origins ord toks) fuel j) := by
  obtain ⟨s, G, hrun, hh, hr, hinv⟩ := parse_eq_ok ord _ h (some root) hp
  subst hh
  rw [origins_eq ord toks s G hrun]
  have hroot : root < s.heap.length := by
    have := hinv.root
    rw [hr] at this
    by_cases h0 : s.heap.length = 0
    · simp [h0] at this
    · simp [h0] at this
      omega
  obtain ⟨res, hfind, hres⟩ := find_spec ord G s hinv root tag hroot
  rw [hf] at hfind
  cases hfind
  obtain ⟨m, mn, hm, hmn, hl, habove⟩ := hres.1 r rfl
  have hnokid : ∀ a an, HeadReach s.heap root a → HeadReachPlus s.heap a m →
      s.heap[a]? = some an →
      ∀ (j : Nat) o, G[j]? = some o → o.parent = some a → o.name ≠ tag := by
    intro a an ha hplus han j o ho hop hname
    have hnil := hinv.lookup_none_kids a an tag han (habove a an ha hplus han)
    have : j ∈ kids G a tag := (mem_kids G a tag j).2 ⟨o, ho, hop, hname⟩
    rw [hnil] at this
    simp at this
  refine ⟨m, mn, hm, hmn, hl, ?_, ?_⟩
  · intro a an ha hplus han
    exact ⟨habove a an ha hplus han, hnokid a an ha hplus han⟩
  · intro j o a ho hname hop ha hcase fuel
    obtain ⟨ro, hro, hrop, _⟩ := hinv.child_entry m mn tag r hmn (mem_of_lookup _ _ _ hl)
    rcases hcase with rfl | hplus
    · exact Nat.le_of_eq (depth_same_parent G r j a ro o hro ho hrop hop fuel)
    · exfalso
      have hlt : a < s.heap.length := by
        obtain ⟨p, pn, k, hap, hpn, hkc⟩ := hplus
        have h1 := hinv.headReach_le a p hap
        have h2 := getElem?_lt_heap hpn
        omega
      obtain ⟨an, han⟩ := getElem?_some_of_lt s.heap a hlt
      exact hnokid a an ha hplus han j o ho hop hname

/-- Witness of the amended C7 on `<r><a><x><t/></x></a><a><t/></a></r>`: the
node returned for `t` is node 3, the entry of the table of `x` (node 2). -/
theorem find_nearest_on_path_witness :
    ∃ m mn, HeadReach scenario_depth_heap 0 m ∧ scenario_depth_heap[m]? = some mn ∧
      g_hash_table_lookup mn.children "t" = some 3 ∧
      (∀ a an, HeadReach scenario_depth_heap 0 a → HeadReachPlus scenario_depth_heap a m →
        scenario_depth_heap[a]? = some an →
        g_hash_table_lookup an.children "t" = none ∧
        ∀ (j : Nat) o, (origins HashOrder.insertion scenario_depth)[j]? = some o →
          o.parent = some a → o.name ≠ "t") ∧
      (∀ (j : Nat) o a, (origins HashOrder.insertion scenario_depth)[j]? = some o →
        o.name = "t" → o.parent = some a → HeadReach scenario_depth_heap 0 a →
        (a = m ∨ HeadReachPlus scenario_depth_heap a m) →
        ∀ fuel, depth (origins HashOrder.insertion scenario_depth) fuel 3 ≤
          depth (origins HashOrder.insertion scenario_depth) fuel j) :=
  find_nearest_on_path HashOrder.insertion scenario_depth _ 0 "t" 3 rfl rfl

/-! ## C8 -/

/-- C8 as stated fails on a stream that ends before an element is closed: on
`<a><b x="1"/><b x="2"/>` the builder returns, the search for `b` from the
root returns node 2, the head of the chain of `b`, and the first child named
`b` in document order is node 1. -/
theorem find_chain_head_counterexample :
    ∃ h, rest_xml_parser_parse_from_data HashOrder.insertion scenario_truncated =
        .ok (h, some 0) ∧
      rest_xml_node_find HashOrder.insertion h 0 "b" = .ok (some 2) ∧
      kids (origins HashOrder.insertion scenario_truncated) 0 "b" = [1, 2] ∧
      h[0]?.map (fun n => chainFrom h h.length (g_hash_table_lookup n.children "b")) =
        some [2, 1] :=
  ⟨_, rfl, rfl, rfl, rfl⟩

/-- C8 amended (find excludes its start node and returns a chain head).  For
every memory the builder has built when it returns, every node `start` of it
and every tag, when `rest_xml_node_find (start, tag)` returns a node `r`: `r`
is not `start`, `r` is a proper descendant of `start` (reached through chain
heads), `r` has name `tag`, and `r` is the head of the `children[tag]` chain
of its parent `p`; that head is the first child of `p` named `tag` in
document order when `p` is no longer open at the end of the stream, and the
last one when `p` is still open. -/
theorem find_result_is_chain_head (ord : HashOrder) (toks : List Token) (s : ParseState)
    (G : List Origin) (start : Nat) (tag : String) (r : Nat)
    (hrun : trace_loop ord ParseState.init [] toks = .ok (s, G))
    (hstart : start < s.heap.length)
    (hf : rest_xml_node_find ord s.heap start tag = .ok (some r)) :
    r ≠ start ∧ HeadReachPlus s.heap start r ∧
    (∃ rn, s.heap[r]? = some rn ∧ rn.name = tag) ∧
    ∃ p pn o, G[r]? = some o ∧ o.parent = some p ∧ s.heap[p]? = some pn ∧
      g_hash_table_lookup pn.children tag = some r ∧
      (p ∉ s.nodes → ∀ j ∈ kids G p tag, r ≤ j) ∧
      (p ∈ s.nodes → ∀ j ∈ kids G p tag, j ≤ r) := by
  have hinv := trace_loop_inv ord toks [] _ s G Inv_init hrun
  obtain ⟨res, hfind, hres⟩ := find_spec ord G s hinv start tag hstart
  rw [hf] at hfind
  cases hfind
  obtain ⟨m, mn, hm, hmn, hl, _⟩ := hres.1 r rfl
  have hkc := mem_of_lookup _ _ _ hl
  obtain ⟨o, ho, hop, _⟩ := hinv.child_entry m mn tag r hmn hkc
  have h1 := hinv.headReach_le start m hm
  have h2 := (hinv.child_lt m mn tag r hmn hkc).1
  refine ⟨by omega, ⟨m, mn, tag, hm, hmn, hkc⟩, hinv.entry_name m mn tag r hmn hkc,
    m, mn, o, ho, hop, hmn, hl, ?_, ?_⟩
  · intro hclosed
    have hch := hinv.chains_closed m mn tag hmn hclosed
    rw [hl] at hch
    exact sorted_head_le _ r (kids_sorted G m tag) hch.head_eq.symm
  · intro hopen
    have hch := hinv.chains_open m mn tag hmn hopen
    rw [hl] at hch
    have hh := hch.head_eq
    rw [List.head?_reverse] at hh
    exact sorted_le_last _ r (kids_sorted G m tag) hh.symm

/-- Witness of the amended C8 on `<a><b x="1"/><b x="2"/><c/></a>`: the search
for `b` from the root returns node 1, the first `b`. -/
theorem find_result_is_chain_head_witness :
    ∃ s G, trace_loop HashOrder.insertion ParseState.init [] scenario_siblings = .ok (s, G) ∧
      rest_xml_node_find HashOrder.insertion s.heap 0 "b" = .ok (some 1) ∧
      (1 ≠ 0 ∧ HeadReachPlus s.heap 0 1 ∧
        (∃ rn, s.heap[1]? = some rn ∧ rn.name = "b") ∧
        ∃ p pn o, G[1]? = some o ∧ o.parent = some p ∧ s.heap[p]? = some pn ∧
          g_hash_table_lookup pn.children "b" = some 1 ∧
          (p ∉ s.nodes → ∀ j ∈ kids G p "b", 1 ≤ j) ∧
          (p ∈ s.nodes → ∀ j ∈ kids G p "b", j ≤ 1)) :=
  ⟨_, _, rfl, rfl,
    find_result_is_chain_head HashOrder.insertion scenario_siblings _ _ 0 "b" 1 rfl
      (by decide) rfl⟩

/-! ## Documents -/

theorem nesting_element (d : Nat) (name : String) (attrs : List (String × String))
    (e : Bool) (ts : List Token) :
    nesting d (.element name attrs e :: ts) = nesting (if e then d else d + 1) ts := rfl

theorem nesting_end (d : Nat) (name : String) (ts : List Token) :
    nesting (d + 1) (.endElement name :: ts) = nesting d ts := rfl

theorem nesting_text (d : Nat) (value : String) (ts : List Token) :
    nesting (d + 1) (.text value :: ts) = nesting (d + 1) ts := rfl

theorem nesting_other (d : Nat) (ts : List Token) :
    nesting d (.other :: ts) = nesting d ts := rfl

theorem nesting_content : ∀ (c : Content) (d : Nat) (ts : List Token),
    nesting (d + 1) (c.tokens ++ ts) = nesting (d + 1) ts := by
  intro c
  induction c with
  | nil => intro d ts; rfl
  | elem name attrs body rest ihb ihr =>
    intro d ts
    have : (Content.elem name attrs body rest).tokens ++ ts =
        .element name attrs false :: (body.tokens ++ (.endElement name :: (rest.tokens ++ ts))) := by
      simp [Content.tokens]
    rw [this, nesting_element]
    show nesting ((d + 1) + 1) _ = _
    rw [ihb (d + 1), nesting_end]
    exact ihr d ts
  | empty name attrs rest ih =>
    intro d ts
    have : (Content.empty name attrs rest).tokens ++ ts =
        .element name attrs true :: (rest.tokens ++ ts) := by
      simp [Content.tokens]
    rw [this, nesting_element]
    exact ih d ts
  | text value rest ih =>
    intro d ts
    have : (Content.text value rest).tokens ++ ts = .text value :: (rest.tokens ++ ts) := by
      simp [Content.tokens]
    rw [this, nesting_text]
    exact ih d ts
  | other rest ih =>
    intro d ts
    have : (Content.other rest).tokens ++ ts = .other :: (rest.tokens ++ ts) := by
      simp [Content.tokens]
    rw [this, nesting_other]
    exact ih d ts

theorem originsOf_length : ∀ (c : Content) (par : Option Nat) (base : Nat),
    (originsOf par base c).length = c.size := by
  intro c
  induction c with
  | nil => intro par base; rfl
  | elem name attrs body rest ihb ihr =>
    intro par base
    simp only [originsOf, Content.size, List.length_cons, List.length_append, ihb, ihr]
    omega
  | empty name attrs rest ih =>
    intro par base
    simp only [originsOf, Content.size, List.length_cons, ih]
    omega
  | text value rest ih => intro par base; exact ih par base
  | other rest ih => intro par base; exact ih par base

/-- The parent of an entry of the record of a content is the enclosing element
or an element of the content. -/
theorem originsOf_parent : ∀ (c : Content) (par : Option Nat) (base : Nat) (o : Origin),
    o ∈ originsOf par base c →
    o.parent = par ∨ ∃ q, o.parent = some q ∧ base ≤ q ∧ q < base + c.size := by
  intro c
  induction c with
  | nil => intro par base o ho; simp [originsOf] at ho
  | elem name attrs body rest ihb ihr =>
    intro par base o ho
    simp only [originsOf, List.mem_cons, List.mem_append] at ho
    rcases ho with rfl | ho | ho
    · exact Or.inl rfl
    · right
      rcases ihb (some base) (base + 1) o ho with h | ⟨q, hq, h1, h2⟩
      · exact ⟨base, h, Nat.le_refl _, by simp only [Content.size]; omega⟩
      · exact ⟨q, hq, by omega, by simp only [Content.size]; omega⟩
    · rcases ihr par (base + 1 + body.size) o ho with h | ⟨q, hq, h1, h2⟩
      · exact Or.inl h
      · exact Or.inr ⟨q, hq, by omega, by simp only [Content.size]; omega⟩
  | empty name attrs rest ih =>
    intro par base o ho
    simp only [originsOf, List.mem_cons] at ho
    rcases ho with rfl | ho
    · exact Or.inl rfl
    · rcases ih par (base + 1) o ho with h | ⟨q, hq, h1, h2⟩
      · exact Or.inl h
      · exact Or.inr ⟨q, hq, by omega, by simp only [Content.size]; omega⟩
  | text value rest ih =>
    intro par base o ho
    exact ih par base o ho
  | other rest ih =>
    intro par base o ho
    exact ih par base o ho

theorem kidsFrom_nil_of_forall (q : Nat) (k : String) : ∀ (L : List Origin) (base : Nat),
    (∀ o ∈ L, ¬ (o.parent = some q ∧ o.name = k)) → kidsFrom q k base L = [] := by
  intro L
  induction L with
  | nil => intro base _; rfl
  | cons o L ih =>
    intro base h
    rw [kidsFrom_cons, if_neg (h o (List.mem_cons_self _ _))]
    exact ih (base + 1) (fun x hx => h x (List.mem_cons_of_mem _ hx))

/-- The children, in the record of a content, of a node that is not an element
of the content. -/
theorem kidsFrom_originsOf (q : Nat) (k : String) : ∀ (c : Content) (par : Option Nat)
    (base : Nat), q < base →
    kidsFrom q k base (originsOf par base c) =
      if par = some q then directIds k base c else [] := by
  intro c
  induction c with
  | nil => intro par base _; simp [originsOf, directIds, kidsFrom]
  | elem name attrs body rest ihb ihr =>
    intro par base hq
    rw [originsOf, kidsFrom_cons, kidsFrom_append, originsOf_length,
      ihb (some base) (base + 1) (by omega), ihr par (base + 1 + body.size) (by omega)]
    have hne : ¬ (some base = some q) := by
      intro h
      have := Option.some.inj h
      omega
    rw [if_neg hne, List.nil_append]
    by_cases hp : par = some q
    · by_cases hn : name = k
      · simp [hp, hn, directIds]
      · simp [hp, hn, directIds]
    · simp [hp]
  | empty name attrs rest ih =>
    intro par base hq
    rw [originsOf, kidsFrom_cons, ih par (base + 1) (by omega)]
    by_cases hp : par = some q
    · by_cases hn : name = k
      · simp [hp, hn, directIds]
      · simp [hp, hn, directIds]
    · simp [hp]
  | text value rest ih =>
    intro par base hq
    exact ih par base hq
  | other rest ih =>
    intro par base hq
    exact ih par base hq

theorem directIds_nil_of_not_mem (k : String) : ∀ (c : Content) (base : Nat),
    k ∉ c.childNames → directIds k base c = [] := by
  intro c
  induction c with
  | nil => intro base _; rfl
  | elem name attrs body rest _ ihr =>
    intro base h
    simp only [Content.childNames, List.mem_cons, not_or] at h
    rw [directIds, if_neg (fun e => h.1 e.symm)]
    exact ihr _ h.2
  | empty name attrs rest ih =>
    intro base h
    simp only [Content.childNames, List.mem_cons, not_or] at h
    rw [directIds, if_neg (fun e => h.1 e.symm)]
    exact ih _ h.2
  | text value rest ih => intro base h; exact ih base h
  | other rest ih => intro base h; exact ih base h

theorem directIds_ne_nil_of_mem (k : String) : ∀ (c : Content) (base : Nat),
    k ∈ c.childNames → directIds k base c ≠ [] := by
  intro c
  induction c with
  | nil => intro base h; simp [Content.childNames] at h
  | elem name attrs body rest _ ihr =>
    intro base h
    simp only [Content.childNames, List.mem_cons] at h
    by_cases hn : name = k
    · simp [directIds, hn]
    · rw [directIds, if_neg hn]
      rcases h with h | h
      · exact absurd h.symm hn
      · exact ihr _ h
  | empty name attrs rest ih =>
    intro base h
    simp only [Content.childNames, List.mem_cons] at h
    by_cases hn : name = k
    · simp [directIds, hn]
    · rw [directIds, if_neg hn]
      rcases h with h | h
      · exact absurd h.symm hn
      · exact ih _ h
  | text value rest ih => intro base h; exact ih base h
  | other rest ih => intro base h; exact ih base h

theorem kids_split (q : Nat) (k : String) (A B : List Origin) :
    kids (A ++ B) q k = kids A q k ++ kidsFrom q k A.length B := by
  unfold kids
  rw [kidsFrom_append, Nat.zero_add]

theorem kids_nil_of_parent_lt (q : Nat) (k : String) (A : List Origin)
    (h : ∀ o ∈ A, ∀ p, o.parent = some p → p < q) : kids A q k = [] := by
  apply kidsFrom_nil_of_forall
  intro o ho hp
  exact Nat.lt_irrefl q (h o ho q hp.1)

theorem trace_loop_cons (ord : HashOrder) (s s1 : ParseState) (G : List Origin) (t : Token)
    (ts : List Token) (hstep : parse_step ord s t = .ok s1) :
    trace_loop ord s G (t :: ts) = trace_loop ord s1 (trace_step s G t) ts := by
  simp only [trace_loop, hstep]

/-- Running the tokens of a content inside an open element: the stack comes
back as it was and the record grows by the record of the content. -/
theorem run_content (ord : HashOrder) : ∀ (c : Content) (s : ParseState) (G : List Origin)
    (top : Nat) (stk : List Nat) (ts : List Token),
    Inv G s → s.nodes = top :: stk →
    ∃ s1, Inv (G ++ originsOf (some top) G.length c) s1 ∧ s1.nodes = s.nodes ∧
      trace_loop ord s G (c.tokens ++ ts) =
        trace_loop ord s1 (G ++ originsOf (some top) G.length c) ts := by
  intro c
  induction c with
  | nil =>
    intro s G top stk ts hinv hn
    refine ⟨s, ?_, rfl, ?_⟩
    · simpa [originsOf] using hinv
    · simp [originsOf, Content.tokens]
  | elem name attrs body rest ihb ihr =>
    intro s G top stk ts hinv hn
    obtain ⟨s2, hstep2, hinv2, hnodes2, _⟩ := step_element ord G s hinv name attrs false
    have hG2 : trace_step s G (.element name attrs false) = G ++ [Origin.mk (some top) name attrs false] := by
      simp [trace_step, hn]
    rw [hG2] at hinv2
    simp only [Bool.false_eq_true, if_false] at hnodes2
    rw [← hinv.len] at hnodes2
    obtain ⟨s3, hinv3, hnodes3, hrun3⟩ :=
      ihb s2 (G ++ [Origin.mk (some top) name attrs false]) G.length s.nodes
        (.endElement name :: (rest.tokens ++ ts)) hinv2 hnodes2
    rw [hnodes2] at hnodes3
    obtain ⟨s4, hstep4, hinv4, hnodes4, _⟩ := step_end ord _ s3 hinv3 name G.length s.nodes hnodes3
    rw [hn] at hnodes4
    obtain ⟨s5, hinv5, hnodes5, hrun5⟩ := ihr s4 _ top stk ts hinv4 hnodes4
    have hG5 : G ++ [Origin.mk (some top) name attrs false] ++
          originsOf (some G.length) (G ++ [Origin.mk (some top) name attrs false]).length body ++
          originsOf (some top)
            (G ++ [Origin.mk (some top) name attrs false] ++
              originsOf (some G.length) (G ++ [Origin.mk (some top) name attrs false]).length body).length
            rest =
        G ++ originsOf (some top) G.length (.elem name attrs body rest) := by
      simp only [originsOf, List.length_append, List.length_cons, List.length_nil,
        originsOf_length, List.append_assoc, List.singleton_append, List.cons_append,
        List.nil_append, Nat.zero_add]
      rw [show G.length + (body.size + 1) = G.length + 1 + body.size by omega]
    rw [hG5] at hinv5 hrun5
    refine ⟨s5, hinv5, by rw [hnodes5, hnodes4, hn], ?_⟩
    have htok : (Content.elem name attrs body rest).tokens ++ ts =
        .element name attrs false ::
          (body.tokens ++ (.endElement name :: (rest.tokens ++ ts))) := by
      simp [Content.tokens]
    rw [htok, trace_loop_cons ord s s2 G _ _ hstep2, hG2, hrun3,
      trace_loop_cons ord s3 s4 _ _ _ hstep4]
    exact hrun5
  | empty name attrs rest ih =>
    intro s G top stk ts hinv hn
    obtain ⟨s2, hstep2, hinv2, hnodes2, _⟩ := step_element ord G s hinv name attrs true
    have hG2 : trace_step s G (.element name attrs true) = G ++ [Origin.mk (some top) name attrs true] := by
      simp [trace_step, hn]
    rw [hG2] at hinv2
    simp only [if_true] at hnodes2
    rw [hn] at hnodes2
    obtain ⟨s3, hinv3, hnodes3, hrun3⟩ := ih s2 _ top stk ts hinv2 hnodes2
    have hG3 : G ++ [Origin.mk (some top) name attrs true] ++
          originsOf (some top) (G ++ [Origin.mk (some top) name attrs true]).length rest =
        G ++ originsOf (some top) G.length (.empty name attrs rest) := by
      simp [originsOf]
    rw [hG3] at hinv3 hrun3
    refine ⟨s3, hinv3, by rw [hnodes3, hnodes2, hn], ?_⟩
    have htok : (Content.empty name attrs rest).tokens ++ ts =
        .element name attrs true :: (rest.tokens ++ ts) := by
      simp [Content.tokens]
    rw [htok, trace_loop_cons ord s s2 G _ _ hstep2, hG2]
    exact hrun3
  | text value rest ih =>
    intro s G top stk ts hinv hn
    obtain ⟨s2, hstep2, hinv2, hnodes2, _⟩ := step_text ord G s hinv value (by rw [hn]; simp)
    rw [hn] at hnodes2
    obtain ⟨s3, hinv3, hnodes3, hrun3⟩ := ih s2 G top stk ts hinv2 hnodes2
    refine ⟨s3, hinv3, by rw [hnodes3, hnodes2, hn], ?_⟩
    have htok : (Content.text value rest).tokens ++ ts = .text value :: (rest.tokens ++ ts) := by
      simp [Content.tokens]
    rw [htok, trace_loop_cons ord s s2 G _ _ hstep2]
    exact hrun3
  | other rest ih =>
    intro s G top stk ts hinv hn
    obtain ⟨s3, hinv3, hnodes3, hrun3⟩ := ih s G top stk ts hinv hn
    refine ⟨s3, hinv3, hnodes3, ?_⟩
    have htok : (Content.other rest).tokens ++ ts = .other :: (rest.tokens ++ ts) := by
      simp [Content.tokens]
    rw [htok, trace_loop_cons ord s s G .other _ rfl]
    exact hrun3

theorem kidsFrom_post_nil (q : Nat) (k : String) (post : List Origin) (base lo hi : Nat)
    (hpost : ∀ o ∈ post, ∀ p, o.parent = some p → ¬ (lo ≤ p ∧ p < hi))
    (h1 : lo ≤ q) (h2 : q < hi) : kidsFrom q k base post = [] := by
  apply kidsFrom_nil_of_forall
  intro o ho hp
  exact hpost o ho q hp.1 ⟨h1, h2⟩

/-- A record that contains the record of a content, between entries that do
not name its elements as parents, lays the content out. -/
theorem laid_segment : ∀ (c : Content) (pre post : List Origin) (par : Option Nat) (base : Nat),
    pre.length = base → (∀ q, par = some q → q < base) →
    (∀ o ∈ pre, ∀ q, o.parent = some q → q < base) →
    (∀ o ∈ post, ∀ q, o.parent = some q → ¬ (base ≤ q ∧ q < base + c.size)) →
    Laid (pre ++ originsOf par base c ++ post) par base c := by
  intro c
  induction c with
  | nil => intro pre post par base _ _ _ _; trivial
  | elem name attrs body rest ihb ihr =>
    intro pre post par base hlen hpar hpre hpost
    have hsize : (Content.elem name attrs body rest).size = 1 + body.size + rest.size := rfl
    rw [hsize] at hpost
    have hG : pre ++ originsOf par base (.elem name attrs body rest) ++ post =
        pre ++ (Origin.mk par name attrs false ::
          (originsOf (some base) (base + 1) body ++
            (originsOf par (base + 1 + body.size) rest ++ post))) := by
      simp [originsOf]
    have hparne : par ≠ some base := fun h => Nat.lt_irrefl _ (hpar base h)
    refine ⟨?_, ?_, ?_, ?_⟩
    · rw [hG, List.getElem?_append_right (by omega)]
      simp [hlen]
    · intro k
      rw [hG, kids_split, kids_nil_of_parent_lt base k pre hpre, List.nil_append, kidsFrom_cons,
        if_neg (fun h => hparne h.1), kidsFrom_append, kidsFrom_append, hlen,
        kidsFrom_originsOf base k body (some base) (base + 1) (by omega), if_pos rfl,
        originsOf_length, kidsFrom_originsOf base k rest par (base + 1 + body.size) (by omega),
        if_neg hparne,
        kidsFrom_post_nil base k post _ base (base + (1 + body.size + rest.size)) hpost
          (Nat.le_refl _) (by omega)]
      simp
    · have := ihb (pre ++ [Origin.mk par name attrs false])
        (originsOf par (base + 1 + body.size) rest ++ post) (some base) (base + 1)
        (by simp [hlen]) (fun q hq => by cases hq; omega)
        (fun o ho q hq => by
          rcases List.mem_append.1 ho with h | h
          · have := hpre o h q hq
            omega
          · simp only [List.mem_singleton] at h
            subst h
            have := hpar q hq
            omega)
        (fun o ho q hq hrange => by
          rcases List.mem_append.1 ho with h | h
          · rcases originsOf_parent rest par (base + 1 + body.size) o h with h1 | ⟨q1, hq1, h2, _⟩
            · rw [hq] at h1
              have := hpar q h1.symm
              omega
            · rw [hq] at hq1
              cases hq1
              omega
          · exact hpost o h q hq ⟨by omega, by omega⟩)
      rw [hG]
      simpa [List.append_assoc] using this
    · have := ihr (pre ++ Origin.mk par name attrs false :: originsOf (some base) (base + 1) body)
        post par (base + 1 + body.size)
        (by simp [hlen, originsOf_length]; omega) (fun q hq => by have := hpar q hq; omega)
        (fun o ho q hq => by
          rcases List.mem_append.1 ho with h | h
          · have := hpre o h q hq
            omega
          · rcases List.mem_cons.1 h with h | h
            · subst h
              have := hpar q hq
              omega
            · rcases originsOf_parent body (some base) (base + 1) o h with h1 | ⟨q1, hq1, _, h3⟩
              · rw [hq] at h1
                cases h1
                omega
              · rw [hq] at hq1
                cases hq1
                omega)
        (fun o ho q hq hrange => hpost o ho q hq ⟨by omega, by omega⟩)
      rw [hG]
      simpa [List.append_assoc] using this
  | empty name attrs rest ih =>
    intro pre post par base hlen hpar hpre hpost
    have hsize : (Content.empty name attrs rest).size = 1 + rest.size := rfl
    rw [hsize] at hpost
    have hG : pre ++ originsOf par base (.empty name attrs rest) ++ post =
        pre ++ (Origin.mk par name attrs true ::
          (originsOf par (base + 1) rest ++ post)) := by
      simp [originsOf]
    have hparne : par ≠ some base := fun h => Nat.lt_irrefl _ (hpar base h)
    refine ⟨?_, ?_, ?_⟩
    · rw [hG, List.getElem?_append_right (by omega)]
      simp [hlen]
    · intro k
      rw [hG, kids_split, kids_nil_of_parent_lt base k pre hpre, List.nil_append, kidsFrom_cons,
        if_neg (fun h => hparne h.1), kidsFrom_append, hlen,
        kidsFrom_originsOf base k rest par (base + 1) (by omega), if_neg hparne,
        kidsFrom_post_nil base k post _ base (base + (1 + rest.size)) hpost
          (Nat.le_refl _) (by omega)]
      simp
    · have := ih (pre ++ [Origin.mk par name attrs true]) post par (base + 1)
        (by simp [hlen]) (fun q hq => by have := hpar q hq; omega)
        (fun o ho q hq => by
          rcases List.mem_append.1 ho with h | h
          · have := hpre o h q hq
            omega
          · simp only [List.mem_singleton] at h
            subst h
            have := hpar q hq
            omega)
        (fun o ho q hq hrange => hpost o ho q hq ⟨by omega, by omega⟩)
      rw [hG]
      simpa [List.append_assoc] using this
  | text value rest ih =>
    intro pre post par base hlen hpar hpre hpost
    exact ih pre post par base hlen hpar hpre hpost
  | other rest ih =>
    intro pre post par base hlen hpar hpre hpost
    exact ih pre post par base hlen hpar hpre hpost

/-- The keys of the table of a closed node are the names of its children. -/
theorem Inv.keys_closed {G : List Origin} {s : ParseState} (hinv : Inv G s)
    (p : Nat) (n : RestXmlNode) (hn : s.heap[p]? = some n) (hp : p ∉ s.nodes) (k : String) :
    k ∈ n.children.map Prod.fst ↔ kids G p k ≠ [] := by
  have hch := hinv.chains_closed p n k hn hp
  constructor
  · intro hk hnil
    rw [hnil] at hch
    exact ((lookup_eq_none_iff n.children k).1 hch) hk
  · intro hne
    by_contra hk
    rw [(lookup_eq_none_iff n.children k).2 hk] at hch
    cases hL : kids G p k with
    | nil => exact hne hL
    | cons a b => rw [hL] at hch; cases hch.1

/-- A closed node whose children of some name are the single node `v`. -/
theorem Inv.single_child {G : List Origin} {s : ParseState} (hinv : Inv G s)
    (p : Nat) (n : RestXmlNode) (hn : s.heap[p]? = some n) (hp : p ∉ s.nodes) (k : String)
    (v : Nat) (hk : kids G p k = [v]) :
    g_hash_table_lookup n.children k = some v ∧ ∃ vn, s.heap[v]? = some vn ∧ vn.next = none := by
  have hch := hinv.chains_closed p n k hn hp
  rw [hk] at hch
  obtain ⟨h1, vn, hvn, h2⟩ := hch
  exact ⟨h1, vn, hvn, h2⟩

theorem mirrors_of_laid (G : List Origin) (s : ParseState) (hinv : Inv G s)
    (hclosed : s.nodes = []) : ∀ (c : Content) (p base : Nat),
    Laid G (some p) base c → c.NoDupSiblings →
    (∀ k ∈ c.childNames, kids G p k = directIds k base c) → p < s.heap.length →
    Mirrors s.heap p c := by
  have hnot : ∀ q, q ∉ s.nodes := by intro q; rw [hclosed]; simp
  intro c
  induction c with
  | nil => intro p base _ _ _ _; trivial
  | elem name attrs body rest ihb ihr =>
    intro p base hlaid hnd hkids hp
    obtain ⟨hG, hkb, hlb, hlr⟩ := hlaid
    obtain ⟨hname, hndb, hndr⟩ := hnd
    obtain ⟨pn, hpn⟩ := getElem?_some_of_lt s.heap p hp
    have hk1 : kids G p name = [base] := by
      rw [hkids name (by simp [Content.childNames]), directIds, if_pos rfl,
        directIds_nil_of_not_mem name rest _ hname]
    obtain ⟨hl, vn, hvn, hnext⟩ := hinv.single_child p pn hpn (hnot p) name base hk1
    obtain ⟨o, ho, hon, hoa⟩ := hinv.node_origin base vn hvn
    rw [hG] at ho
    cases ho
    refine ⟨⟨pn, base, vn, hpn, hl, hvn, hon, hoa, hnext, ?_, ?_⟩, ?_⟩
    · intro k
      rw [hinv.keys_closed base vn hvn (hnot base) k, hkb k]
      constructor
      · intro hne
        by_contra hk
        exact hne (directIds_nil_of_not_mem k body _ hk)
      · exact directIds_ne_nil_of_mem k body _
    · exact ihb base (base + 1) hlb hndb (fun k _ => hkb k) (getElem?_lt_heap hvn)
    · refine ihr p (base + 1 + body.size) hlr hndr ?_ hp
      intro k hk
      have hne : name ≠ k := fun e => hname (e ▸ hk)
      rw [hkids k (by simp [Content.childNames, hk]), directIds, if_neg hne]
  | empty name attrs rest ih =>
    intro p base hlaid hnd hkids hp
    obtain ⟨hG, hkb, hlr⟩ := hlaid
    obtain ⟨hname, hndr⟩ := hnd
    obtain ⟨pn, hpn⟩ := getElem?_some_of_lt s.heap p hp
    have hk1 : kids G p name = [base] := by
      rw [hkids name (by simp [Content.childNames]), directIds, if_pos rfl,
        directIds_nil_of_not_mem name rest _ hname]
    obtain ⟨hl, vn, hvn, hnext⟩ := hinv.single_child p pn hpn (hnot p) name base hk1
    obtain ⟨o, ho, hon, hoa⟩ := hinv.node_origin base vn hvn
    rw [hG] at ho
    cases ho
    refine ⟨⟨pn, base, vn, hpn, hl, hvn, hon, hoa, hnext, ?_⟩, ?_⟩
    · apply lookup_all_none
      intro k
      have hch := hinv.chains_closed base vn k hvn (hnot base)
      rw [hkb k] at hch
      exact hch
    · refine ih p (base + 1) hlr hndr ?_ hp
      intro k hk
      have hne : name ≠ k := fun e => hname (e ▸ hk)
      rw [hkids k (by simp [Content.childNames, hk]), directIds, if_neg hne]
  | text value rest ih =>
    intro p base hlaid hnd hkids hp
    exact ih p base hlaid hnd hkids hp
  | other rest ih =>
    intro p base hlaid hnd hkids hp
    exact ih p base hlaid hnd hkids hp

/-- C2 (shape law).  For every document whose root element has name `name`,
attributes `attrs` and content `body`, no element of which has two children
with the same tag name: the builder returns on the token stream of the
document, the returned root is node 0, it carries the name and the attributes
of the root element, the keys of its `children` table are exactly the tag
names of the root element's children, and the tree below it mirrors `body`:
every child element has, under its name, a one-node chain (`next = NULL`)
whose node corresponds to it in the same way, recursively (`Mirrors`); the
memory holds one node per element.  A document that is one self-closing
element gives the single node of that name, without children. -/
theorem shape_law (ord : HashOrder) (name : String) (attrs : List (String × String))
    (body : Content) (hnd : body.NoDupSiblings) :
    (∃ h rn, rest_xml_parser_parse_from_data ord (Content.elem name attrs body .nil).tokens =
        .ok (h, some 0) ∧
      h.length = 1 + body.size ∧ h[0]? = some rn ∧ rn.name = name ∧
      rn.attrs = attrs_table attrs ∧
      (∀ k, k ∈ rn.children.map Prod.fst ↔ k ∈ body.childNames) ∧
      Mirrors h 0 body) ∧
    rest_xml_parser_parse_from_data ord (Content.empty name attrs .nil).tokens =
      .ok ([{ name := name, attrs := attrs_table attrs, children := [], next := none,
              content := none }], some 0) := by
  constructor
  · obtain ⟨s2, hstep2, hinv2, hnodes2, _⟩ :=
      step_element ord [] ParseState.init Inv_init name attrs false
    have hG2 : trace_step ParseState.init [] (.element name attrs false) =
        [Origin.mk none name attrs false] := rfl
    rw [hG2] at hinv2
    have hnodes2' : s2.nodes = 0 :: [] := hnodes2
    obtain ⟨s3, hinv3, hnodes3, hrun3⟩ :=
      run_content ord body s2 [Origin.mk none name attrs false] 0 [] [.endElement name]
        hinv2 hnodes2'
    rw [hnodes2'] at hnodes3
    obtain ⟨s4, hstep4, hinv4, hnodes4, _⟩ := step_end ord _ s3 hinv3 name 0 [] hnodes3
    have hrun : trace_loop ord ParseState.init [] (Content.elem name attrs body .nil).tokens =
        .ok (s4, [Origin.mk none name attrs false] ++
          originsOf (some 0) [Origin.mk none name attrs false].length body) := by
      have htok : (Content.elem name attrs body .nil).tokens =
          .element name attrs false :: (body.tokens ++ [.endElement name]) := by
        simp [Content.tokens]
      rw [htok, trace_loop_cons ord _ s2 [] _ _ hstep2, hG2, hrun3,
        trace_loop_cons ord s3 s4 _ _ _ hstep4]
      rfl
    simp only [List.length_singleton] at hrun hinv4
    have hlen : s4.heap.length = 1 + body.size := by
      rw [← hinv4.len]
      simp only [List.length_append, List.length_singleton, originsOf_length]
    have hroot : s4.root_node = some 0 := by
      rw [hinv4.root]
      have : s4.heap.length ≠ 0 := by omega
      simp [this]
    obtain ⟨rn, hrn⟩ := getElem?_some_of_lt s4.heap 0 (by omega)
    obtain ⟨o, ho, hon, hoa⟩ := hinv4.node_origin 0 rn hrn
    simp only [List.singleton_append, List.getElem?_cons_zero, Option.some.injEq] at ho
    subst ho
    have hnot : (0 : Nat) ∉ s4.nodes := by rw [hnodes4]; simp
    have hkids : ∀ k, kids ([Origin.mk none name attrs false] ++ originsOf (some 0) 1 body) 0 k =
        directIds k 1 body := by
      intro k
      rw [kids_split, List.length_singleton,
        kidsFrom_originsOf 0 k body (some 0) 1 (by omega), if_pos rfl]
      simp [kids, kidsFrom]
    have hlaid : Laid ([Origin.mk none name attrs false] ++ originsOf (some 0) 1 body)
        (some 0) 1 body := by
      have := laid_segment body [Origin.mk none name attrs false] [] (some 0) 1 rfl
        (fun q hq => by cases hq; omega)
        (fun o ho q hq => by
          simp only [List.mem_singleton] at ho
          subst ho
          cases hq)
        (fun o ho => by simp at ho)
      simpa using this
    refine ⟨s4.heap, rn, ?_, hlen, hrn, hon, hoa, ?_, ?_⟩
    · rw [parse_of_trace ord _ s4 _ hrun, hroot]
    · intro k
      rw [hinv4.keys_closed 0 rn hrn hnot k, hkids k]
      constructor
      · intro hne
        by_contra hk
        exact hne (directIds_nil_of_not_mem k body _ hk)
      · exact directIds_ne_nil_of_mem k body _
    · exact mirrors_of_laid _ s4 hinv4 hnodes4 body 0 1 hlaid hnd (fun k _ => hkids k)
        (by omega)
  · rfl

/-- Witness of C2 on the document `<a><b><d/></b>text<c/></a>`. -/
theorem shape_law_witness :
    scenario_nested.NoDupSiblings ∧
    ((∃ h rn, rest_xml_parser_parse_from_data HashOrder.insertion
          (Content.elem "a" [] scenario_nested .nil).tokens = .ok (h, some 0) ∧
        h.length = 1 + scenario_nested.size ∧ h[0]? = some rn ∧ rn.name = "a" ∧
        rn.attrs = attrs_table [] ∧
        (∀ k, k ∈ rn.children.map Prod.fst ↔ k ∈ scenario_nested.childNames) ∧
        Mirrors h 0 scenario_nested) ∧
      rest_xml_parser_parse_from_data HashOrder.insertion (Content.empty "a" [] .nil).tokens =
        .ok ([{ name := "a", attrs := attrs_table [], children := [], next := none,
                content := none }], some 0)) ∧
    rest_xml_parser_parse_from_data HashOrder.insertion
        (Content.elem "a" [] scenario_nested .nil).tokens =
      .ok ([{ name := "a", attrs := [], children := [("b", 1), ("c", 3)], next := none,
              content := some "text" },
            { name := "b", attrs := [], children := [("d", 2)], next := none, content := none },
            { name := "d", attrs := [], children := [], next := none, content := none },
            { name := "c", attrs := [], children := [], next := none, content := none }],
           some 0) :=
  ⟨by simp [scenario_nested, Content.NoDupSiblings, Content.childNames],
    shape_law HashOrder.insertion "a" [] scenario_nested
      (by simp [scenario_nested, Content.NoDupSiblings, Content.childNames]), rfl⟩

/-! ## Runs without the record -/

theorem parse_loop_append (ord : HashOrder) : ∀ (a b : List Token) (s : ParseState),
    parse_loop ord s (a ++ b) =
      (match parse_loop ord s a with
        | .error e => .error e
        | .ok s1 => parse_loop ord s1 b) := by
  intro a
  induction a with
  | nil => intro b s; rfl
  | cons t ts ih =>
    intro b s
    simp only [List.cons_append, parse_loop]
    cases hstep : parse_step ord s t with
    | error e => rfl
    | ok s2 => exact ih b s2

/-- A run of the read loop that returns is a run with the record. -/
theorem trace_of_parse_loop (ord : HashOrder) (toks : List Token) (s : ParseState)
    (hrun : parse_loop ord ParseState.init toks = .ok s) :
    ∃ G, trace_loop ord ParseState.init [] toks = .ok (s, G) ∧ Inv G s := by
  rw [parse_loop_eq_trace ord toks [] ParseState.init] at hrun
  cases hr : trace_loop ord ParseState.init [] toks with
  | error e => rw [hr] at hrun; cases hrun
  | ok r =>
    obtain ⟨s1, G⟩ := r
    rw [hr] at hrun
    simp only [Except.ok.injEq] at hrun
    subst hrun
    exact ⟨G, rfl, trace_loop_inv ord toks [] _ s1 G Inv_init hr⟩

/-! ## C17 -/

/-- C17 (orphan end tag is unguarded).  When an element-end token arrives
while the stack of open elements is empty, the builder does not skip it: the
pop yields `NULL`, `rest_xml_node_reverse_children_siblings` dereferences it,
and the run on the whole stream ends in that fault instead of returning a
tree, whatever follows the token. -/
theorem orphan_end_tag_faults (ord : HashOrder) (pre post : List Token) (nm : String)
    (s1 : ParseState) (hpre : parse_loop ord ParseState.init pre = .ok s1)
    (hempty : s1.nodes = []) :
    rest_xml_node_reverse_children_siblings ord s1.heap s1.nodes.head? = .error .nullDeref ∧
    parse_step ord s1 (.endElement nm) = .error .nullDeref ∧
    rest_xml_parser_parse_from_data ord (pre ++ .endElement nm :: post) =
      .error .nullDeref := by
  have hstep := parse_step_end_nil ord s1 nm hempty
  refine ⟨by rw [hempty]; rfl, hstep, ?_⟩
  unfold rest_xml_parser_parse_from_data
  rw [parse_loop_append, hpre]
  simp only [parse_loop, hstep]

/-- Witness of C17: a self-closing root followed by an end token; and the
stream that is a single end token. -/
theorem orphan_end_tag_faults_witness :
    (rest_xml_node_reverse_children_siblings HashOrder.insertion
        [{ name := "a", attrs := [], children := [], next := none, content := none }]
        ([] : List Nat).head? = .error .nullDeref ∧
      parse_step HashOrder.insertion
        { heap := [{ name := "a", attrs := [], children := [], next := none, content := none }],
          nodes := [], cur_node := none, root_node := some 0 }
        (.endElement "a") = .error .nullDeref ∧
      rest_xml_parser_parse_from_data HashOrder.insertion
        ([.element "a" [] true] ++ .endElement "a" :: []) = .error .nullDeref) ∧
    rest_xml_parser_parse_from_data HashOrder.insertion [.endElement "a"] =
      .error .nullDeref :=
  ⟨orphan_end_tag_faults HashOrder.insertion [.element "a" [] true] [] "a" _ rfl rfl, rfl⟩

/-! ## C15 -/

/-- C15 (reverse insertion order while open).  For every prefix `pre` of a
well-nested stream the builder returns on `pre`, and in the memory it returns
then, for every node `p` that is still on the stack of open elements and
every tag name `T`: walking `p.children[T]` and following `next` yields the
children of `p` named `T` seen so far, each once, in decreasing address order,
that is most recently started first, and the oldest has `next = NULL`. -/
theorem reverse_order_while_open (ord : HashOrder) (pre post : List Token)
    (hwn : WellNested (pre ++ post)) :
    ∃ s G, trace_loop ord ParseState.init [] pre = .ok (s, G) ∧
      rest_xml_parser_parse_from_data ord pre = .ok (s.heap, s.root_node) ∧
      ∀ (p : Nat) (pn : RestXmlNode) (T : String),
        s.heap[p]? = some pn → p ∈ s.nodes →
        chainFrom s.heap s.heap.length (g_hash_table_lookup pn.children T) =
          (kids G p T).reverse ∧
        (kids G p T).Pairwise (· < ·) ∧
        (∀ j, j ∈ kids G p T ↔ ∃ oj, G[j]? = some oj ∧ oj.parent = some p ∧ oj.name = T) ∧
        (∀ first, (kids G p T).head? = some first →
          ∃ fn, s.heap[first]? = some fn ∧ fn.next = none) := by
  obtain ⟨d, hd⟩ := nesting_of_append pre post 0 hwn
  obtain ⟨s, G, hrun, hinv, _⟩ := trace_loop_ok ord pre [] ParseState.init d Inv_init hd
  refine ⟨s, G, hrun, parse_of_trace ord pre s G hrun, ?_⟩
  intro p pn T hpn hp
  have hch := hinv.chains_open p pn T hpn hp
  refine ⟨chainFrom_eq hch ?_, kids_sorted G p T, mem_kids G p T, ?_⟩
  · rw [List.length_reverse, ← hinv.len]
    exact kids_length_le G p T
  · intro first hfirst
    exact hch.last_next first (by rw [List.getLast?_reverse]; exact hfirst)

/-- Witness of C15: after the prefix `<a><b x="1"/><b x="2"/>` of
`<a><b x="1"/><b x="2"/><c/></a>` the chain of `b` below the open `a` is node 2
then node 1. -/
theorem reverse_order_while_open_witness :
    WellNested (scenario_truncated ++ [.element "c" [] true, .endElement "a"]) ∧
    (∃ s G, trace_loop HashOrder.insertion ParseState.init [] scenario_truncated = .ok (s, G) ∧
      rest_xml_parser_parse_from_data HashOrder.insertion scenario_truncated =
        .ok (s.heap, s.root_node) ∧
      ∀ (p : Nat) (pn : RestXmlNode) (T : String),
        s.heap[p]? = some pn → p ∈ s.nodes →
        chainFrom s.heap s.heap.length (g_hash_table_lookup pn.children T) =
          (kids G p T).reverse ∧
        (kids G p T).Pairwise (· < ·) ∧
        (∀ j, j ∈ kids G p T ↔ ∃ oj, G[j]? = some oj ∧ oj.parent = some p ∧ oj.name = T) ∧
        (∀ first, (kids G p T).head? = some first →
          ∃ fn, s.heap[first]? = some fn ∧ fn.next = none)) ∧
    rest_xml_parser_parse_from_data HashOrder.insertion scenario_truncated =
      .ok (scenario_truncated_heap, some 0) ∧
    chainFrom scenario_truncated_heap scenario_truncated_heap.length
      (g_hash_table_lookup [("b", 2)] "b") = [2, 1] :=
  ⟨by decide,
    reverse_order_while_open HashOrder.insertion scenario_truncated
      [.element "c" [] true, .endElement "a"] (by decide), rfl, rfl⟩

/-! ## C14 -/

/-- C14 (exact reach of find).  The head-closure of `start` is `HeadReach`:
`start`, and with every node the values of its `children` table.  For every
memory the builder has built when its read loop returns, every node `start`
of it and every tag, `rest_xml_node_find (start, tag)` returns, and it returns
a node if and only if some node of the head-closure of `start` has an entry
for `tag` in its `children` table; the node returned is the value of such an
entry; so when no node of the head-closure has an entry for `tag`, as when
`tag` occurs only below a non-head member of a chain, the answer is
not-found. -/
theorem find_exact_reach (ord : HashOrder) (toks : List Token) (s : ParseState)
    (start : Nat) (tag : String)
    (hrun : parse_loop ord ParseState.init toks = .ok s) (hstart : start < s.heap.length) :
    ∃ res, rest_xml_node_find ord s.heap start tag = .ok res ∧
      ((∃ r, res = some r) ↔
        ∃ m mn r1, HeadReach s.heap start m ∧ s.heap[m]? = some mn ∧
          g_hash_table_lookup mn.children tag = some r1) ∧
      (∀ r, res = some r →
        ∃ m mn, HeadReach s.heap start m ∧ s.heap[m]? = some mn ∧
          g_hash_table_lookup mn.children tag = some r) ∧
      ((∀ m mn, HeadReach s.heap start m → s.heap[m]? = some mn →
          g_hash_table_lookup mn.children tag = none) → res = none) := by
  obtain ⟨G, _, hinv⟩ := trace_of_parse_loop ord toks s hrun
  obtain ⟨res, hfind, hres⟩ := find_spec ord G s hinv start tag hstart
  unfold FindResult at hres
  have hsome : ∀ r, res = some r →
      ∃ m mn, HeadReach s.heap start m ∧ s.heap[m]? = some mn ∧
        g_hash_table_lookup mn.children tag = some r := by
    intro r hr
    obtain ⟨m, mn, hm, hmn, hl, _⟩ := hres.1 r hr
    exact ⟨m, mn, hm, hmn, hl⟩
  have hnone : (∀ m mn, HeadReach s.heap start m → s.heap[m]? = some mn →
      g_hash_table_lookup mn.children tag = none) → res = none := by
    intro hall
    cases hr : res with
    | none => rfl
    | some r =>
      obtain ⟨m, mn, hm, hmn, hl⟩ := hsome r hr
      rw [hall m mn hm hmn] at hl
      cases hl
  refine ⟨res, hfind, ⟨?_, ?_⟩, hsome, hnone⟩
  · rintro ⟨r, hr⟩
    obtain ⟨m, mn, hm, hmn, hl⟩ := hsome r hr
    exact ⟨m, mn, r, hm, hmn, hl⟩
  · rintro ⟨m, mn, r1, hm, hmn, hl⟩
    cases hr : res with
    | some r => exact ⟨r, rfl⟩
    | none =>
      rw [hres.2 hr m mn hm hmn] at hl
      cases hl

/-- Witness of C14 on `<r><a/><a><t/></a></r>`: node 3 is named `t`, it is
below the second `a`, and the search for `t` from the root reports
not-found. -/
theorem find_exact_reach_witness :
    (∃ res, rest_xml_node_find HashOrder.insertion scenario_hidden_heap 0 "t" = .ok res ∧
      ((∃ r, res = some r) ↔
        ∃ m mn r1, HeadReach scenario_hidden_heap 0 m ∧ scenario_hidden_heap[m]? = some mn ∧
          g_hash_table_lookup mn.children "t" = some r1) ∧
      (∀ r, res = some r →
        ∃ m mn, HeadReach scenario_hidden_heap 0 m ∧ scenario_hidden_heap[m]? = some mn ∧
          g_hash_table_lookup mn.children "t" = some r) ∧
      ((∀ m mn, HeadReach scenario_hidden_heap 0 m → scenario_hidden_heap[m]? = some mn →
          g_hash_table_lookup mn.children "t" = none) → res = none)) ∧
    rest_xml_node_find HashOrder.insertion scenario_hidden_heap 0 "t" = .ok none ∧
    scenario_hidden_heap[3]?.map (fun n => n.name) = some "t" ∧
    rest_xml_node_find HashOrder.insertion scenario_hidden_heap 2 "t" = .ok (some 3) :=
  ⟨find_exact_reach HashOrder.insertion scenario_hidden
      { heap := scenario_hidden_heap, nodes := [], cur_node := none, root_node := some 0 }
      0 "t" rfl (by decide),
    rfl, rfl, rfl⟩

/-! ## C18 -/

/-- The chain below an entry of a `children` table of the builder's memory. -/
theorem Inv.entry_chain {G : List Origin} {s : ParseState} (hinv : Inv G s)
    (p : Nat) (pn : RestXmlNode) (k : String) (v : Nat)
    (hpn : s.heap[p]? = some pn) (hkv : (k, v) ∈ pn.children) :
    ∃ L, IsChain s.heap (some v) L ∧ chainFrom s.heap s.heap.length (some v) = L ∧
      L.Nodup ∧ ∀ j, j ∈ L ↔ j ∈ kids G p k := by
  have hl := lookup_of_mem pn.children k v (hinv.keys_nodup p pn hpn) hkv
  have hlen : (kids G p k).length ≤ s.heap.length := by
    rw [← hinv.len]; exact kids_length_le G p k
  by_cases hp : p ∈ s.nodes
  · have hch := hinv.chains_open p pn k hpn hp
    rw [hl] at hch
    exact ⟨_, hch, chainFrom_eq hch (by rw [List.length_reverse]; exact hlen),
      List.nodup_reverse.2 (kids_nodup G p k), fun j => List.mem_reverse⟩
  · have hch := hinv.chains_closed p pn k hpn hp
    rw [hl] at hch
    exact ⟨_, hch, chainFrom_eq hch hlen, kids_nodup G p k, fun j => Iff.rfl⟩

/-- C18 (name-key invariant).  After every token that the read loop gets
through, on any stream: for every node `p` and every entry `(k, v)` of its
`children` table, the chain that starts at `v` ends with `next = NULL`, every
node of it has name `k`, no node is twice in it, and a node that is in the
chains of two entries is in the chain of one and the same entry of one and
the same table. -/
theorem name_key_invariant (ord : HashOrder) (pre : List Token) (s : ParseState)
    (hrun : parse_loop ord ParseState.init pre = .ok s) :
    (∀ (p : Nat) (pn : RestXmlNode) (k : String) (v : Nat),
      s.heap[p]? = some pn → (k, v) ∈ pn.children →
      IsChain s.heap (some v) (chainFrom s.heap s.heap.length (some v)) ∧
      (chainFrom s.heap s.heap.length (some v)).Nodup ∧
      ∀ j ∈ chainFrom s.heap s.heap.length (some v),
        ∃ n, s.heap[j]? = some n ∧ n.name = k) ∧
    (∀ (p q : Nat) (pn qn : RestXmlNode) (k k1 : String) (v v1 j : Nat),
      s.heap[p]? = some pn → (k, v) ∈ pn.children →
      s.heap[q]? = some qn → (k1, v1) ∈ qn.children →
      j ∈ chainFrom s.heap s.heap.length (some v) →
      j ∈ chainFrom s.heap s.heap.length (some v1) →
      p = q ∧ k = k1 ∧ v = v1) := by
  obtain ⟨G, _, hinv⟩ := trace_of_parse_loop ord pre s hrun
  constructor
  · intro p pn k v hpn hkv
    obtain ⟨L, hch, hcf, hnd, hmem⟩ := hinv.entry_chain p pn k v hpn hkv
    rw [hcf]
    refine ⟨hch, hnd, ?_⟩
    intro j hj
    obtain ⟨o, ho, _, hok⟩ := (mem_kids G p k j).1 ((hmem j).1 hj)
    obtain ⟨n, hn⟩ := getElem?_some_of_lt s.heap j (hch.lt_length j hj)
    obtain ⟨o1, ho1, hnm, _⟩ := hinv.node_origin j n hn
    rw [ho] at ho1
    cases ho1
    exact ⟨n, hn, hnm.trans hok⟩
  · intro p q pn qn k k1 v v1 j hpn hkv hqn hkv1 hj hj1
    obtain ⟨L, _, hcf, _, hmem⟩ := hinv.entry_chain p pn k v hpn hkv
    obtain ⟨L1, _, hcf1, _, hmem1⟩ := hinv.entry_chain q qn k1 v1 hqn hkv1
    rw [hcf] at hj
    rw [hcf1] at hj1
    obtain ⟨hpq, hkk⟩ := kids_name_unique G p q k k1 j ((hmem j).1 hj) ((hmem1 j).1 hj1)
    subst hpq
    subst hkk
    rw [hpn] at hqn
    cases hqn
    have h1 := lookup_of_mem pn.children k v (hinv.keys_nodup p pn hpn) hkv
    have h2 := lookup_of_mem pn.children k v1 (hinv.keys_nodup p pn hpn) hkv1
    rw [h1] at h2
    exact ⟨rfl, rfl, Option.some.inj h2⟩

/-- Witness of C18 after the prefix `<a><b x="1"/><b x="2"/>`: the chain of
`b` below `a` is node 2 then node 1, both named `b`. -/
theorem name_key_invariant_witness :
    ((∀ (p : Nat) (pn : RestXmlNode) (k : String) (v : Nat),
      scenario_truncated_heap[p]? = some pn → (k, v) ∈ pn.children →
      IsChain scenario_truncated_heap (some v)
        (chainFrom scenario_truncated_heap scenario_truncated_heap.length (some v)) ∧
      (chainFrom scenario_truncated_heap scenario_truncated_heap.length (some v)).Nodup ∧
      ∀ j ∈ chainFrom scenario_truncated_heap scenario_truncated_heap.length (some v),
        ∃ n, scenario_truncated_heap[j]? = some n ∧ n.name = k) ∧
    (∀ (p q : Nat) (pn qn : RestXmlNode) (k k1 : String) (v v1 j : Nat),
      scenario_truncated_heap[p]? = some pn → (k, v) ∈ pn.children →
      scenario_truncated_heap[q]? = some qn → (k1, v1) ∈ qn.children →
      j ∈ chainFrom scenario_truncated_heap scenario_truncated_heap.length (some v) →
      j ∈ chainFrom scenario_truncated_heap scenario_truncated_heap.length (some v1) →
      p = q ∧ k = k1 ∧ v = v1)) ∧
    chainFrom scenario_truncated_heap scenario_truncated_heap.length (some 2) = [2, 1] :=
  ⟨name_key_invariant HashOrder.insertion scenario_truncated
      { heap := scenario_truncated_heap, nodes := [0], cur_node := some 0, root_node := some 0 }
      rfl, rfl⟩

/-! ## C19 -/

theorem mem_keys_insert {V : Type} (t : List (String × V)) (k : String) (v : V) (x : String) :
    x ∈ (g_hash_table_insert t k v).map Prod.fst ↔ x ∈ t.map Prod.fst ∨ x = k := by
  by_cases h : k ∈ t.map Prod.fst
  · rw [keys_insert_of_mem t k v h]
    constructor
    · exact Or.inl
    · rintro (h1 | h1)
      · exact h1
      · exact h1 ▸ h
  · rw [keys_insert_of_not_mem t k v h]
    simp

theorem foldl_insert_keys : ∀ (a : List (String × String)) (t : List (String × String)),
    (t.map Prod.fst).Nodup →
    ((a.foldl (fun t kv => g_hash_table_insert t kv.1 kv.2) t).map Prod.fst).Nodup ∧
    ∀ x, x ∈ (a.foldl (fun t kv => g_hash_table_insert t kv.1 kv.2) t).map Prod.fst ↔
      x ∈ t.map Prod.fst ∨ x ∈ a.map Prod.fst := by
  intro a
  induction a with
  | nil => intro t ht; simpa using ht
  | cons kv a ih =>
    intro t ht
    obtain ⟨hnd, hmem⟩ := ih (g_hash_table_insert t kv.1 kv.2) (keys_insert_nodup t kv.1 kv.2 ht)
    refine ⟨hnd, fun x => ?_⟩
    rw [List.foldl_cons, hmem x, mem_keys_insert]
    simp only [List.map_cons, List.mem_cons]
    tauto

theorem attrs_table_keys (attrs : List (String × String)) :
    ((attrs_table attrs).map Prod.fst).Nodup ∧
    ∀ x, x ∈ (attrs_table attrs).map Prod.fst ↔ x ∈ attrs.map Prod.fst := by
  obtain ⟨hnd, hmem⟩ := foldl_insert_keys attrs [] (by simp)
  refine ⟨hnd, fun x => ?_⟩
  have := hmem x
  simpa using this

theorem attrs_table_length (attrs : List (String × String)) :
    (attrs_table attrs).length = (attrs.map Prod.fst).dedup.length := by
  obtain ⟨hnd, hmem⟩ := attrs_table_keys attrs
  have hperm : ((attrs_table attrs).map Prod.fst).Perm (attrs.map Prod.fst).dedup :=
    (List.perm_ext_iff_of_nodup hnd (List.nodup_dedup _)).2
      (fun x => by rw [hmem x, List.mem_dedup])
  have := hperm.length_eq
  simpa using this

/-- C19 (attribute lookup on repeated and missing names).  When the builder
returns on a stream, for the node created for an element-start token:
`rest_xml_node_get_attr` returns absent for every name that the attribute
enumerator did not yield; for a name yielded more than once it returns the
value of the last occurrence; and the number of entries of `attrs` is the
number of distinct names enumerated. -/
theorem attr_repeated_and_missing (ord : HashOrder) (pre post : List Token) (name : String)
    (attrs : List (String × String)) (e : Bool) (h : Heap) (root : Option Nat)
    (hp : rest_xml_parser_parse_from_data ord (pre ++ .element name attrs e :: post) =
      .ok (h, root)) :
    (∀ k, k ∉ attrs.map Prod.fst →
      rest_xml_node_get_attr h (countElements pre) k = .ok none) ∧
    (∀ a1 k v a2, attrs = a1 ++ (k, v) :: a2 → k ∉ a2.map Prod.fst →
      rest_xml_node_get_attr h (countElements pre) k = .ok (some v)) ∧
    (∃ n, h[countElements pre]? = some n ∧
      n.attrs.length = (attrs.map Prod.fst).dedup.length) := by
  obtain ⟨s, G, hrun, hh, _, _⟩ := parse_eq_ok ord _ h root hp
  obtain ⟨s1, G1, s2, n, _, _, _, _, _, _, hn, _, hattrs, _⟩ :=
    node_of_token ord pre post name attrs e s G hrun
  subst hh
  refine ⟨?_, ?_, n, hn, ?_⟩
  · intro k hk
    simp only [rest_xml_node_get_attr, hn, hattrs]
    rw [(lookup_eq_none_iff _ k).2 (fun hmem => hk ((attrs_table_keys attrs).2 k |>.1 hmem))]
  · intro a1 k v a2 ha hk
    simp only [rest_xml_node_get_attr, hn, hattrs, ha]
    rw [attrs_table_last a1 a2 k v hk]
  · rw [hattrs]
    exact attrs_table_length attrs

/-- Witness of C19 on the token `<a x="1" y="3" x="2"/>`: `x` gives `"2"`, `z`
is absent, and `attrs` has two entries. -/
theorem attr_repeated_and_missing_witness :
    ((∀ k, k ∉ ([("x", "1"), ("y", "3"), ("x", "2")] : List (String × String)).map Prod.fst →
      rest_xml_node_get_attr
        [{ name := "a", attrs := [("x", "2"), ("y", "3")], children := [], next := none,
           content := none }] (countElements []) k = .ok none) ∧
    (∀ a1 k v a2, [("x", "1"), ("y", "3"), ("x", "2")] = a1 ++ (k, v) :: a2 →
      k ∉ a2.map Prod.fst →
      rest_xml_node_get_attr
        [{ name := "a", attrs := [("x", "2"), ("y", "3")], children := [], next := none,
           content := none }] (countElements []) k = .ok (some v)) ∧
    (∃ n, ([{ name := "a", attrs := [("x", "2"), ("y", "3")], children := [], next := none,
              content := none }] : Heap)[countElements []]? = some n ∧
      n.attrs.length =
        (([("x", "1"), ("y", "3"), ("x", "2")] : List (String × String)).map
          Prod.fst).dedup.length)) ∧
    rest_xml_node_get_attr
      [{ name := "a", attrs := [("x", "2"), ("y", "3")], children := [], next := none,
         content := none }] 0 "x" = .ok (some "2") ∧
    rest_xml_node_get_attr
      [{ name := "a", attrs := [("x", "2"), ("y", "3")], children := [], next := none,
         content := none }] 0 "z" = .ok none :=
  ⟨attr_repeated_and_missing HashOrder.insertion [] []
      "a" [("x", "1"), ("y", "3"), ("x", "2")] true _ (some 0) rfl, rfl, rfl⟩

/-! ## C12 -/

theorem balance_append : ∀ (a b : List Token) (d : Nat),
    balance d (a ++ b) = (balance d a).bind (fun d1 => balance d1 b) := by
  intro a
  induction a with
  | nil => intro b d; rfl
  | cons t ts ih =>
    intro b d
    cases t with
    | element name attrs e => simp only [List.cons_append, balance]; exact ih b _
    | endElement nm =>
      cases d with
      | zero => rfl
      | succ d => simp only [List.cons_append, balance]; exact ih b _
    | text v => simp only [List.cons_append, balance]; exact ih b _
    | other => simp only [List.cons_append, balance]; exact ih b _

theorem balance_shift : ∀ (b : List Token) (d d1 k : Nat),
    balance d b = some d1 → balance (d + k) b = some (d1 + k) := by
  intro b
  induction b with
  | nil =>
    intro d d1 k h
    simp only [balance, Option.some.injEq] at h ⊢
    omega
  | cons t ts ih =>
    intro d d1 k h
    cases t with
    | element name attrs e =>
      simp only [balance] at h ⊢
      cases e with
      | true => exact ih d d1 k h
      | false =>
        have := ih (d + 1) d1 k h
        simp only [Bool.false_eq_true, if_false] at this ⊢
        rw [show d + k + 1 = d + 1 + k by omega]
        exact this
    | endElement nm =>
      cases d with
      | zero => simp [balance] at h
      | succ d =>
        simp only [balance] at h
        rw [show d + 1 + k = (d + k) + 1 by omega]
        simp only [balance]
        exact ih d d1 k h
    | text v => simp only [balance] at h ⊢; exact ih d d1 k h
    | other => simp only [balance] at h ⊢; exact ih d d1 k h

/-- A sequence that leaves an element open splits at the start token of the
innermost open element, and what follows that token is balanced. -/
theorem open_start_split : ∀ (n : Nat) (pre : List Token), pre.length = n → ∀ d : Nat,
    nesting 0 pre = some (d + 1) →
    ∃ pre0 name attrs between, pre = pre0 ++ .element name attrs false :: between ∧
      Balanced between ∧ nesting 0 pre0 = some d := by
  intro n
  induction n using Nat.strong_induction_on with
  | _ n ih =>
    intro pre hlen d hnest
    rcases List.eq_nil_or_concat pre with hnil | ⟨l, t, hpre⟩
    · subst hnil
      simp [nesting] at hnest
    · rw [List.concat_eq_append] at hpre
      subst hpre
      have hl : l.length < n := by rw [← hlen]; simp
      rw [nesting_append] at hnest
      cases hdl : nesting 0 l with
      | none => rw [hdl] at hnest; simp at hnest
      | some dl =>
        rw [hdl] at hnest
        simp only [Option.some_bind] at hnest
        have keep : ∀ tk : Token, dl = d + 1 → balance 0 [tk] = some 0 →
            ∃ pre0 name attrs between, l ++ [tk] = pre0 ++ .element name attrs false :: between ∧
              Balanced between ∧ nesting 0 pre0 = some d := by
          intro tk hdl1 hb
          subst hdl1
          obtain ⟨pre0, name, attrs, between, hsplit, hbal, hn0⟩ := ih l.length hl l rfl d hdl
          refine ⟨pre0, name, attrs, between ++ [tk], by rw [hsplit]; simp, ?_, hn0⟩
          show balance 0 (between ++ [tk]) = some 0
          rw [balance_append, show balance 0 between = some 0 from hbal]
          exact hb
        cases t with
        | element name attrs e =>
          cases e with
          | false =>
            simp only [nesting, Bool.false_eq_true, if_false, Option.some.injEq] at hnest
            exact ⟨l, name, attrs, [], rfl, rfl, by rw [hdl]; congr 1; omega⟩
          | true =>
            simp only [nesting, if_true, Option.some.injEq] at hnest
            exact keep _ hnest rfl
        | endElement nm =>
          cases dl with
          | zero => simp [nesting] at hnest
          | succ dl1 =>
            simp only [nesting, Option.some.injEq] at hnest
            subst hnest
            obtain ⟨p1, name1, attrs1, b1, hsplit1, hbal1, hn1⟩ :=
              ih l.length hl l rfl (d + 1) hdl
            have hp1 : p1.length < n := by
              have := congrArg List.length hsplit1
              simp at this
              omega
            obtain ⟨p0, name0, attrs0, b0, hsplit0, hbal0, hn0⟩ :=
              ih p1.length hp1 p1 rfl d hn1
            refine ⟨p0, name0, attrs0, b0 ++ .element name1 attrs1 false :: (b1 ++ [.endElement nm]),
              by rw [hsplit1, hsplit0]; simp, ?_, hn0⟩
            show balance 0 (b0 ++ .element name1 attrs1 false :: (b1 ++ [.endElement nm])) = some 0
            rw [balance_append, show balance 0 b0 = some 0 from hbal0]
            simp only [Option.some_bind, balance, Bool.false_eq_true, if_false]
            rw [balance_append, balance_shift b1 0 0 1 hbal1]
            rfl
        | text v =>
          cases dl with
          | zero => simp [nesting] at hnest
          | succ dl1 =>
            simp only [nesting, Option.some.injEq] at hnest
            exact keep _ hnest rfl
        | other =>
          simp only [nesting, Option.some.injEq] at hnest
          exact keep _ hnest rfl

/-- A balanced run gives the stack back; more generally the part of the stack
below the depth at which the run starts is not touched. -/
theorem run_balance (ord : HashOrder) : ∀ (toks : List Token) (G : List Origin)
    (s s2 : ParseState) (G2 : List Origin) (a base : List Nat) (d1 : Nat),
    Inv G s → s.nodes = a ++ base → balance a.length toks = some d1 →
    trace_loop ord s G toks = .ok (s2, G2) →
    ∃ a1, s2.nodes = a1 ++ base ∧ a1.length = d1 := by
  intro toks
  induction toks with
  | nil =>
    intro G s s2 G2 a base d1 _ hn hb hrun
    simp only [trace_loop] at hrun
    cases hrun
    simp only [balance, Option.some.injEq] at hb
    exact ⟨a, hn, hb⟩
  | cons t ts ih =>
    intro G s s2 G2 a base d1 hinv hn hb hrun
    simp only [trace_loop] at hrun
    cases hstep : parse_step ord s t with
    | error e => rw [hstep] at hrun; cases hrun
    | ok s3 =>
      rw [hstep] at hrun
      have hinv3 := step_inv ord G s s3 hinv t hstep
      cases t with
      | element name attrs e =>
        obtain ⟨s4, h4, _, hnodes, _⟩ := step_element ord G s hinv name attrs e
        rw [hstep] at h4
        cases h4
        cases e with
        | true =>
          simp only [if_true] at hnodes
          simp only [balance, if_true] at hb
          exact ih _ s3 s2 G2 a base d1 hinv3 (by rw [hnodes, hn]) hb hrun
        | false =>
          simp only [Bool.false_eq_true, if_false] at hnodes
          simp only [balance, Bool.false_eq_true, if_false] at hb
          exact ih _ s3 s2 G2 (s.heap.length :: a) base d1 hinv3
            (by rw [hnodes, hn]; rfl) hb hrun
      | endElement nm =>
        cases a with
        | nil => simp [balance] at hb
        | cons p a1 =>
          obtain ⟨s4, h4, _, hnodes, _⟩ := step_end ord G s hinv nm p (a1 ++ base) hn
          rw [hstep] at h4
          cases h4
          simp only [List.length_cons, balance] at hb
          exact ih _ s3 s2 G2 a1 base d1 hinv3 hnodes hb hrun
      | text value =>
        by_cases hne : s.nodes = []
        · rw [parse_step_text_nil ord G s hinv value hne] at hstep
          cases hstep
        · obtain ⟨s4, h4, _, hnodes, _⟩ := step_text ord G s hinv value hne
          rw [hstep] at h4
          cases h4
          simp only [balance] at hb
          exact ih _ s3 s2 G2 a base d1 hinv3 (by rw [hnodes, hn]) hb hrun
      | other =>
        simp only [parse_step] at hstep
        cases hstep
        simp only [balance] at hb
        exact ih _ s s2 G2 a base d1 hinv hn hb hrun

theorem nesting_before_end (pre post : List Token) (nm : String) (d : Nat)
    (h : nesting 0 (pre ++ .endElement nm :: post) = some d) :
    ∃ d1, nesting 0 pre = some (d1 + 1) := by
  rw [nesting_append] at h
  cases h1 : nesting 0 pre with
  | none => rw [h1] at h; simp at h
  | some dp =>
    rw [h1] at h
    cases dp with
    | zero => simp [nesting] at h
    | succ d1 => exact ⟨d1, rfl⟩

theorem nesting_before_text (pre post : List Token) (v : String) (d : Nat)
    (h : nesting 0 (pre ++ .text v :: post) = some d) :
    ∃ d1, nesting 0 pre = some (d1 + 1) := by
  rw [nesting_append] at h
  cases h1 : nesting 0 pre with
  | none => rw [h1] at h; simp at h
  | some dp =>
    rw [h1] at h
    cases dp with
    | zero => simp [nesting] at h
    | succ d1 => exact ⟨d1, rfl⟩

/-- C12 (stack discipline on well-nested input).  Let `toks` be well nested:
every end token matches an earlier start token that is not self-closing, in
LIFO order, and every text token arrives while an element is open, `d`
elements being still open at the end (`d = 0` for a complete document).  Then
the builder returns, without reaching any of its failure branches, with `d`
nodes on the stack of open elements, so with an empty stack when the document
is complete.  At each end token the stack is not empty, and the node popped is
the node created by the matching start token: the start token, not
self-closing, such that what stands between it and the end token is balanced;
that node has the address given by the number of element-start tokens before
its own, and below it the stack is as it was when that start token arrived.
At each text token there is a current node. -/
theorem stack_discipline (ord : HashOrder) (toks : List Token) (d : Nat)
    (hwn : nesting 0 toks = some d) :
    (∃ s, parse_loop ord ParseState.init toks = .ok s ∧ s.nodes.length = d ∧
      (WellNested toks → s.nodes = []) ∧
      rest_xml_parser_parse_from_data ord toks = .ok (s.heap, s.root_node)) ∧
    (∀ pre nm post, toks = pre ++ .endElement nm :: post →
      ∃ s1 p rest, parse_loop ord ParseState.init pre = .ok s1 ∧ s1.nodes = p :: rest ∧
        ∃ pre0 name attrs between s0,
          pre = pre0 ++ .element name attrs false :: between ∧ Balanced between ∧
          parse_loop ord ParseState.init pre0 = .ok s0 ∧ s0.heap.length = countElements pre0 ∧
          p = countElements pre0 ∧ rest = s0.nodes) ∧
    (∀ pre v post, toks = pre ++ .text v :: post →
      ∃ s1 c, parse_loop ord ParseState.init pre = .ok s1 ∧ s1.cur_node = some c) := by
  refine ⟨?_, ?_, ?_⟩
  · obtain ⟨s, G, hrun, _, hd⟩ := trace_loop_ok ord toks [] ParseState.init d Inv_init hwn
    refine ⟨s, parse_loop_of_trace ord toks _ s [] G hrun, hd, ?_,
      parse_of_trace ord toks s G hrun⟩
    intro hcomplete
    have hd0 : d = 0 := by
      have : nesting 0 toks = some 0 := hcomplete
      rw [hwn] at this
      exact Option.some.inj this
    rw [hd0] at hd
    exact List.length_eq_zero.1 hd
  · intro pre nm post htoks
    subst htoks
    obtain ⟨d1, hd1⟩ := nesting_before_end pre post nm d hwn
    obtain ⟨pre0, name, attrs, between, hsplit, hbal, hn0⟩ :=
      open_start_split pre.length pre rfl d1 hd1
    obtain ⟨s1, G1, hrun1, hinv1, _⟩ :=
      trace_loop_ok ord pre [] ParseState.init (d1 + 1) Inv_init hd1
    rw [hsplit] at hrun1
    obtain ⟨s0, G0, sa, hrun0, hstep, hrunb⟩ :=
      trace_split ord pre0 between (.element name attrs false) _ s1 [] G1 hrun1
    have hinv0 := trace_loop_inv ord pre0 [] _ s0 G0 Inv_init hrun0
    obtain ⟨sa1, hsa, hinva, hnodesa, _⟩ := step_element ord G0 s0 hinv0 name attrs false
    rw [hstep] at hsa
    cases hsa
    simp only [Bool.false_eq_true, if_false] at hnodesa
    obtain ⟨a1, hnodes1, ha1⟩ := run_balance ord between _ sa s1 G1 [] sa.nodes 0 hinva rfl
      hbal hrunb
    have ha1nil : a1 = [] := List.length_eq_zero.1 ha1
    subst ha1nil
    have hlen0 := trace_heap_length ord pre0 s0 G0 hrun0
    refine ⟨s1, countElements pre0, s0.nodes, ?_, ?_, pre0, name, attrs, between, s0, hsplit,
      hbal, parse_loop_of_trace ord pre0 _ s0 [] G0 hrun0, hlen0, rfl, rfl⟩
    · rw [hsplit]
      exact parse_loop_of_trace ord _ _ s1 [] G1 hrun1
    · rw [hnodes1, List.nil_append, hnodesa, hlen0]
  · intro pre v post htoks
    subst htoks
    obtain ⟨d1, hd1⟩ := nesting_before_text pre post v d hwn
    obtain ⟨s1, G1, hrun1, hinv1, hlen⟩ :=
      trace_loop_ok ord pre [] ParseState.init (d1 + 1) Inv_init hd1
    cases hn : s1.nodes with
    | nil => rw [hn] at hlen; simp at hlen
    | cons c rest =>
      exact ⟨s1, c, parse_loop_of_trace ord pre _ s1 [] G1 hrun1, by rw [hinv1.cur, hn]; rfl⟩

/-- Witness of C12 on `<a><b x="1"/><b x="2"/><c/></a>`. -/
theorem stack_discipline_witness :
    nesting 0 scenario_siblings = some 0 ∧
    ((∃ s, parse_loop HashOrder.insertion ParseState.init scenario_siblings = .ok s ∧
        s.nodes.length = 0 ∧ (WellNested scenario_siblings → s.nodes = []) ∧
        rest_xml_parser_parse_from_data HashOrder.insertion scenario_siblings =
          .ok (s.heap, s.root_node)) ∧
      (∀ pre nm post, scenario_siblings = pre ++ .endElement nm :: post →
        ∃ s1 p rest, parse_loop HashOrder.insertion ParseState.init pre = .ok s1 ∧
          s1.nodes = p :: rest ∧
          ∃ pre0 name attrs between s0,
            pre = pre0 ++ .element name attrs false :: between ∧ Balanced between ∧
            parse_loop HashOrder.insertion ParseState.init pre0 = .ok s0 ∧
            s0.heap.length = countElements pre0 ∧
            p = countElements pre0 ∧ rest = s0.nodes) ∧
      (∀ pre v post, scenario_siblings = pre ++ .text v :: post →
        ∃ s1 c, parse_loop HashOrder.insertion ParseState.init pre = .ok s1 ∧
          s1.cur_node = some c)) :=
  ⟨by decide, stack_discipline HashOrder.insertion scenario_siblings 0 (by decide)⟩

/-! ## C16: the reversal at close time on an arbitrary heap -/

theorem IsChain.suffix {h : Heap} : ∀ {A B : List Nat} {o : Option Nat},
    IsChain h o (A ++ B) → ∃ o1, IsChain h o1 B := by
  intro A
  induction A with
  | nil => intro B o hc; exact ⟨o, hc⟩
  | cons a A ih =>
    intro B o hc
    obtain ⟨_, n, _, hrest⟩ := hc
    exact ih hrest

theorem IsChain.nodup {h : Heap} : ∀ {L : List Nat} {o : Option Nat},
    IsChain h o L → L.Nodup := by
  intro L
  induction L with
  | nil => intro o _; exact List.nodup_nil
  | cons c L ih =>
    intro o hc
    have hc0 := hc
    obtain ⟨ho, n, hn, hrest⟩ := hc
    refine List.nodup_cons.2 ⟨?_, ih hrest⟩
    intro hmem
    obtain ⟨A, B, hAB⟩ := List.append_of_mem hmem
    rw [hAB] at hrest
    obtain ⟨o1, hsuf⟩ := IsChain.suffix hrest
    have ho1 : o1 = some c := hsuf.1
    rw [ho1, ← ho] at hsuf
    have := IsChain.unique hsuf hc0
    have hlen := congrArg List.length this
    rw [hAB] at hlen
    simp at hlen
    omega

theorem IsChain.next_eq {h h2 : Heap} : ∀ {L : List Nat} {o o2 : Option Nat},
    IsChain h o L → IsChain h2 o2 L → ∀ j ∈ L, ∀ n n2, h[j]? = some n → h2[j]? = some n2 →
    n2.next = n.next := by
  intro L
  induction L with
  | nil => intro o o2 _ _ j hj; simp at hj
  | cons c L ih =>
    intro o o2 hc hc2 j hj n n2 hn hn2
    obtain ⟨_, m, hm, hrest⟩ := hc
    obtain ⟨_, m2, hm2, hrest2⟩ := hc2
    rcases List.mem_cons.1 hj with rfl | hj
    · rw [hm] at hn
      rw [hm2] at hn2
      cases hn
      cases hn2
      rw [hrest.head_eq, hrest2.head_eq]
    · exact ih hrest hrest2 j hj n n2 hn hn2

theorem table_ext {V : Type} : ∀ (t u : List (String × V)),
    t.map Prod.fst = u.map Prod.fst → (t.map Prod.fst).Nodup →
    (∀ k, g_hash_table_lookup t k = g_hash_table_lookup u k) → t = u := by
  intro t
  induction t with
  | nil =>
    intro u hk _ _
    cases u with
    | nil => rfl
    | cons e u => simp at hk
  | cons e t ih =>
    intro u hk hnd hl
    cases u with
    | nil => simp at hk
    | cons f u =>
      obtain ⟨a, w⟩ := e
      obtain ⟨b, x⟩ := f
      simp only [List.map_cons, List.cons.injEq] at hk
      obtain ⟨hab, htl⟩ := hk
      subst hab
      simp only [List.map_cons, List.nodup_cons] at hnd
      have hw : w = x := by
        have := hl a
        simpa [g_hash_table_lookup] using this
      subst hw
      congr 1
      refine ih u htl hnd.2 (fun k => ?_)
      by_cases hak : a = k
      · subst hak
        rw [(lookup_eq_none_iff t a).2 hnd.1, (lookup_eq_none_iff u a).2 (htl ▸ hnd.1)]
      · have := hl k
        simpa [g_hash_table_lookup, hak] using this

/-- The loop of `rest_xml_node_reverse_children_siblings` on an arbitrary heap:
`ch k` is the chain under key `k` before the call; a key is still to be
handled when the head of its chain is among the values left. -/
theorem reverse_children_loop_exact (ch : String → List Nat) (p : Nat)
    (hself : ∀ k, p ∉ ch k) :
    ∀ (vs : List Nat) (h : Heap),
    vs.Nodup →
    (∀ v ∈ vs, ∃ k, (ch k).head? = some v) →
    (∀ k j, j ∈ ch k → ∃ n, h[j]? = some n ∧ n.name = k) →
    (∃ pn, h[p]? = some pn ∧ (pn.children.map Prod.fst).Nodup ∧
      ∀ k, ((∃ v ∈ vs, (ch k).head? = some v) →
              IsChain h (g_hash_table_lookup pn.children k) (ch k)) ∧
           ((¬ ∃ v ∈ vs, (ch k).head? = some v) →
              IsChain h (g_hash_table_lookup pn.children k) (ch k).reverse)) →
    ∃ h1, rest_xml_node_reverse_children_siblings_loop p h vs = .ok h1 ∧
      h1.length = h.length ∧
      (∀ (j : Nat) n, h[j]? = some n → ∃ n1, h1[j]? = some n1 ∧ n1.name = n.name ∧
        n1.attrs = n.attrs ∧ n1.content = n.content ∧
        (j ≠ p → n1.children = n.children) ∧
        (n1.children.map Prod.fst = n.children.map Prod.fst) ∧
        ((∀ k, j ∉ ch k) → n1.next = n.next)) ∧
      (∀ pn1, h1[p]? = some pn1 →
        ∀ k, IsChain h1 (g_hash_table_lookup pn1.children k) (ch k).reverse) := by
  intro vs
  induction vs with
  | nil =>
    intro h _ _ _ hp
    obtain ⟨pn, hpn, _, hch⟩ := hp
    refine ⟨h, rfl, rfl, ?_, ?_⟩
    · intro j n hn
      exact ⟨n, hn, rfl, rfl, rfl, fun _ => rfl, rfl, fun _ => rfl⟩
    · intro pn1 hpn1 k
      rw [hpn] at hpn1
      cases hpn1
      exact (hch k).2 (by rintro ⟨v, hv, _⟩; simp at hv)
  | cons v vs ih =>
    intro h hnd hvs hnames hp
    obtain ⟨pn, hpn, hkeys, hch⟩ := hp
    obtain ⟨kv, hhd⟩ := hvs v (List.mem_cons_self _ _)
    have hchain := (hch kv).1 ⟨v, List.mem_cons_self _ _, hhd⟩
    have hhead : g_hash_table_lookup pn.children kv = some v := by
      rw [hchain.head_eq, hhd]
    rw [hhead] at hchain
    have hcnd : (ch kv).Nodup := hchain.nodup
    have hfuel : (ch kv).length ≤ h.length :=
      nodup_length_le _ _ hcnd (fun j hj => hchain.lt_length j hj)
    obtain ⟨h1, o1, hrun, hch1, hlen1, hframe1, hdata1⟩ :=
      reverse_siblings_loop_spec (ch kv) h.length h (some v) none []
        hchain rfl (by simpa using hcnd) hfuel
    simp only [List.append_nil] at hch1
    have hvmem : v ∈ ch kv := List.mem_of_mem_head? hhd
    -- the new head is the last node of the chain
    obtain ⟨last, hlast⟩ : ∃ last, (ch kv).getLast? = some last := by
      cases hk : (ch kv).getLast? with
      | none =>
        rw [List.getLast?_eq_none_iff] at hk
        rw [hk] at hvmem
        simp at hvmem
      | some a => exact ⟨a, rfl⟩
    have ho1 : o1 = some last := by
      rw [hch1.head_eq, List.head?_reverse, hlast]
    subst ho1
    have hlmem : last ∈ ch kv := List.mem_of_getLast?_eq_some hlast
    obtain ⟨ln, hln, hlname⟩ := hnames kv last hlmem
    obtain ⟨ln1, hln1, hlno⟩ := hdata1 last ln hln
    have hlname1 : ln1.name = kv := hlno.1.trans hlname
    obtain ⟨pn1, hpn1, hpno⟩ := hdata1 p pn hpn
    have hpn1eq : pn1 = pn := by
      have := hframe1 p (hself kv)
      rw [hpn1, hpn] at this
      exact Option.some.inj this
    subst hpn1eq
    let pn2 : RestXmlNode :=
      { pn1 with children := g_hash_table_insert pn1.children kv last }
    let h2 : Heap := h1.set p pn2
    have hget2 : ∀ j : Nat, j ≠ p → h2[j]? = h1[j]? := fun j hj =>
      getElem?_set_ne_heap h1 p j pn2 hj
    have hget2p : h2[p]? = some pn2 := getElem?_set_self_heap h1 p pn2 pn1 hpn1
    have hlen2 : h2.length = h.length := by simp [h2, hlen1]
    have hkmem : kv ∈ pn1.children.map Prod.fst := by
      by_contra hnm
      rw [(lookup_eq_none_iff _ _).2 hnm] at hhead
      cases hhead
    have hvnot : v ∉ vs := (List.nodup_cons.1 hnd).1
    -- chains under different keys share no node
    have hdisj : ∀ k j, j ∈ ch k → j ∈ ch kv → k = kv := by
      intro k j hj hjv
      obtain ⟨n, hn, hnm⟩ := hnames k j hj
      obtain ⟨n1, hn1, hnm1⟩ := hnames kv j hjv
      rw [hn] at hn1
      cases hn1
      exact hnm.symm.trans hnm1
    have hnames2 : ∀ k j, j ∈ ch k → ∃ n, h2[j]? = some n ∧ n.name = k := by
      intro k j hj
      obtain ⟨n, hn, hnm⟩ := hnames k j hj
      obtain ⟨n1, hn1, hno⟩ := hdata1 j n hn
      refine ⟨n1, ?_, hno.1.trans hnm⟩
      rw [hget2 j (fun e => hself k (e ▸ hj))]
      exact hn1
    have hp2 : ∃ pn, h2[p]? = some pn ∧ (pn.children.map Prod.fst).Nodup ∧
        ∀ k, ((∃ v ∈ vs, (ch k).head? = some v) →
                IsChain h2 (g_hash_table_lookup pn.children k) (ch k)) ∧
             ((¬ ∃ v ∈ vs, (ch k).head? = some v) →
                IsChain h2 (g_hash_table_lookup pn.children k) (ch k).reverse) := by
      refine ⟨pn2, hget2p, keys_insert_nodup _ _ _ hkeys, ?_⟩
      intro k
      by_cases hk : k = kv
      · subst hk
        have hnp : ¬ ∃ v ∈ vs, (ch k).head? = some v := by
          rintro ⟨v1, hv1, hl1⟩
          rw [hhd] at hl1
          cases hl1
          exact hvnot hv1
        refine ⟨fun hpd => absurd hpd hnp, fun _ => ?_⟩
        show IsChain h2 (g_hash_table_lookup (g_hash_table_insert pn1.children k last) k)
          (ch k).reverse
        rw [lookup_insert_self]
        refine IsChain.congr (fun j hj n hn => ⟨n, ?_, rfl⟩) hch1
        rw [hget2 j (fun e => hself k (e ▸ List.mem_reverse.1 hj))]
        exact hn
      · have hlk : g_hash_table_lookup pn2.children k = g_hash_table_lookup pn1.children k :=
          lookup_insert_ne _ _ _ _ hk
        have hpeq : (∃ v1 ∈ v :: vs, (ch k).head? = some v1) ↔
            (∃ v1 ∈ vs, (ch k).head? = some v1) := by
          constructor
          · rintro ⟨v1, hv1, hl1⟩
            rcases List.mem_cons.1 hv1 with rfl | hv1
            · exact absurd (hdisj k v1 (List.mem_of_mem_head? hl1) hvmem) hk
            · exact ⟨v1, hv1, hl1⟩
          · rintro ⟨v1, hv1, hl1⟩
            exact ⟨v1, List.mem_cons_of_mem _ hv1, hl1⟩
        have hkeep : ∀ j, j ∈ ch k → ∀ n, h[j]? = some n →
            ∃ n1, h2[j]? = some n1 ∧ n1.next = n.next := by
          intro j hj n hn
          refine ⟨n, ?_, rfl⟩
          rw [hget2 j (fun e => hself k (e ▸ hj)), hframe1 j ?_]
          · exact hn
          · intro hjr
            exact hk (hdisj k j hj hjr)
        rw [hlk]
        constructor
        · intro hpd
          exact IsChain.congr hkeep ((hch k).1 (hpeq.2 hpd))
        · intro hpd
          exact IsChain.congr (fun j hj => hkeep j (List.mem_reverse.1 hj))
            ((hch k).2 (fun hc => hpd (hpeq.1 hc)))
    obtain ⟨h3, hrun3, hlen3, hdata3, hch3⟩ :=
      ih h2 (List.nodup_cons.1 hnd).2
        (fun v1 hv1 => hvs v1 (List.mem_cons_of_mem _ hv1)) hnames2 hp2
    refine ⟨h3, ?_, hlen3.trans hlen2, ?_, hch3⟩
    · simp only [rest_xml_node_reverse_children_siblings_loop, rest_xml_node_reverse_siblings,
        hrun, hln1, hpn1, hlname1]
      exact hrun3
    · intro j n hn
      obtain ⟨n1, hn1, hno⟩ := hdata1 j n hn
      by_cases hjp : j = p
      · subst hjp
        rw [hpn] at hn
        cases hn
        obtain ⟨n3, hn3, hnm3, hat3, hco3, _, hk3, hnx3⟩ := hdata3 j pn2 hget2p
        refine ⟨n3, hn3, hnm3, hat3, hco3, fun hne => absurd rfl hne, ?_, fun hnp => hnx3 hnp⟩
        rw [hk3]
        exact keys_insert_of_mem _ _ _ hkmem
      · have hn2 : h2[j]? = some n1 := by rw [hget2 j hjp]; exact hn1
        obtain ⟨n3, hn3, hnm3, hat3, hco3, hch3', hk3, hnx3⟩ := hdata3 j n1 hn2
        refine ⟨n3, hn3, hnm3.trans hno.1, hat3.trans hno.2.1, hco3.trans hno.2.2.2,
          fun _ => (hch3' hjp).trans hno.2.2.1, ?_, ?_⟩
        · rw [hk3, hno.2.2.1]
        · intro hnp
          rw [hnx3 hnp]
          have := hframe1 j (hnp kv)
          rw [hn1, hn] at this
          rw [Option.some.inj this]

/-- `rest_xml_node_reverse_children_siblings` on an arbitrary heap in which the
chain under each key `k` of node `p` is `ch k`. -/
theorem reverse_children_general (ord : HashOrder) (ch : String → List Nat) (p : Nat)
    (h : Heap) (pn : RestXmlNode) (hp : h[p]? = some pn)
    (hkeys : (pn.children.map Prod.fst).Nodup)
    (hchain : ∀ k, IsChain h (g_hash_table_lookup pn.children k) (ch k))
    (hnames : ∀ k j, j ∈ ch k → ∃ n, h[j]? = some n ∧ n.name = k)
    (hself : ∀ k, p ∉ ch k) :
    ∃ h1 pn1, rest_xml_node_reverse_children_siblings ord h (some p) = .ok h1 ∧
      h1.length = h.length ∧ h1[p]? = some pn1 ∧
      pn1.children.map Prod.fst = pn.children.map Prod.fst ∧
      (∀ k, IsChain h1 (g_hash_table_lookup pn1.children k) (ch k).reverse) ∧
      (∀ (j : Nat) n, h[j]? = some n → ∃ n1, h1[j]? = some n1 ∧ n1.name = n.name ∧
        n1.attrs = n.attrs ∧ n1.content = n.content ∧
        (j ≠ p → n1.children = n.children) ∧
        ((∀ k, j ∉ ch k) → n1.next = n.next)) := by
  have hhead : ∀ k v, (k, v) ∈ pn.children → (ch k).head? = some v := by
    intro k v hkv
    have := (hchain k).head_eq
    rw [lookup_of_mem _ k v hkeys hkv] at this
    exact this.symm
  have hvnd : (g_hash_table_get_values ord pn.children).Nodup := by
    refine values_nodup ord _ hkeys (fun k1 k2 v h1 h2 => ?_)
    obtain ⟨n, hn, hnm⟩ := hnames k1 v (List.mem_of_mem_head? (hhead k1 v h1))
    obtain ⟨n2, hn2, hnm2⟩ := hnames k2 v (List.mem_of_mem_head? (hhead k2 v h2))
    rw [hn] at hn2
    cases hn2
    exact hnm.symm.trans hnm2
  have hvs : ∀ v ∈ g_hash_table_get_values ord pn.children, ∃ k, (ch k).head? = some v := by
    intro v hv
    obtain ⟨k, hkv⟩ := (mem_values ord _ v).1 hv
    exact ⟨k, hhead k v hkv⟩
  obtain ⟨h1, hrun, hlen, hdata, hch1⟩ :=
    reverse_children_loop_exact ch p hself (g_hash_table_get_values ord pn.children) h hvnd hvs
      hnames ⟨pn, hp, hkeys, fun k => ⟨fun _ => hchain k, fun hnp => by
        cases hl : g_hash_table_lookup pn.children k with
        | none =>
          have hc := hchain k
          rw [hl] at hc
          have hnil : ch k = [] := by
            cases hk : ch k with
            | nil => rfl
            | cons a b => rw [hk] at hc; exact absurd hc.1 (by simp)
          rw [hnil]
          rfl
        | some v =>
          have hkv := mem_of_lookup _ k v hl
          exact absurd ⟨v, (mem_values ord _ v).2 ⟨k, hkv⟩, hhead k v hkv⟩ hnp⟩⟩
  obtain ⟨pn1, hpn1, _, _, _, _, hk1, _⟩ := hdata p pn hp
  refine ⟨h1, pn1, ?_, hlen, hpn1, hk1, hch1 pn1 hpn1, ?_⟩
  · simp only [rest_xml_node_reverse_children_siblings, hp]
    exact hrun
  · intro j n hn
    obtain ⟨n1, hn1, a, b, c, d, _, e⟩ := hdata j n hn
    exact ⟨n1, hn1, a, b, c, d, e⟩

/-- C16 (close-time reversal is exact, frame-preserving and involutive).  Let
`p` be a node of an arbitrary heap whose table of children has one entry per
key and in which the chain under each key ends, consists of nodes that carry
the key as their name, and does not contain `p` itself.  Then
`rest_xml_node_reverse_children_siblings` returns; the keys of `p` (and their
order in the table) are unchanged, as are the name, attributes, content and
`next` of `p`; under each key stands the chain of the same nodes in exactly
reversed order: its head is the former last node, the former head has
`next = NULL`, and a chain of one node is left as it was (same head, same
record); every other node keeps its name, attributes, content and children,
and a node outside all chains of `p` keeps its whole record; and a second call,
whatever the order in which the values are enumerated, gives the original
heap back. -/
theorem reverse_children_exact (ord ord2 : HashOrder) (h : Heap) (p : Nat) (pn : RestXmlNode)
    (hp : h[p]? = some pn) (hkeys : (pn.children.map Prod.fst).Nodup)
    (hch : ∀ kv ∈ pn.children,
      IsChain h (some kv.2) (chainFrom h h.length (some kv.2)) ∧
      ∀ j ∈ chainFrom h h.length (some kv.2), j ≠ p ∧ ∃ n, h[j]? = some n ∧ n.name = kv.1) :
    ∃ h1 pn1, rest_xml_node_reverse_children_siblings ord h (some p) = .ok h1 ∧
      h1.length = h.length ∧ h1[p]? = some pn1 ∧
      pn1.children.map Prod.fst = pn.children.map Prod.fst ∧
      pn1.name = pn.name ∧ pn1.attrs = pn.attrs ∧ pn1.content = pn.content ∧
      pn1.next = pn.next ∧
      (∀ k v, g_hash_table_lookup pn.children k = some v →
        ∃ w, g_hash_table_lookup pn1.children k = some w ∧
          chainFrom h1 h1.length (some w) = (chainFrom h h.length (some v)).reverse ∧
          IsChain h1 (some w) (chainFrom h h.length (some v)).reverse ∧
          (chainFrom h h.length (some v)).getLast? = some w ∧
          (∃ n1, h1[v]? = some n1 ∧ n1.next = none) ∧
          (chainFrom h h.length (some v) = [v] → w = v ∧ h1[v]? = h[v]?)) ∧
      (∀ (j : Nat) n, h[j]? = some n → j ≠ p → ∃ n1, h1[j]? = some n1 ∧ NextOnly n n1) ∧
      (∀ j : Nat, j ≠ p → (∀ kv ∈ pn.children, j ∉ chainFrom h h.length (some kv.2)) →
        h1[j]? = h[j]?) ∧
      rest_xml_node_reverse_children_siblings ord2 h1 (some p) = .ok h := by
  -- the chains before the call
  have hchain : ∀ k, IsChain h (g_hash_table_lookup pn.children k)
      (chainFrom h h.length (g_hash_table_lookup pn.children k)) := by
    intro k
    cases hl : g_hash_table_lookup pn.children k with
    | none => cases hh : h.length <;> rfl
    | some v => exact (hch (k, v) (mem_of_lookup _ k v hl)).1
  have hmem : ∀ k j, j ∈ chainFrom h h.length (g_hash_table_lookup pn.children k) →
      ∃ v, g_hash_table_lookup pn.children k = some v ∧ (k, v) ∈ pn.children := by
    intro k j hj
    cases hl : g_hash_table_lookup pn.children k with
    | none =>
      rw [hl] at hj
      have : chainFrom h h.length none = [] := by cases h.length <;> rfl
      rw [this] at hj
      simp at hj
    | some v => exact ⟨v, rfl, mem_of_lookup _ k v hl⟩
  have hnames : ∀ k j, j ∈ chainFrom h h.length (g_hash_table_lookup pn.children k) →
      ∃ n, h[j]? = some n ∧ n.name = k := by
    intro k j hj
    obtain ⟨v, hl, hkv⟩ := hmem k j hj
    rw [hl] at hj
    exact ((hch (k, v) hkv).2 j hj).2
  have hself : ∀ k, p ∉ chainFrom h h.length (g_hash_table_lookup pn.children k) := by
    intro k hj
    obtain ⟨v, hl, hkv⟩ := hmem k p hj
    rw [hl] at hj
    exact ((hch (k, v) hkv).2 p hj).1 rfl
  obtain ⟨h1, pn1, hrun, hlen, hpn1, hk1, hch1, hdata⟩ :=
    reverse_children_general ord _ p h pn hp hkeys hchain hnames hself
  -- the second call
  have hnames1 : ∀ k j,
      j ∈ (chainFrom h h.length (g_hash_table_lookup pn.children k)).reverse →
      ∃ n, h1[j]? = some n ∧ n.name = k := by
    intro k j hj
    obtain ⟨n, hn, hnm⟩ := hnames k j (List.mem_reverse.1 hj)
    obtain ⟨n1, hn1, hnm1, _⟩ := hdata j n hn
    exact ⟨n1, hn1, hnm1.trans hnm⟩
  obtain ⟨h2, pn2, hrun2, hlen2, hpn2, hk2, hch2, hdata2⟩ :=
    reverse_children_general ord2 _ p h1 pn1 hpn1 (hk1 ▸ hkeys) hch1 hnames1
      (fun k hj => hself k (List.mem_reverse.1 hj))
  have hback : h2 = h := by
    apply List.ext_getElem?
    intro j
    by_cases hj : j < h.length
    · obtain ⟨n, hn⟩ := getElem?_some_of_lt h j hj
      obtain ⟨n1, hn1, hnm1, hat1, hco1, hcd1, hnx1⟩ := hdata j n hn
      obtain ⟨n2, hn2, hnm2, hat2, hco2, hcd2, hnx2⟩ := hdata2 j n1 hn1
      rw [hn2, hn]
      congr 1
      refine node_ext n2 n (hnm2.trans hnm1) (hat2.trans hat1) ?_ ?_ (hco2.trans hco1)
      · by_cases hjp : j = p
        · subst hjp
          rw [hp] at hn
          rw [hpn1] at hn1
          rw [hpn2] at hn2
          cases hn
          cases hn1
          cases hn2
          refine table_ext _ _ (hk2.trans hk1) (hk2.trans hk1 ▸ hkeys) (fun k => ?_)
          have e2 := (hch2 k).head_eq
          rw [List.reverse_reverse] at e2
          rw [e2, ← (hchain k).head_eq]
        · exact (hcd2 hjp).trans (hcd1 hjp)
      · by_cases hin : ∃ k, j ∈ chainFrom h h.length (g_hash_table_lookup pn.children k)
        · obtain ⟨k, hjk⟩ := hin
          have c2 := hch2 k
          rw [List.reverse_reverse] at c2
          exact IsChain.next_eq (hchain k) c2 j hjk n n2 hn hn2
        · have hout : ∀ k, j ∉ chainFrom h h.length (g_hash_table_lookup pn.children k) :=
            fun k hjk => hin ⟨k, hjk⟩
          exact (hnx2 (fun k hjk => hout k (List.mem_reverse.1 hjk))).trans (hnx1 hout)
    · rw [List.getElem?_eq_none (by omega), List.getElem?_eq_none (by omega)]
  subst hback
  obtain ⟨pn1', hpn1', hpnm, hpat, hpco, _, hpnx⟩ := hdata p pn hp
  rw [hpn1] at hpn1'
  cases hpn1'
  refine ⟨h1, pn1, hrun, hlen, hpn1, hk1, hpnm, hpat, hpco, hpnx hself, ?_, ?_, ?_, hrun2⟩
  · intro k v hl
    have hc := hchain k
    have hc1 := hch1 k
    rw [hl] at hc hc1
    have hvmem : v ∈ chainFrom h2 h2.length (some v) := by
      have := hc.head_eq
      exact List.mem_of_mem_head? this.symm
    obtain ⟨w, hw⟩ : ∃ w, (chainFrom h2 h2.length (some v)).getLast? = some w := by
      cases hk : (chainFrom h2 h2.length (some v)).getLast? with
      | none =>
        rw [List.getLast?_eq_none_iff] at hk
        rw [hk] at hvmem
        simp at hvmem
      | some a => exact ⟨a, rfl⟩
    have hlw : g_hash_table_lookup pn1.children k = some w := by
      rw [hc1.head_eq, List.head?_reverse, hw]
    rw [hlw] at hc1
    have hlenle : (chainFrom h2 h2.length (some v)).reverse.length ≤ h1.length := by
      rw [List.length_reverse, hlen]
      exact nodup_length_le _ _ hc.nodup (fun j hj => hc.lt_length j hj)
    refine ⟨w, hlw, chainFrom_eq hc1 hlenle, hc1, hw, ?_, ?_⟩
    · refine hc1.last_next v ?_
      rw [List.getLast?_reverse]
      exact hc.head_eq.symm
    · intro hone
      rw [hone] at hw hc1
      have hwv : w = v := by simpa using hw.symm
      subst hwv
      refine ⟨rfl, ?_⟩
      have hvp : w ≠ p := fun e => hself k (by rw [hl, hone, e]; simp)
      rw [hone] at hc
      obtain ⟨_, n, hn, hnn⟩ := hc
      obtain ⟨n1, hn1, hnm1, hat1, hco1, hcd1, _⟩ := hdata w n hn
      obtain ⟨_, m1, hm1, hmn⟩ := hc1
      rw [hn1] at hm1
      cases hm1
      rw [hn1, hn]
      congr 1
      exact node_ext n1 n hnm1 hat1 (hcd1 hvp) ((show n1.next = none from hmn).trans
        (show n.next = none from hnn).symm) hco1
  · intro j n hn hjp
    obtain ⟨n1, hn1, hnm1, hat1, hco1, hcd1, _⟩ := hdata j n hn
    exact ⟨n1, hn1, hnm1, hat1, hcd1 hjp, hco1⟩
  · intro j hjp hout
    by_cases hj : j < h2.length
    · obtain ⟨n, hn⟩ := getElem?_some_of_lt h2 j hj
      obtain ⟨n1, hn1, hnm1, hat1, hco1, hcd1, hnx1⟩ := hdata j n hn
      rw [hn1, hn]
      congr 1
      refine node_ext n1 n hnm1 hat1 (hcd1 hjp) (hnx1 (fun k hjk => ?_)) hco1
      obtain ⟨v, hl, hkv⟩ := hmem k j hjk
      rw [hl] at hjk
      exact hout (k, v) hkv hjk
    · rw [List.getElem?_eq_none (by omega), List.getElem?_eq_none (by omega)]

/-- Witness of C16 on the heap after `<a><b x="1"/><b x="2"/>`, where the
chain of `b` below node 0 is node 2 then node 1. -/
theorem reverse_children_exact_witness :
    ∃ h1 pn1, rest_xml_node_reverse_children_siblings HashOrder.insertion
        scenario_truncated_heap (some 0) = .ok h1 ∧
      h1.length = scenario_truncated_heap.length ∧ h1[0]? = some pn1 ∧
      pn1.children.map Prod.fst = ["b"] ∧
      pn1.name = "a" ∧ pn1.attrs = [] ∧ pn1.content = none ∧ pn1.next = none ∧
      (∀ k v, g_hash_table_lookup [("b", 2)] k = some v →
        ∃ w, g_hash_table_lookup pn1.children k = some w ∧
          chainFrom h1 h1.length (some w) =
            (chainFrom scenario_truncated_heap scenario_truncated_heap.length (some v)).reverse ∧
          IsChain h1 (some w)
            (chainFrom scenario_truncated_heap scenario_truncated_heap.length (some v)).reverse ∧
          (chainFrom scenario_truncated_heap scenario_truncated_heap.length (some v)).getLast? =
            some w ∧
          (∃ n1, h1[v]? = some n1 ∧ n1.next = none) ∧
          (chainFrom scenario_truncated_heap scenario_truncated_heap.length (some v) = [v] →
            w = v ∧ h1[v]? = scenario_truncated_heap[v]?)) ∧
      (∀ (j : Nat) n, scenario_truncated_heap[j]? = some n → j ≠ 0 →
        ∃ n1, h1[j]? = some n1 ∧ NextOnly n n1) ∧
      (∀ j : Nat, j ≠ 0 → (∀ kv ∈ [("b", 2)],
          j ∉ chainFrom scenario_truncated_heap scenario_truncated_heap.length (some kv.2)) →
        h1[j]? = scenario_truncated_heap[j]?) ∧
      rest_xml_node_reverse_children_siblings HashOrder.latestFirst h1 (some 0) =
        .ok scenario_truncated_heap :=
  reverse_children_exact HashOrder.insertion HashOrder.latestFirst scenario_truncated_heap 0
    { name := "a", attrs := [], children := [("b", 2)], next := none, content := none }
    rfl (by decide)
    (by
      intro kv hkv
      rw [List.mem_singleton] at hkv
      subst hkv
      refine ⟨⟨rfl, _, rfl, rfl, _, rfl, rfl⟩, ?_⟩
      intro j hj
      have hj2 : j = 2 ∨ j = 1 := by
        have : j ∈ [2, 1] := hj
        simpa using this
      rcases hj2 with rfl | rfl
      · exact ⟨by decide, _, rfl, rfl⟩
      · exact ⟨by decide, _, rfl, rfl⟩)

/-! ## C13: the enumeration order of the values does not matter -/

/-- The heap after `rest_xml_node_reverse_children_siblings` does not depend on
the order in which the values of the table are enumerated. -/
theorem reverse_children_order_free (ord1 ord2 : HashOrder) (ch : String → List Nat) (p : Nat)
    (h : Heap) (pn : RestXmlNode) (hp : h[p]? = some pn)
    (hkeys : (pn.children.map Prod.fst).Nodup)
    (hchain : ∀ k, IsChain h (g_hash_table_lookup pn.children k) (ch k))
    (hnames : ∀ k j, j ∈ ch k → ∃ n, h[j]? = some n ∧ n.name = k)
    (hself : ∀ k, p ∉ ch k) :
    rest_xml_node_reverse_children_siblings ord1 h (some p) =
      rest_xml_node_reverse_children_siblings ord2 h (some p) := by
  obtain ⟨h1, pn1, hrun1, hlen1, hpn1, hk1, hch1, hdata1⟩ :=
    reverse_children_general ord1 ch p h pn hp hkeys hchain hnames hself
  obtain ⟨h2, pn2, hrun2, hlen2, hpn2, hk2, hch2, hdata2⟩ :=
    reverse_children_general ord2 ch p h pn hp hkeys hchain hnames hself
  rw [hrun1, hrun2]
  congr 1
  apply List.ext_getElem?
  intro j
  by_cases hj : j < h.length
  · obtain ⟨n, hn⟩ := getElem?_some_of_lt h j hj
    obtain ⟨n1, hn1, hnm1, hat1, hco1, hcd1, hnx1⟩ := hdata1 j n hn
    obtain ⟨n2, hn2, hnm2, hat2, hco2, hcd2, hnx2⟩ := hdata2 j n hn
    rw [hn1, hn2]
    congr 1
    refine node_ext n1 n2 (hnm1.trans hnm2.symm) (hat1.trans hat2.symm) ?_ ?_
      (hco1.trans hco2.symm)
    · by_cases hjp : j = p
      · subst hjp
        rw [hpn1] at hn1
        rw [hpn2] at hn2
        cases hn1
        cases hn2
        refine table_ext _ _ (hk1.trans hk2.symm) (hk1 ▸ hkeys) (fun k => ?_)
        rw [(hch1 k).head_eq, (hch2 k).head_eq]
      · exact (hcd1 hjp).trans (hcd2 hjp).symm
    · by_cases hin : ∃ k, j ∈ ch k
      · obtain ⟨k, hjk⟩ := hin
        exact IsChain.next_eq (hch2 k) (hch1 k) j (List.mem_reverse.2 hjk) n2 n1 hn2 hn1
      · have hout : ∀ k, j ∉ ch k := fun k hjk => hin ⟨k, hjk⟩
        exact (hnx1 hout).trans (hnx2 hout).symm
  · rw [List.getElem?_eq_none (by omega), List.getElem?_eq_none (by omega)]

/-- In a state of the builder one step gives the same state whatever the
enumeration order. -/
theorem step_order_free (ord1 ord2 : HashOrder) (G : List Origin) (s : ParseState)
    (hinv : Inv G s) (t : Token) : parse_step ord1 s t = parse_step ord2 s t := by
  cases t with
  | element name attrs e => rfl
  | text v => rfl
  | other => rfl
  | endElement nm =>
    cases hn : s.nodes with
    | nil => rw [parse_step_end_nil ord1 s nm hn, parse_step_end_nil ord2 s nm hn]
    | cons p rest =>
      have hpmem : p ∈ s.nodes := by rw [hn]; exact List.mem_cons_self _ _
      obtain ⟨pn, hpn⟩ := getElem?_some_of_lt s.heap p (hinv.stack_lt p hpmem)
      have hrev := reverse_children_order_free ord1 ord2 (fun k => (kids G p k).reverse) p
        s.heap pn hpn (hinv.keys_nodup p pn hpn)
        (fun k => hinv.chains_open p pn k hpn hpmem)
        (fun k j hj => by
          obtain ⟨o, ho, _, hok⟩ := (mem_kids G p k j).1 (List.mem_reverse.1 hj)
          have hjlt : j < s.heap.length := by
            rw [← hinv.len]
            by_contra hge
            rw [List.getElem?_eq_none (Nat.le_of_not_lt hge)] at ho
            cases ho
          obtain ⟨n, hjn⟩ := getElem?_some_of_lt s.heap j hjlt
          obtain ⟨o1, ho1, hnm, _⟩ := hinv.node_origin j n hjn
          rw [ho] at ho1
          cases ho1
          exact ⟨n, hjn, hnm.trans hok⟩)
        (fun k hj => by
          obtain ⟨o, ho, hop, _⟩ := (mem_kids G p k p).1 (List.mem_reverse.1 hj)
          exact Nat.lt_irrefl p (hinv.parent_lt p o p ho hop))
      simp only [parse_step, hn, List.head?_cons]
      rw [hrev]

theorem parse_loop_order_free (ord1 ord2 : HashOrder) : ∀ (toks : List Token)
    (G : List Origin) (s : ParseState), Inv G s →
    parse_loop ord1 s toks = parse_loop ord2 s toks := by
  intro toks
  induction toks with
  | nil => intro G s _; rfl
  | cons t ts ih =>
    intro G s hinv
    simp only [parse_loop]
    rw [step_order_free ord1 ord2 G s hinv t]
    cases hstep : parse_step ord2 s t with
    | error e => rfl
    | ok s1 => exact ih _ s1 (step_inv ord2 G s s1 hinv t hstep)

/-- C13 (idempotence; independence of the enumeration order).  Two builds
from the same token stream, the values of the children tables being enumerated
in any two orders, give the same result: the same memory (every node with the
same name, attributes, content, table of children and `next`) and the same
root, or the same fault.  The same holds token by token: in every state that
the builder reaches, the state after the next token does not depend on the
order of enumeration used for that token. -/
theorem parse_order_independent (ord1 ord2 : HashOrder) (toks : List Token) :
    rest_xml_parser_parse_from_data ord1 toks = rest_xml_parser_parse_from_data ord2 toks ∧
    (∀ pre s, parse_loop ord1 ParseState.init pre = .ok s →
      ∀ t, parse_step ord2 s t = parse_step ord1 s t) := by
  constructor
  · simp only [rest_xml_parser_parse_from_data]
    rw [parse_loop_order_free ord1 ord2 toks [] ParseState.init Inv_init]
  · intro pre s hrun t
    obtain ⟨G, _, hinv⟩ := trace_of_parse_loop ord1 pre s hrun
    exact step_order_free ord2 ord1 G s hinv t

/-! ## C11: what the destructor releases -/

theorem values_nil (ord : HashOrder) : g_hash_table_get_values ord [] = [] := by
  unfold g_hash_table_get_values
  rw [List.Perm.eq_nil (ord.perm [])]
  rfl

theorem values_singleton (ord : HashOrder) (k : String) (v : Nat) :
    g_hash_table_get_values ord [(k, v)] = [v] := by
  unfold g_hash_table_get_values
  rw [List.perm_singleton.1 (ord.perm [(k, v)])]
  rfl

/-- C11 (destructor coverage) fails on `<a><b/><b/></a>`.  The builder returns
the tree in which node 0 (`a`) has the one entry `b ↦ 1`, node 1 has
`next = 2` and node 2 has `next = NULL`.  On that tree, whatever the order of
enumeration, `rest_xml_node_free (root)` returns after releasing node 1 and
then node 0: node 2, the second `b`, which is reached from the root through
the entry of node 0 and the `next` of node 1, is not released. -/
theorem free_skips_later_siblings (ord : HashOrder) :
    rest_xml_parser_parse_from_data ord scenario_twins = .ok (scenario_twins_heap, some 0) ∧
    rest_xml_node_free ord scenario_twins_heap 0 = .ok [1, 0] ∧
    Reach scenario_twins_heap 0 2 ∧
    ∀ released, rest_xml_node_free ord scenario_twins_heap 0 = .ok released → 2 ∉ released := by
  have hparse : rest_xml_parser_parse_from_data ord scenario_twins =
      .ok (scenario_twins_heap, some 0) := by
    have h0 : rest_xml_parser_parse_from_data HashOrder.insertion scenario_twins =
        .ok (scenario_twins_heap, some 0) := rfl
    rw [← h0]
    simp only [rest_xml_parser_parse_from_data]
    rw [parse_loop_order_free ord HashOrder.insertion scenario_twins [] ParseState.init Inv_init]
  have hfree : rest_xml_node_free ord scenario_twins_heap 0 = .ok [1, 0] := by
    have h0 : scenario_twins_heap[0]? = some
        { name := "a", attrs := [], children := [("b", 1)], next := none, content := none } :=
      rfl
    have h1 : scenario_twins_heap[1]? = some
        { name := "b", attrs := [], children := [], next := some 2, content := none } := rfl
    simp only [rest_xml_node_free, scenario_twins_heap, List.length_cons, List.length_nil,
      rest_xml_node_free_fuel]
    simp only [← scenario_twins_heap.eq_1, h0, h1, values_singleton, values_nil,
      rest_xml_node_free_loop, rest_xml_node_free_fuel, List.nil_append, List.append_nil,
      List.cons_append]
  refine ⟨hparse, hfree, ?_, ?_⟩
  · exact Reach.next 0 1 2
      { name := "b", attrs := [], children := [], next := some 2, content := none }
      (Reach.child 0 0 1
        { name := "a", attrs := [], children := [("b", 1)], next := none, content := none }
        "b" (Reach.refl 0) rfl (List.mem_cons_self _ _)) rfl rfl
  · intro released hr
    rw [hfree] at hr
    cases hr
    decide

end RestXml
